import Mathlib

/-!
# Best-fit complexity (`src/soln.cpp`)

A shallow embedding of `soln.cpp`: given points `(n, t)`, for each candidate
complexity `f` the program searches the constant `C` for which `C * f` has the
least quadratic error, and prints the candidate whose error is least.

The program is embedded twice.

## Exact arithmetic (namespace `Blunder`)

* A `double` is an exact real number.  Rounding, overflow to infinity and the
  sign of zero are not represented.  Where the real result of an operation is
  undefined (`log` of a non-positive number, `sqrt` of a negative number,
  division by zero) the operation returns `none`: the C value there is an
  infinity or a NaN.
* The one division whose IEEE result the program only compares,
  `deltaerror = 1 - besterr/olderr`, keeps its IEEE outcome (`Delta`), because
  the `while` test on it decides whether the loop goes on.
* This embedding carries the properties of the algorithm as such: the formula of
  the error, the search interval, the growth functions, the minimiser.

## IEEE double arithmetic (namespace `Blunder.Ieee`)

* A `double` is a value of `Dbl`: a finite double is held as the integer number
  of units `2^-1074` it is made of, next to `+infinity`, `-infinity` and NaN.
* `+`, `-`, `*`, `/`, `sqrt`, `ceil`, `pow(x,2)`, `pow(x,3)` and `pow(2,k)` at an
  integer `k` give the exact result rounded to nearest, ties to even, to 53
  significant bits, with gradual underflow and overflow to infinity; every
  expression is evaluated in double precision, operation by operation.
  Comparisons with a NaN are false.
* The sign of zero is not represented: the zero divisors of the program (`n*n`
  wrapped to 0, a `besterr` of 0) are `+0`.
* What the C standard leaves open is a parameter (`Env`): `log` at a positive
  argument other than 1, `pow(2,x)` at a non-integer `x`, and the value found by
  a read of a `double` that the program has not written.  Properties are proved
  for every `Env`.
* This embedding carries the properties that depend on rounding, overflow or
  NaN: termination, the ranking, the rounds of the search on concrete inputs.

## Both

* An array and the `int` holding its length are one list; `int` arithmetic on
  the length (`n*n`) wraps to 32 bits.
* The `while` loop of `get_const` takes a number of rounds it may run (`fuel`).
-/

noncomputable section

namespace Blunder

/-! ## The program -/

/-- The enum `complexity` of the source; `last` is the loop sentinel. -/
inductive complexity where
  | c | logn | n | nlogn | n2 | n2logn | n3 | expo | last
  deriving DecidableEq, Repr

/-- A dataset: the array `double data[][2]`, row `i` being `(data[i][0], data[i][1])`,
that is (input size, runtime). -/
abbrev Dataset := List (ℝ × ℝ)

/-- What a call can end in: it returns, it reads outside an array, it produces a
value that is not a real number (infinity or NaN), or it is still looping when the
fuel is used up. -/
inductive Outcome (α : Type) where
  | ret (a : α)
  | out_of_range
  | not_real
  | out_of_fuel
  deriving DecidableEq

/-- Two's-complement wrap of an integer to a 32-bit `int`. -/
def wrap_int (z : ℤ) : ℤ := (z + 2 ^ 31) % 2 ^ 32 - 2 ^ 31

/-- Division of doubles; `none` when the divisor is zero (IEEE: infinity or NaN). -/
def fdiv (a b : ℝ) : Option ℝ := if b = 0 then none else some (a / b)

/-- The C function `sqrt`; `none` on a negative argument (IEEE: NaN). -/
def fsqrt (a : ℝ) : Option ℝ := if a < 0 then none else some (Real.sqrt a)

/-- The C function `log`; `none` on a non-positive argument (IEEE: -infinity or NaN). -/
def flog (x : ℝ) : Option ℝ := if 0 < x then some (Real.log x) else none

/-- The loop of `get_quadratic_loss`: `loss += pow(data[i][1] - test[i][1],2)/(n*n)`,
with `nn` the value of the `int` product `n*n`. -/
def loss_loop (nn : ℝ) : Dataset → List ℝ → ℝ → Option ℝ
  | d :: ds, t :: ts, loss =>
      (fdiv ((d.2 - t) ^ 2) nn).bind fun q => loss_loop nn ds ts (loss + q)
  | _, _, loss => some loss

/-- The function `get_quadratic_loss(data, test, n)`.  Only column 1 of `test` is ever
written or read, so `test` is the list of those values. -/
def get_quadratic_loss (data : Dataset) (test : List ℝ) : Option ℝ :=
  (loss_loop ((wrap_int ((data.length : ℤ) * (data.length : ℤ)) : ℤ) : ℝ) data test 0).bind fsqrt

/-- The `switch` of `get_error`: the value stored in `test[i][1]` for the constant `C`
at input size `x`.  The enum value `last` matches no case and stores nothing. -/
def predicted (comp : complexity) (C x : ℝ) : Option ℝ :=
  match comp with
  | .c => some C
  | .logn => (flog x).map fun l => C * l
  | .n => some (C * x)
  | .nlogn => (flog x).map fun l => C * x * l
  | .n2 => some (C * x ^ 2)
  | .n2logn => (flog x).map fun l => C * x ^ 2 * l
  | .n3 => some (C * x ^ 3)
  | .expo => some (C * (2 : ℝ) ^ x)
  | .last => none

/-- The first loop of `get_error`: fills `test[i][1]` for every row of the data. -/
def fill_test (comp : complexity) (C : ℝ) : Dataset → Option (List ℝ)
  | [] => some []
  | d :: ds => (predicted comp C d.1).bind fun v => (fill_test comp C ds).map fun vs => v :: vs

/-- The function `get_error(num, data, C, comp)`. -/
def get_error (data : Dataset) (C : ℝ) (comp : complexity) : Option ℝ :=
  (fill_test comp C data).bind fun test => get_quadratic_loss data test

/-- The function `get_string`. -/
def get_string (comp : complexity) : String :=
  match comp with
  | .c => "O(1)"
  | .logn => "O(log n)"
  | .n => "O(n)"
  | .nlogn => "O(n log n)"
  | .n2 => "O(n^2)"
  | .n2logn => "O(n^2 log n)"
  | .n3 => "O(n^3)"
  | .expo => "O(2^n)"
  | .last => "X"

/-- The IEEE value of `1 - besterr/olderr` for real `besterr`, `olderr`. -/
inductive Delta where
  | real (d : ℝ)
  | nan
  | pos_inf
  | neg_inf

/-- The assignment `deltaerror = 1 - besterr/olderr`: `0/0` is NaN, `x/0` is
`+infinity` for `x > 0` (so the difference is `-infinity`) and `-infinity` for `x < 0`. -/
def delta_of (besterr olderr : ℝ) : Delta :=
  if olderr = 0 then
    if besterr = 0 then Delta.nan
    else if 0 < besterr then Delta.neg_inf
    else Delta.pos_inf
  else Delta.real (1 - besterr / olderr)

/-- The loop test `deltaerror > 0.00001`; a comparison with NaN is false. -/
def Delta.above (d : Delta) : Prop :=
  match d with
  | Delta.real r => r > 0.00001
  | Delta.nan => False
  | Delta.pos_inf => True
  | Delta.neg_inf => False

instance (d : Delta) : Decidable d.above := by
  cases d <;> unfold Delta.above <;> infer_instance

/-- The constant `p = pow(2,5)` of `get_const`. -/
def p : ℝ := 2 ^ 5

/-- The local variables of `get_const` that live across rounds of its `while` loop. -/
structure Vars where
  lowerC : ℝ
  upperC : ℝ
  deltaerror : Delta
  best : ℝ
  besterr : ℝ

/-- The values of `i` in `for(int i=1;i<p-1; i++)`: 1, 2, ..., 30. -/
def grid_indices : List ℕ := (List.range 31).tail

/-- The grid point `newC = lowerC + (i/p)*(upperC-lowerC)`, written `C_i` in the source. -/
def grid_point (lowerC upperC : ℝ) (i : ℕ) : ℝ :=
  lowerC + ((i : ℝ) / p) * (upperC - lowerC)

/-- The body of the `for` loop of `get_const` for one `i`, on the pair `(best, besterr)`;
`E C` is `get_error(num,data,C,comp)`. -/
def grid_step (E : ℝ → Option ℝ) (lowerC upperC : ℝ) (acc : ℝ × ℝ) (i : ℕ) : Option (ℝ × ℝ) :=
  let newC := grid_point lowerC upperC i
  (E newC).map fun newerr => if newerr < acc.2 ∨ acc.2 = -1 then (newC, newerr) else acc

/-- The `for` loop of `get_const` over the given values of `i`. -/
def grid_loop (E : ℝ → Option ℝ) (lowerC upperC : ℝ) : List ℕ → ℝ × ℝ → Option (ℝ × ℝ)
  | [], acc => some acc
  | i :: is, acc => (grid_step E lowerC upperC acc i).bind (grid_loop E lowerC upperC is)

/-- One round of the `while` loop of `get_const`: the grid search, the update of
`deltaerror`, and the new search interval (`upperC` is computed from the already
updated `lowerC`). -/
def round (E : ℝ → Option ℝ) (s : Vars) : Option Vars :=
  let olderr := s.besterr
  (grid_loop E s.lowerC s.upperC grid_indices (s.best, s.besterr)).map fun r =>
    let best := r.1
    let besterr := r.2
    let deltaerror := delta_of besterr olderr
    let lowerC := best - (1 / p) * (s.upperC - s.lowerC)
    let upperC := best + (1 / p) * (s.upperC - lowerC)
    Vars.mk lowerC upperC deltaerror best besterr

/-- The `while(deltaerror > 0.00001)` loop of `get_const` followed by `return best`,
allowed to run `fuel` rounds. -/
def while_loop (E : ℝ → Option ℝ) : ℕ → Vars → Outcome ℝ
  | 0, s => if s.deltaerror.above then Outcome.out_of_fuel else Outcome.ret s.best
  | fuel + 1, s =>
      if s.deltaerror.above then
        match round E s with
        | some s1 => while_loop E fuel s1
        | none => Outcome.not_real
      else Outcome.ret s.best

/-- The read `data[i]` with an `int` index. -/
def read_at (data : Dataset) (i : ℤ) : Option (ℝ × ℝ) :=
  if i < 0 then none else data[i.toNat]?

/-- The local variables of `get_const` on entry to its loop, given the row `data[num-1]`. -/
def init_vars (last_row : ℝ × ℝ) : Vars :=
  Vars.mk 0 (2 * ((Int.ceil last_row.2 : ℤ) : ℝ)) (Delta.real 1) (-1) (-1)

/-- The function `get_const(data, num, comp)`. -/
def get_const (fuel : ℕ) (data : Dataset) (comp : complexity) : Outcome ℝ :=
  match read_at data ((data.length : ℤ) - 1) with
  | none => Outcome.out_of_range
  | some last_row => while_loop (fun C => get_error data C comp) fuel (init_vars last_row)

/-- The values `(complexity)i` for `i = 0, ..., last-1`, in the order of the enum. -/
def candidates : List complexity :=
  [.c, .logn, .n, .nlogn, .n2, .n2logn, .n3, .expo]

/-! ## Notions used in the properties -/

/-- The candidate growth functions as the specification names them:
1, ln x, x, x ln x, x^2, x^2 ln x, x^3, 2^x. -/
def growth (comp : complexity) (x : ℝ) : ℝ :=
  match comp with
  | .c => 1
  | .logn => Real.log x
  | .n => x
  | .nlogn => x * Real.log x
  | .n2 => x ^ 2
  | .n2logn => x ^ 2 * Real.log x
  | .n3 => x ^ 3
  | .expo => (2 : ℝ) ^ x
  | .last => 0

/-- The error as the specification states it: the square root of the sum of the squared
differences between `C * f(x_i)` and `t_i`, the sum divided by `n^2`. -/
def error_spec (data : Dataset) (C : ℝ) (comp : complexity) : ℝ :=
  Real.sqrt ((data.map fun d => (C * growth comp d.1 - d.2) ^ 2).sum / (data.length : ℝ) ^ 2)

/-- The candidate takes the logarithm of the input size. -/
def uses_log (comp : complexity) : Prop :=
  comp = .logn ∨ comp = .nlogn ∨ comp = .n2logn

/-- The data on which `get_error` stays within the real numbers for the candidate:
the candidate is one of the eight, and every size is positive if it takes a logarithm. -/
def in_domain (data : Dataset) (comp : complexity) : Prop :=
  comp ≠ .last ∧ (uses_log comp → ∀ d ∈ data, 0 < d.1)

/-- A dataset of 65537 rows, each `(1, 1)`. -/
def rows_65537 : Dataset := List.replicate 65537 ((1 : ℝ), (1 : ℝ))

/-- The state of the search between rounds: the interval lies right of 0, and either no
round has run yet (`besterr` is still the sentinel `-1` and the loop test holds) or `best`
lies in the interval, at least one grid step above its lower end. -/
def loop_inv (s : Vars) : Prop :=
  0 ≤ s.lowerC ∧ s.lowerC ≤ s.upperC ∧
    ((s.besterr = -1 ∧ s.deltaerror.above) ∨
      (s.lowerC + (s.upperC - s.lowerC) / 32 ≤ s.best ∧ s.best ≤ s.upperC))

/-- The `int` value of an enum constant of `complexity`: its place in the enumeration. -/
def enum_value (comp : complexity) : ℕ :=
  match comp with
  | .c => 0
  | .logn => 1
  | .n => 2
  | .nlogn => 3
  | .n2 => 4
  | .n2logn => 5
  | .n3 => 6
  | .expo => 7
  | .last => 8

/-- The one-row dataset `(5, 50)`. -/
def row_5_50 : Dataset := [((5 : ℝ), (50 : ℝ))]

/-- The variables of `get_const` after `k` rounds of its `while` loop started in the state
`s`; `none` if the loop test has failed before, or a round has left the real numbers. -/
def vars_after (E : ℝ → Option ℝ) : ℕ → Vars → Option Vars
  | 0, s => some s
  | k + 1, s => if s.deltaerror.above then (round E s).bind (vars_after E k) else none

/-- The variables of `get_const` after the first round on the dataset `{(5,50)}` with the
constant candidate: the interval `[46.875, 51.66015625]`, `deltaerror = 1`, `best = 50`,
`besterr = 0`. -/
def vars_row_5_50 : Vars := Vars.mk (375 / 8) (13225 / 256) (Delta.real 1) 50 0

/-- The dataset `{(1,0),(1,2)}`: two runtimes at the same size, which no constant fits. -/
def rows_1_0_1_2 : Dataset := [((1 : ℝ), (0 : ℝ)), ((1 : ℝ), (2 : ℝ))]

/-- The dataset `{(3,100),(4,0)}`: sizes above 2 in increasing order, runtimes `>= 0`, the
last runtime not the largest. -/
def rows_3_100_4_0 : Dataset := [((3 : ℝ), (100 : ℝ)), ((4 : ℝ), (0 : ℝ))]

/-- The one-row dataset `(3, 6)`. -/
def row_3_6 : Dataset := [((3 : ℝ), (6 : ℝ))]

/-! ## The program, in IEEE double arithmetic -/

namespace Ieee

/-- A value of type `double`.  `fin n` is the finite number `n * 2^-1074` (every finite
double is a multiple of the least subnormal `2^-1074`, and is below `2^1024`, so
`|n| < 2^2098`); `pinf`, `ninf` are the infinities and `nan` is a NaN.  The sign of zero is
not represented: the program never divides by a negative zero. -/
inductive Dbl where
  | fin (n : ℤ)
  | pinf
  | ninf
  | nan
  deriving DecidableEq

/-- What the C standard leaves open and the program can meet: the result of `log` at a finite
positive argument other than 1 and of `pow(2,x)` at a finite `x` that is not an integer (the
argument is given in units of `2^-1074`), and the value found by a read of a `double` that
the program has not written (`data[-1][1]` when `num = 0`, `test[i][1]` for the enum value
`last`). -/
structure Env where
  log : ℤ → Dbl
  pow2 : ℤ → Dbl
  stray : Dbl

/-- The number 1 in units of `2^-1074`. -/
@[irreducible] def scale : ℕ := 2 ^ 1074

/-- The number `2^1024`, from which on a rounded value is infinite, in units of `2^-1074`. -/
@[irreducible] def huge : ℕ := 2 ^ 2098

/-- One step of `log2_nat`: raise `lo` by `s` if `2^(lo+s) <= q`. -/
def log2_step (q lo s : ℕ) : ℕ := bif Nat.ble (2 ^ (lo + s)) q then lo + s else lo

/-- The position of the leading bit of `q`, that is `floor(log2 q)`, for `1 <= q < 2^8192`
(by binary search; 0 for `q = 0`). -/
def log2_nat (q : ℕ) : ℕ :=
  log2_step q (log2_step q (log2_step q (log2_step q (log2_step q (log2_step q (log2_step q
    (log2_step q (log2_step q (log2_step q (log2_step q (log2_step q (log2_step q 0
      4096) 2048) 1024) 512) 256) 128) 64) 32) 16) 8) 4) 2) 1

/-- The integer nearest to `a / d`, ties to the even one. -/
def round_to (a d : ℕ) : ℕ :=
  bif Nat.ble (2 * (a % d) + 1) d then a / d
  else bif Nat.ble (d + 1) (2 * (a % d)) then a / d + 1
  else a / d + (a / d) % 2

/-- The spacing of the doubles around a number whose integer part has leading bit at
position `l`: `2^(l - 52)` units, one unit (`2^-1074`) below `2^53` units. -/
def ulp_exp (l : ℕ) : ℕ := l + 1 - 53

/-- Rounding to nearest, ties to even, of the non-negative rational `a / b` (in units of
`2^-1074`) to 53 significant bits. -/
def round_nat (a b : ℕ) : ℕ :=
  round_to a (b * 2 ^ ulp_exp (log2_nat (a / b))) * 2 ^ ulp_exp (log2_nat (a / b))

/-- The double nearest to `a / b` units, negated if `neg`; an infinity if the rounded value
is `2^1024` or more. -/
def rnd (neg : Bool) (a b : ℕ) : Dbl :=
  bif Nat.ble huge (round_nat a b) then (bif neg then Dbl.ninf else Dbl.pinf)
  else Dbl.fin (bif neg then -((round_nat a b : ℕ) : ℤ) else ((round_nat a b : ℕ) : ℤ))

/-- The sign bit of an integer. -/
def is_neg : ℤ → Bool
  | Int.ofNat _ => false
  | Int.negSucc _ => true

/-- The double nearest to `z / b` units. -/
def rnd_z (z : ℤ) (b : ℕ) : Dbl := rnd (is_neg z) z.natAbs b

/-- The conversion of an `int` to `double` (exact). -/
def of_int (z : ℤ) : Dbl := Dbl.fin (z * (scale : ℤ))

/-- The double `m * 2^e`, for writing down values. -/
def dbl (m e : ℤ) : Dbl := Dbl.fin (m * ((2 ^ (e + 1074).toNat : ℕ) : ℤ))

/-- Unary minus. -/
def dneg : Dbl → Dbl
  | .fin n => .fin (-n)
  | .pinf => .ninf
  | .ninf => .pinf
  | .nan => .nan

/-- The sum `x + y` of doubles. -/
def dadd : Dbl → Dbl → Dbl
  | .fin m, .fin n => rnd_z (m + n) 1
  | .nan, _ => .nan
  | _, .nan => .nan
  | .fin _, y => y
  | x, .fin _ => x
  | .pinf, .pinf => .pinf
  | .ninf, .ninf => .ninf
  | .pinf, .ninf => .nan
  | .ninf, .pinf => .nan

/-- The difference `x - y` of doubles. -/
def dsub (x y : Dbl) : Dbl := dadd x (dneg y)

/-- The product of an infinity of the given sign (`neg`) and a finite number. -/
def inf_times (neg : Bool) (n : ℤ) : Dbl :=
  if n = 0 then .nan else bif xor neg (is_neg n) then .ninf else .pinf

/-- The product `x * y` of doubles. -/
def dmul : Dbl → Dbl → Dbl
  | .fin m, .fin n => rnd_z (m * n) scale
  | .nan, _ => .nan
  | _, .nan => .nan
  | .fin m, .pinf => inf_times false m
  | .fin m, .ninf => inf_times true m
  | .pinf, .fin n => inf_times false n
  | .ninf, .fin n => inf_times true n
  | .pinf, .pinf => .pinf
  | .ninf, .ninf => .pinf
  | .pinf, .ninf => .ninf
  | .ninf, .pinf => .ninf

/-- The quotient `x / y` of doubles; a zero divisor is `+0`. -/
def ddiv : Dbl → Dbl → Dbl
  | .fin m, .fin n =>
      if n = 0 then (if m = 0 then .nan else bif is_neg m then .ninf else .pinf)
      else rnd (xor (is_neg m) (is_neg n)) (m.natAbs * scale) n.natAbs
  | .nan, _ => .nan
  | _, .nan => .nan
  | .fin _, _ => .fin 0
  | .pinf, .fin n => bif is_neg n then .ninf else .pinf
  | .ninf, .fin n => bif is_neg n then .pinf else .ninf
  | _, _ => .nan

/-- The integer square root of `n < 4^i`, bit by bit: `r` holds the bits above position `i`. -/
def isqrt_bits (n : ℕ) : ℕ → ℕ → ℕ
  | 0, r => r
  | i + 1, r => isqrt_bits n i (bif Nat.ble ((r + 2 ^ i) * (r + 2 ^ i)) n then r + 2 ^ i else r)

/-- Rounding of `sqrt N` to a multiple of `2^g`, given `k = floor(sqrt N / 2^g)`: up exactly
when `sqrt N` is above the midpoint `(2k+1) * 2^(g-1)`, ties to even. -/
def sqrt_to (N k g : ℕ) : ℕ :=
  bif Nat.beq g 0 then (bif Nat.ble (k * k + k + 1) N then k + 1 else k)
  else
    (bif Nat.ble ((2 * k + 1) ^ 2 * 4 ^ (g - 1) + 1) N then k + 1
     else bif Nat.ble (N + 1) ((2 * k + 1) ^ 2 * 4 ^ (g - 1)) then k
     else k + k % 2) * 2 ^ g

/-- Rounding to nearest, ties to even, of `sqrt N` to 53 significant bits. -/
def sqrt_nat (N : ℕ) : ℕ :=
  sqrt_to N (isqrt_bits (N / 4 ^ ((log2_nat N + 2) / 2 - 53)) 53 0) ((log2_nat N + 2) / 2 - 53)

/-- The C function `sqrt` (correctly rounded, as IEEE 754 requires). -/
def dsqrt : Dbl → Dbl
  | .fin n => bif is_neg n then .nan else .fin ((sqrt_nat (n.natAbs * scale) : ℕ) : ℤ)
  | .pinf => .pinf
  | .ninf => .nan
  | .nan => .nan

/-- The C function `ceil`. -/
def dceil : Dbl → Dbl
  | .fin n => .fin (-((-n) / (scale : ℤ)) * (scale : ℤ))
  | x => x

/-- The C function `log`: NaN below zero, `-infinity` at 0, 0 at 1, and elsewhere the value
of the environment. -/
def dlog (env : Env) : Dbl → Dbl
  | .fin n =>
      bif is_neg n then .nan
      else if n = 0 then .ninf
      else if n = (scale : ℤ) then .fin 0
      else env.log n
  | .pinf => .pinf
  | .ninf => .nan
  | .nan => .nan

/-- The call `pow(x,2)`: the correctly rounded square. -/
def dsq (x : Dbl) : Dbl := dmul x x

/-- The call `pow(x,3)`: the correctly rounded cube. -/
def dcube : Dbl → Dbl
  | .fin n => rnd_z (n * n * n) (scale * scale)
  | x => x

/-- The call `pow(2,x)`: the power of two at an integer `x` (infinite from 1024 on, zero
below -1074), and elsewhere the value of the environment. -/
def dexp2 (env : Env) : Dbl → Dbl
  | .fin n =>
      if n % (scale : ℤ) = 0 then
        (if 1024 ≤ n / (scale : ℤ) then .pinf
         else if n / (scale : ℤ) < -1074 then .fin 0
         else .fin (((2 ^ (n / (scale : ℤ) + 1074).toNat : ℕ) : ℤ)))
      else env.pow2 n
  | .pinf => .pinf
  | .ninf => .fin 0
  | .nan => .nan

/-- The comparison `x < y`; false if either side is a NaN. -/
def dlt : Dbl → Dbl → Bool
  | .fin m, .fin n => decide (m < n)
  | .nan, _ => false
  | _, .nan => false
  | .ninf, .ninf => false
  | .ninf, _ => true
  | .pinf, _ => false
  | .fin _, .pinf => true
  | .fin _, .ninf => false

/-- The comparison `x == y`; false if either side is a NaN. -/
def deq : Dbl → Dbl → Bool
  | .fin m, .fin n => decide (m = n)
  | .pinf, .pinf => true
  | .ninf, .ninf => true
  | _, _ => false

/-- The comparison `x <= y`; false if either side is a NaN. -/
def dle (x y : Dbl) : Bool := dlt x y || deq x y

/-- The array `double data[][2]`. -/
abbrev Dataset := List (Dbl × Dbl)

/-- The `switch` of `get_error`: the value stored in `test[i][1]`.  The enum value `last`
matches no case, and `test[i][1]` keeps the value it happens to have. -/
def predicted (env : Env) (comp : complexity) (C x : Dbl) : Dbl :=
  match comp with
  | .c => C
  | .logn => dmul C (dlog env x)
  | .n => dmul C x
  | .nlogn => dmul (dmul C x) (dlog env x)
  | .n2 => dmul C (dsq x)
  | .n2logn => dmul (dmul C (dsq x)) (dlog env x)
  | .n3 => dmul C (dcube x)
  | .expo => dmul C (dexp2 env x)
  | .last => env.stray

/-- The first loop of `get_error`: fills `test[i][1]` for every row of the data. -/
def fill_test (env : Env) (comp : complexity) (C : Dbl) : Dataset → List Dbl
  | [] => []
  | d :: ds => predicted env comp C d.1 :: fill_test env comp C ds

/-- The loop of `get_quadratic_loss`: `loss += pow(data[i][1] - test[i][1],2)/(n*n)`, with
`nn` the `int` product `n*n` converted to `double`. -/
def loss_loop (nn : Dbl) : Dataset → List Dbl → Dbl → Dbl
  | d :: ds, t :: ts, loss => loss_loop nn ds ts (dadd loss (ddiv (dsq (dsub d.2 t)) nn))
  | _, _, loss => loss

/-- The function `get_quadratic_loss(data, test, n)`; the `int` product `n*n` wraps to 32
bits. -/
def get_quadratic_loss (data : Dataset) (test : List Dbl) : Dbl :=
  dsqrt (loss_loop (of_int (wrap_int ((data.length : ℤ) * (data.length : ℤ)))) data test
    (of_int 0))

/-- The function `get_error(num, data, C, comp)`. -/
def get_error (env : Env) (data : Dataset) (C : Dbl) (comp : complexity) : Dbl :=
  get_quadratic_loss data (fill_test env comp C data)

/-- The local variables of `get_const` that live across rounds of its `while` loop. -/
structure Vars where
  lowerC : Dbl
  upperC : Dbl
  deltaerror : Dbl
  best : Dbl
  besterr : Dbl
  deriving DecidableEq

/-- The constant `p = pow(2,5)`. -/
def p : Dbl := of_int 32

/-- The literal `0.00001`: the double nearest to `1/100000`. -/
def threshold : Dbl := rnd false scale 100000

/-- The grid point `newC = lowerC + (i/p)*(upperC-lowerC)`. -/
def grid_point (lowerC upperC : Dbl) (i : ℕ) : Dbl :=
  dadd lowerC (dmul (ddiv (of_int i) p) (dsub upperC lowerC))

/-- The body of the `for` loop of `get_const` for one `i`, on the pair `(best, besterr)`. -/
def grid_step (E : Dbl → Dbl) (lowerC upperC : Dbl) (acc : Dbl × Dbl) (i : ℕ) : Dbl × Dbl :=
  bif dlt (E (grid_point lowerC upperC i)) acc.2 || deq acc.2 (of_int (-1)) then
    (grid_point lowerC upperC i, E (grid_point lowerC upperC i))
  else acc

/-- The `for` loop of `get_const` over the given values of `i`. -/
def grid_loop (E : Dbl → Dbl) (lowerC upperC : Dbl) : List ℕ → Dbl × Dbl → Dbl × Dbl
  | [], acc => acc
  | i :: is, acc => grid_loop E lowerC upperC is (grid_step E lowerC upperC acc i)

/-- The new lower bound `best - (1/p)*(upperC-lowerC)`. -/
def new_lower (s : Vars) (best : Dbl) : Dbl :=
  dsub best (dmul (ddiv (of_int 1) p) (dsub s.upperC s.lowerC))

/-- One round of the `while` loop of `get_const`: the grid search, the update of
`deltaerror`, and the new search interval (`upperC` is computed from the already updated
`lowerC`). -/
def round (E : Dbl → Dbl) (s : Vars) : Vars :=
  Vars.mk
    (new_lower s (grid_loop E s.lowerC s.upperC grid_indices (s.best, s.besterr)).1)
    (dadd (grid_loop E s.lowerC s.upperC grid_indices (s.best, s.besterr)).1
      (dmul (ddiv (of_int 1) p)
        (dsub s.upperC
          (new_lower s (grid_loop E s.lowerC s.upperC grid_indices (s.best, s.besterr)).1))))
    (dsub (of_int 1)
      (ddiv (grid_loop E s.lowerC s.upperC grid_indices (s.best, s.besterr)).2 s.besterr))
    (grid_loop E s.lowerC s.upperC grid_indices (s.best, s.besterr)).1
    (grid_loop E s.lowerC s.upperC grid_indices (s.best, s.besterr)).2

/-- The `while(deltaerror > 0.00001)` loop of `get_const` followed by `return best`, allowed
to run `fuel` rounds. -/
def while_loop (E : Dbl → Dbl) : ℕ → Vars → Outcome Dbl
  | 0, s => bif dlt threshold s.deltaerror then Outcome.out_of_fuel else Outcome.ret s.best
  | fuel + 1, s =>
      bif dlt threshold s.deltaerror then while_loop E fuel (round E s)
      else Outcome.ret s.best

/-- The read `data[num-1][1]`: the runtime of the last row, and for `num = 0` the value that
lies before the array. -/
def last_runtime (env : Env) (data : Dataset) : Dbl :=
  match data.getLast? with
  | some row => row.2
  | none => env.stray

/-- The local variables of `get_const` on entry to its loop. -/
def init_vars (env : Env) (data : Dataset) : Vars :=
  Vars.mk (of_int 0) (dmul (of_int 2) (dceil (last_runtime env data))) (of_int 1)
    (of_int (-1)) (of_int (-1))

/-- The function `get_const(data, num, comp)`. -/
def get_const (env : Env) (fuel : ℕ) (data : Dataset) (comp : complexity) : Outcome Dbl :=
  while_loop (fun C => get_error env data C comp) fuel (init_vars env data)

/-- The ranking loop of `main` on the pair `(best, output)`. -/
def main_loop (env : Env) (fuel : ℕ) (data : Dataset) :
    List complexity → Dbl × String → Outcome String
  | [], acc => Outcome.ret acc.2
  | i :: is, acc =>
      match get_const env fuel data i with
      | Outcome.ret C =>
          main_loop env fuel data is
            (bif dlt (get_error env data C i) acc.1 || deq acc.1 (of_int (-1)) then
              (get_error env data C i, get_string i)
            else acc)
      | _ => Outcome.out_of_fuel

/-- The array `data` that `main` fills from the `int` pairs it reads. -/
def read_data (rows : List (ℤ × ℤ)) : Dataset := rows.map fun r => (of_int r.1, of_int r.2)

/-- The function `main` on the rows it reads: the string sent to stdout. -/
def main (env : Env) (fuel : ℕ) (rows : List (ℤ × ℤ)) : Outcome String :=
  main_loop env fuel (read_data rows) candidates (of_int (-1), "")

/-- The values that `get_error` can return (the values of `sqrt`): a NaN, `+infinity`, or a
finite double that is not negative. -/
def is_err (x : Dbl) : Prop :=
  x = Dbl.nan ∨ x = Dbl.pinf ∨ ∃ k : ℕ, k < huge ∧ x = Dbl.fin (k : ℤ)

/-- The place of an error value in the order of the doubles: its number of units, and
`2^2098` for `+infinity` (0 for a NaN, which is not ordered). -/
def err_rank : Dbl → ℕ
  | .fin n => n.natAbs
  | .pinf => huge
  | .ninf => 0
  | .nan => 0

/-- An environment whose open values are all NaN, for runs that ask nothing of it. -/
def env_nan : Env := Env.mk (fun _ => Dbl.nan) (fun _ => Dbl.nan) Dbl.nan

/-- The candidate asks nothing of the environment on the integer sizes of `rows`: it is one
of the eight, and if it takes a logarithm every size is at most 1 (where `log` is a NaN,
`-infinity` or 0); `pow(2,x)` at an integer is a power of two. -/
def libm_free (rows : List (ℤ × ℤ)) (comp : complexity) : Prop :=
  comp ≠ .last ∧ (uses_log comp → ∀ r ∈ rows, r.1 ≤ 1)

/-- The variables of `get_const` after `k` rounds of its `while` loop started in the state
`s`; `none` if the loop has ended before it ran `k` rounds. -/
def vars_after (E : Dbl → Dbl) : ℕ → Vars → Option Vars
  | 0, s => some s
  | k + 1, s => bif dlt threshold s.deltaerror then vars_after E k (round E s) else none

/-- A double that is `+infinity` or finite and not negative. -/
def not_neg (x : Dbl) : Prop := x = Dbl.pinf ∨ ∃ k : ℕ, x = Dbl.fin (k : ℤ)

/-- The width `upperC - lowerC` of the search interval as an exact integer, in units of
`2^-1074` (0 if a bound is not finite). -/
def width (s : Vars) : ℤ :=
  match s.lowerC, s.upperC with
  | .fin a, .fin b => b - a
  | _, _ => 0

/-- The error function of the call `get_const(data, num, comp)` on the rows `rows`, in the
environment `env_nan`. -/
def error_of (rows : List (ℤ × ℤ)) (comp : complexity) : Dbl → Dbl :=
  fun C => get_error env_nan (read_data rows) C comp

/-- The variables of `get_const` on `{(5,50)}` with the constant candidate after round one:
the interval `[46.875, 51.66015625]`, `deltaerror = 1`, `best = 50`, `besterr = 0`. -/
def vars_row_5_50 : Vars :=
  Vars.mk (dbl 375 (-3)) (dbl 13225 (-8)) (of_int 1) (of_int 50) (of_int 0)

/-- The variables of `get_const` on `{(9,9)}` with the linear candidate after round twelve:
the interval `[1 - 12*2^-52, 1 + 17*2^-52]`, `best = 1 + 3*2^-51`, `besterr = 7*2^-49`. -/
def vars_row_9_9 : Vars :=
  Vars.mk (dbl 1125899906842621 (-50)) (dbl 4503599627370513 (-52))
    (dbl 4280016667146429 (-52)) (dbl 2251799813685251 (-51)) (dbl 7 (-49))

/-- The variables of `get_const` on `{(9,9)}` with the linear candidate after round thirteen:
the interval `[1 - 2^-52, 1 + 2^-52]`, `best = 1`, `besterr = 0`. -/
def vars_row_9_9_next : Vars :=
  Vars.mk (dbl 4503599627370495 (-52)) (dbl 4503599627370497 (-52)) (of_int 1) (of_int 1)
    (of_int 0)

/-- The bound `2^8192` below which `log2_nat` finds the leading bit. -/
@[irreducible] def span : ℕ := 2 ^ 8192

/-- A number of units that is the value of a double, but for its size: rounding to 53
significant bits leaves it as it is. -/
def representable (n : ℕ) : Prop := round_nat n 1 = n


/-- The number `1/32` in units of `2^-1074`. -/
@[irreducible] def part : ℕ := 2 ^ 1069

/-- The double nearest to `x` units. -/
def rnd1 (x : ℕ) : ℕ := round_nat x 1

/-- The double nearest to `(i/32) * w` units. -/
def rnd_part (i w : ℕ) : ℕ := round_nat (i * part * w) scale


/-- The step `(1/p)*(upperC-lowerC)` of a round, in units, for the bounds `a <= b`. -/
def step_of (a b : ℕ) : ℕ := rnd_part 1 (rnd1 (b - a))

/-- The grid point `lowerC + (i/p)*(upperC-lowerC)` of a round, in units. -/
def point_of (a b i : ℕ) : ℕ := rnd1 (a + rnd_part i (rnd1 (b - a)))

/-- The new lower bound `best - (1/p)*(upperC-lowerC)` of a round, in units, for
`best = c`. -/
def lower_of (a b c : ℕ) : ℕ := rnd1 (c - step_of a b)

/-- The new upper bound `best + (1/p)*(upperC-lowerC)` of a round, in units, computed from
the new lower bound. -/
def upper_of (a b c : ℕ) : ℕ := rnd1 (c + rnd_part 1 (rnd1 (b - lower_of a b c)))


/-- The state of the search between rounds, on the numbers of units of its doubles: the
bounds are finite doubles `0 <= a <= b` with `7 * b + 5 * (b - a) <= B`, and either no round
has run yet (`besterr` is still the sentinel) or `best` is a finite double `c` in `[a, b]`
that is at least one step of the interval. -/
def interval_inv (B : ℕ) (s : Vars) : Prop :=
  ∃ a b : ℕ, s.lowerC = Dbl.fin (a : ℤ) ∧ s.upperC = Dbl.fin (b : ℤ) ∧ representable a
    ∧ representable b ∧ a ≤ b ∧ 7 * b + 5 * (b - a) ≤ B
    ∧ (s.besterr = of_int (-1)
        ∨ ∃ c : ℕ, s.best = Dbl.fin (c : ℤ) ∧ representable c ∧ a ≤ c ∧ c ≤ b
            ∧ step_of a b ≤ c)

end Ieee

/-! ## Properties -/

/-! ### The error evaluator: `get_quadratic_loss` and `get_error` -/

theorem wrap_int_of_small (z : ℤ) (h0 : 0 ≤ z) (h1 : z < 2 ^ 31) : wrap_int z = z := by
  unfold wrap_int
  rw [Int.emod_eq_of_lt (by omega) (by omega)]
  omega

theorem wrap_int_sq_length (data : Dataset) (h : data.length ≤ 46340) :
    wrap_int ((data.length : ℤ) * (data.length : ℤ)) = (data.length : ℤ) * (data.length : ℤ) := by
  apply wrap_int_of_small
  · positivity
  · have h1 : (data.length : ℤ) ≤ 46340 := by exact_mod_cast h
    have h0 : (0 : ℤ) ≤ (data.length : ℤ) := by positivity
    nlinarith

theorem predicted_eq (comp : complexity) (C x : ℝ) (hc : comp ≠ .last)
    (hx : uses_log comp → 0 < x) : predicted comp C x = some (C * growth comp x) := by
  cases comp
  case last => exact absurd rfl hc
  case logn => simp [predicted, growth, flog, hx (Or.inl rfl)]
  case nlogn => simp [predicted, growth, flog, hx (Or.inr (Or.inl rfl)), mul_assoc]
  case n2logn => simp [predicted, growth, flog, hx (Or.inr (Or.inr rfl)), mul_assoc]
  all_goals simp [predicted, growth]

theorem fill_test_eq (comp : complexity) (C : ℝ) (data : Dataset) (h : in_domain data comp) :
    fill_test comp C data = some (data.map fun d => C * growth comp d.1) := by
  induction data with
  | nil => rfl
  | cons d ds ih =>
    have hd : predicted comp C d.1 = some (C * growth comp d.1) :=
      predicted_eq comp C d.1 h.1 (fun hl => h.2 hl d (List.mem_cons_self _ _))
    have hds : in_domain ds comp := ⟨h.1, fun hl e he => h.2 hl e (List.mem_cons_of_mem _ he)⟩
    simp [fill_test, hd, ih hds]

theorem loss_loop_eq (nn : ℝ) (hnn : nn ≠ 0) (g : ℝ × ℝ → ℝ) (data : Dataset) (loss : ℝ) :
    loss_loop nn data (data.map g) loss
      = some (loss + (data.map fun d => (d.2 - g d) ^ 2 / nn).sum) := by
  induction data generalizing loss with
  | nil => simp [loss_loop]
  | cons d ds ih =>
    simp [loss_loop, fdiv, hnn, ih, add_assoc]

theorem sum_map_div (data : Dataset) (h : ℝ × ℝ → ℝ) (nn : ℝ) :
    (data.map fun d => h d / nn).sum = (data.map h).sum / nn := by
  induction data with
  | nil => simp
  | cons d ds ih => simp [ih, add_div]

theorem sum_map_sq_nonneg (data : Dataset) (h : ℝ × ℝ → ℝ) :
    0 ≤ (data.map fun d => (h d) ^ 2).sum := by
  induction data with
  | nil => simp
  | cons d ds ih => simp only [List.map_cons, List.sum_cons]; positivity

/-- On data of at most 46340 rows that is in the domain of the candidate, `get_error`
returns the error of the specification. -/
theorem get_error_eq (data : Dataset) (C : ℝ) (comp : complexity)
    (hdom : in_domain data comp) (hlen : data.length ≤ 46340) :
    get_error data C comp = some (error_spec data C comp) := by
  unfold get_error get_quadratic_loss
  rw [fill_test_eq comp C data hdom, wrap_int_sq_length data hlen]
  simp only [Option.some_bind]
  rcases data with _ | ⟨d, ds⟩
  · simp [loss_loop, fsqrt, error_spec]
  · have hne : (((((d :: ds).length : ℤ) * ((d :: ds).length : ℤ) : ℤ)) : ℝ) ≠ 0 := by
      have : (0 : ℤ) < ((d :: ds).length : ℤ) := by simp
      have h2 : (0 : ℤ) < ((d :: ds).length : ℤ) * ((d :: ds).length : ℤ) := by positivity
      exact_mod_cast h2.ne'
    rw [loss_loop_eq _ hne]
    simp only [Option.some_bind, zero_add]
    rw [sum_map_div]
    have hnonneg : 0 ≤ ((d :: ds).map fun e => (e.2 - C * growth comp e.1) ^ 2).sum :=
      sum_map_sq_nonneg _ _
    have hpos : (0 : ℝ) < ((((d :: ds).length : ℤ) * ((d :: ds).length : ℤ) : ℤ) : ℝ) := by
      have : (0 : ℤ) < ((d :: ds).length : ℤ) := by simp
      have h2 : (0 : ℤ) < ((d :: ds).length : ℤ) * ((d :: ds).length : ℤ) := by positivity
      exact_mod_cast h2
    have hq : ¬ ((d :: ds).map fun e => (e.2 - C * growth comp e.1) ^ 2).sum
        / ((((d :: ds).length : ℤ) * ((d :: ds).length : ℤ) : ℤ) : ℝ) < 0 :=
      not_lt.mpr (div_nonneg hnonneg hpos.le)
    unfold fsqrt
    rw [if_neg hq]
    unfold error_spec
    congr 2
    have e1 : ((d :: ds).map fun e => (e.2 - C * growth comp e.1) ^ 2)
        = ((d :: ds).map fun e => (C * growth comp e.1 - e.2) ^ 2) := by
      apply List.map_congr_left
      intro e _
      ring
    rw [e1]
    push_cast
    ring

theorem get_error_eq_fsqrt (data : Dataset) (C : ℝ) (comp : complexity)
    (hdom : in_domain data comp)
    (hnn : wrap_int ((data.length : ℤ) * (data.length : ℤ)) ≠ 0) :
    get_error data C comp
      = fsqrt ((data.map fun d => (d.2 - C * growth comp d.1) ^ 2).sum
          / ((wrap_int ((data.length : ℤ) * (data.length : ℤ)) : ℤ) : ℝ)) := by
  unfold get_error get_quadratic_loss
  rw [fill_test_eq comp C data hdom]
  simp only [Option.some_bind]
  have hne : ((wrap_int ((data.length : ℤ) * (data.length : ℤ)) : ℤ) : ℝ) ≠ 0 := by
    exact_mod_cast hnn
  rw [loss_loop_eq _ hne, sum_map_div]
  simp

/-! ### The sign and the value of the error -/

/-- The two forms of the specified error: the square root of the sum divided by `n^2` is
the square root of the sum, divided by `n`. -/
theorem error_spec_eq_sqrt_div (data : Dataset) (C : ℝ) (comp : complexity) :
    error_spec data C comp
      = Real.sqrt ((data.map fun d => (C * growth comp d.1 - d.2) ^ 2).sum)
          / (data.length : ℝ) := by
  unfold error_spec
  rw [Real.sqrt_div' _ (sq_nonneg _), Real.sqrt_sq (Nat.cast_nonneg _)]

theorem wrap_int_65537_sq : wrap_int ((65537 : ℤ) * 65537) = 131073 := by
  unfold wrap_int
  norm_num

/-- C2 fails on a dataset of 65537 rows: the `int` product `n*n` wraps to 131073, so
`get_error` at `C = 0` for the constant candidate returns `sqrt(65537/131073)`, while the
specified value is `sqrt(65537/65537^2)`, and the two differ. -/
theorem get_error_rows_65537 :
    get_error rows_65537 0 complexity.c = some (Real.sqrt (65537 / 131073))
      ∧ error_spec rows_65537 0 complexity.c = Real.sqrt (65537 / 65537 ^ 2)
      ∧ get_error rows_65537 0 complexity.c ≠ some (error_spec rows_65537 0 complexity.c) := by
  have hlen : rows_65537.length = 65537 := List.length_replicate _ _
  have hdom : in_domain rows_65537 complexity.c :=
    ⟨by decide, fun h => by rcases h with h | h | h <;> cases h⟩
  have hw : wrap_int ((rows_65537.length : ℤ) * (rows_65537.length : ℤ)) = 131073 := by
    rw [hlen]
    exact wrap_int_65537_sq
  have h1 : get_error rows_65537 0 complexity.c = some (Real.sqrt (65537 / 131073)) := by
    rw [get_error_eq_fsqrt rows_65537 0 complexity.c hdom (by rw [hw]; norm_num), hw]
    have hs : (rows_65537.map fun d => (d.2 - 0 * growth complexity.c d.1) ^ 2).sum
        = 65537 := by
      unfold rows_65537
      rw [List.map_replicate, List.sum_replicate]
      norm_num
    rw [hs]
    unfold fsqrt
    rw [if_neg (by norm_num)]
    norm_num
  have h2 : error_spec rows_65537 0 complexity.c = Real.sqrt (65537 / 65537 ^ 2) := by
    unfold error_spec
    rw [hlen]
    have hs : (rows_65537.map fun d => (0 * growth complexity.c d.1 - d.2) ^ 2).sum
        = 65537 := by
      unfold rows_65537
      rw [List.map_replicate, List.sum_replicate]
      norm_num
    rw [hs]
    norm_num
  refine ⟨h1, h2, ?_⟩
  rw [h1, h2]
  intro h
  have h3 : Real.sqrt (65537 / 131073) = Real.sqrt (65537 / 65537 ^ 2) := by
    injection h
  have h4 := (Real.sqrt_inj (by norm_num) (by norm_num)).mp h3
  norm_num at h4

/-! ### The grid loop of a round -/

theorem grid_indices_eq : grid_indices
    = [1, 2, 3, 4, 5, 6, 7, 8, 9, 10, 11, 12, 13, 14, 15, 16, 17, 18, 19, 20, 21, 22, 23, 24,
       25, 26, 27, 28, 29, 30] := by
  decide

theorem mem_grid_indices (i : ℕ) : i ∈ grid_indices ↔ 1 ≤ i ∧ i ≤ 30 := by
  rw [grid_indices_eq]
  simp only [List.mem_cons, List.mem_singleton, List.not_mem_nil, or_false]
  omega

theorem p_eq : p = 32 := by
  unfold p
  norm_num

theorem grid_point_eq (lo up : ℝ) (i : ℕ) :
    grid_point lo up i = lo + (i : ℝ) * ((up - lo) / 32) := by
  unfold grid_point
  rw [p_eq]
  ring

theorem grid_loop_append (E : ℝ → Option ℝ) (lo up : ℝ) (l1 l2 : List ℕ) (acc : ℝ × ℝ) :
    grid_loop E lo up (l1 ++ l2) acc
      = (grid_loop E lo up l1 acc).bind (grid_loop E lo up l2) := by
  induction l1 generalizing acc with
  | nil => simp [grid_loop]
  | cons i is ih =>
    simp only [List.cons_append, grid_loop]
    cases h : grid_step E lo up acc i with
    | none => simp
    | some a => simp [ih]

/-- The result of the grid loop is the pair it started from or a grid point with its error. -/
theorem grid_loop_cases (E : ℝ → Option ℝ) (lo up : ℝ) (is : List ℕ) (acc r : ℝ × ℝ)
    (h : grid_loop E lo up is acc = some r) :
    r = acc ∨ ∃ i ∈ is, r.1 = grid_point lo up i ∧ E (grid_point lo up i) = some r.2 := by
  induction is generalizing acc with
  | nil =>
    simp only [grid_loop, Option.some.injEq] at h
    exact Or.inl h.symm
  | cons i is ih =>
    simp only [grid_loop] at h
    cases hs : grid_step E lo up acc i with
    | none => simp [hs] at h
    | some a =>
      rw [hs] at h
      simp only [Option.some_bind] at h
      unfold grid_step at hs
      cases hE : E (grid_point lo up i) with
      | none => simp [hE] at hs
      | some v =>
        simp only [hE, Option.map_some', Option.some.injEq] at hs
        rcases ih a h with h1 | ⟨j, hj, h2, h3⟩
        · by_cases hc : v < acc.2 ∨ acc.2 = -1
          · rw [if_pos hc] at hs
            right
            refine ⟨i, List.mem_cons_self _ _, ?_, ?_⟩
            · rw [h1, ← hs]
            · rw [h1, ← hs, hE]
          · rw [if_neg hc] at hs
            left
            rw [h1, ← hs]
        · right
          exact ⟨j, List.mem_cons_of_mem _ hj, h2, h3⟩

/-- Started from the sentinel `besterr = -1`, a grid loop over at least one index ends on a
grid point. -/
theorem grid_loop_cases_sentinel (E : ℝ → Option ℝ) (lo up : ℝ) (is : List ℕ) (acc r : ℝ × ℝ)
    (hacc : acc.2 = -1) (hne : is ≠ [])
    (h : grid_loop E lo up is acc = some r) :
    ∃ i ∈ is, r.1 = grid_point lo up i ∧ E (grid_point lo up i) = some r.2 := by
  cases is with
  | nil => exact absurd rfl hne
  | cons i is =>
    simp only [grid_loop] at h
    cases hs : grid_step E lo up acc i with
    | none => simp [hs] at h
    | some a =>
      rw [hs] at h
      simp only [Option.some_bind] at h
      unfold grid_step at hs
      cases hE : E (grid_point lo up i) with
      | none => simp [hE] at hs
      | some v =>
        simp only [hE, Option.map_some', Option.some.injEq] at hs
        rw [if_pos (Or.inr hacc)] at hs
        rcases grid_loop_cases E lo up is a r h with h1 | ⟨j, hj, h2, h3⟩
        · refine ⟨i, List.mem_cons_self _ _, ?_, ?_⟩
          · rw [h1, ← hs]
          · rw [h1, ← hs, hE]
        · exact ⟨j, List.mem_cons_of_mem _ hj, h2, h3⟩

/-! ### An invariant of the search interval -/

theorem read_at_last (data : Dataset) (hne : data ≠ []) :
    read_at data ((data.length : ℤ) - 1) = some (data.getLast hne) := by
  have hlen : 0 < data.length := List.length_pos.mpr hne
  unfold read_at
  have h1 : ¬ ((data.length : ℤ) - 1 < 0) := by omega
  rw [if_neg h1]
  have h2 : ((data.length : ℤ) - 1).toNat = data.length - 1 := by omega
  rw [h2, List.getLast_eq_getElem]
  exact List.getElem?_eq_getElem _

theorem get_const_last_row (fuel : ℕ) (data : Dataset) (comp : complexity) (hne : data ≠ []) :
    read_at data ((data.length : ℤ) - 1) = some (data.getLast hne)
      ∧ get_const fuel data comp
          = while_loop (fun C => get_error data C comp) fuel (init_vars (data.getLast hne)) := by
  refine ⟨read_at_last data hne, ?_⟩
  unfold get_const
  rw [read_at_last data hne]

theorem round_some (E : ℝ → Option ℝ) (s s1 : Vars) (h : round E s = some s1) :
    ∃ r : ℝ × ℝ, grid_loop E s.lowerC s.upperC grid_indices (s.best, s.besterr) = some r
      ∧ s1 = Vars.mk (r.1 - (1 / p) * (s.upperC - s.lowerC))
          (r.1 + (1 / p) * (s.upperC - (r.1 - (1 / p) * (s.upperC - s.lowerC))))
          (delta_of r.2 s.besterr) r.1 r.2 := by
  unfold round at h
  cases hg : grid_loop E s.lowerC s.upperC grid_indices (s.best, s.besterr) with
  | none => simp [hg] at h
  | some r =>
    rw [hg] at h
    simp only [Option.map_some', Option.some.injEq] at h
    exact ⟨r, rfl, h.symm⟩

theorem grid_indices_ne_nil : grid_indices ≠ [] := by
  rw [grid_indices_eq]
  simp

theorem loop_inv_round (E : ℝ → Option ℝ) (s s1 : Vars) (hs : loop_inv s)
    (h : round E s = some s1) :
    0 ≤ s1.lowerC ∧ s1.lowerC ≤ s1.upperC ∧
      s1.lowerC + (s1.upperC - s1.lowerC) / 32 ≤ s1.best ∧ s1.best ≤ s1.upperC := by
  obtain ⟨r, hg, rfl⟩ := round_some E s s1 h
  obtain ⟨h0, hw, hb⟩ := hs
  have hbest : s.lowerC + (s.upperC - s.lowerC) / 32 ≤ r.1 ∧ r.1 ≤ s.upperC := by
    have hgrid : ∀ i ∈ grid_indices, s.lowerC + (s.upperC - s.lowerC) / 32
        ≤ grid_point s.lowerC s.upperC i ∧ grid_point s.lowerC s.upperC i ≤ s.upperC := by
      intro i hi
      rw [mem_grid_indices] at hi
      rw [grid_point_eq]
      have h1 : (1 : ℝ) ≤ (i : ℝ) := by exact_mod_cast hi.1
      have h2 : (i : ℝ) ≤ 30 := by exact_mod_cast hi.2
      have hw0 : 0 ≤ (s.upperC - s.lowerC) / 32 := by linarith
      constructor
      · nlinarith
      · nlinarith
    rcases hb with ⟨hsent, _⟩ | hin
    · obtain ⟨i, hi, h1, _⟩ :=
        grid_loop_cases_sentinel E s.lowerC s.upperC grid_indices (s.best, s.besterr) r
          hsent grid_indices_ne_nil hg
      rw [h1]
      exact hgrid i hi
    · rcases grid_loop_cases E s.lowerC s.upperC grid_indices (s.best, s.besterr) r hg with
        h1 | ⟨i, hi, h1, _⟩
      · rw [h1]
        exact hin
      · rw [h1]
        exact hgrid i hi
  simp only [p_eq]
  obtain ⟨hb1, hb2⟩ := hbest
  refine ⟨by linarith, by linarith, by linarith, by linarith⟩

theorem loop_inv_step (E : ℝ → Option ℝ) (s s1 : Vars) (hs : loop_inv s)
    (_ha : s.deltaerror.above) (h : round E s = some s1) : loop_inv s1 := by
  obtain ⟨h0, h1, h2, h3⟩ := loop_inv_round E s s1 hs h
  exact ⟨h0, h1, Or.inr ⟨h2, h3⟩⟩

theorem loop_inv_init (row : ℝ × ℝ) (h : 0 ≤ row.2) : loop_inv (init_vars row) := by
  unfold loop_inv init_vars
  refine ⟨le_refl _, ?_, Or.inl ⟨rfl, ?_⟩⟩
  · have h1 : (0 : ℤ) ≤ Int.ceil row.2 := Int.ceil_nonneg h
    have h2 : (0 : ℝ) ≤ ((Int.ceil row.2 : ℤ) : ℝ) := by exact_mod_cast h1
    simp only
    linarith
  · show (1 : ℝ) > 0.00001
    norm_num

theorem grid_step_real (e : ℝ → ℝ) (lo up : ℝ) (acc : ℝ × ℝ) (i : ℕ) :
    grid_step (fun C => some (e C)) lo up acc i
      = some (if e (grid_point lo up i) < acc.2 ∨ acc.2 = -1
          then (grid_point lo up i, e (grid_point lo up i)) else acc) := by
  simp [grid_step]

/-- While every grid point is no better than the pair in hand, the grid loop keeps it. -/
theorem grid_loop_keep (e : ℝ → ℝ) (lo up : ℝ) (is : List ℕ) (acc : ℝ × ℝ)
    (hacc : acc.2 ≠ -1) (h : ∀ j ∈ is, acc.2 ≤ e (grid_point lo up j)) :
    grid_loop (fun C => some (e C)) lo up is acc = some acc := by
  induction is with
  | nil => rfl
  | cons i is ih =>
    have hi : ¬ (e (grid_point lo up i) < acc.2 ∨ acc.2 = -1) := by
      rintro (h1 | h1)
      · exact absurd h1 (not_lt.mpr (h i (List.mem_cons_self _ _)))
      · exact hacc h1
    simp only [grid_loop, grid_step_real, if_neg hi, Option.some_bind]
    exact ih (fun j hj => h j (List.mem_cons_of_mem _ hj))

theorem grid_loop_prefix (e : ℝ → ℝ) (lo up v : ℝ) (is : List ℕ) (acc : ℝ × ℝ)
    (hacc : acc.2 = -1 ∨ v < acc.2) (h : ∀ j ∈ is, v < e (grid_point lo up j)) :
    ∃ a : ℝ × ℝ, grid_loop (fun C => some (e C)) lo up is acc = some a
      ∧ (a.2 = -1 ∨ v < a.2) := by
  induction is generalizing acc with
  | nil => exact ⟨acc, rfl, hacc⟩
  | cons i is ih =>
    simp only [grid_loop, grid_step_real, Option.some_bind]
    apply ih
    · by_cases hc : e (grid_point lo up i) < acc.2 ∨ acc.2 = -1
      · rw [if_pos hc]
        exact Or.inr (h i (List.mem_cons_self _ _))
      · rw [if_neg hc]
        exact hacc
    · exact fun j hj => h j (List.mem_cons_of_mem _ hj)

/-- The grid loop ends on the first grid point of least error, when that error improves on
the pair in hand. -/
theorem grid_loop_best (e : ℝ → ℝ) (lo up : ℝ) (l1 l2 : List ℕ) (i0 : ℕ) (acc : ℝ × ℝ)
    (hbefore : ∀ j ∈ l1, e (grid_point lo up i0) < e (grid_point lo up j))
    (hafter : ∀ j ∈ l2, e (grid_point lo up i0) ≤ e (grid_point lo up j))
    (hacc : acc.2 = -1 ∨ e (grid_point lo up i0) < acc.2)
    (hv : e (grid_point lo up i0) ≠ -1) :
    grid_loop (fun C => some (e C)) lo up (l1 ++ i0 :: l2) acc
      = some (grid_point lo up i0, e (grid_point lo up i0)) := by
  rw [grid_loop_append]
  obtain ⟨a, ha, ha2⟩ := grid_loop_prefix e lo up _ l1 acc hacc hbefore
  rw [ha]
  have hc : e (grid_point lo up i0) < a.2 ∨ a.2 = -1 := by
    rcases ha2 with h | h
    · exact Or.inr h
    · exact Or.inl h
  simp only [Option.some_bind, grid_loop, grid_step_real, if_pos hc]
  exact grid_loop_keep e lo up l2 _ hv hafter

theorem grid_indices_split (i0 : ℕ) (h1 : 1 ≤ i0) (h30 : i0 ≤ 30) :
    grid_indices = (grid_indices.filter fun j => decide (j < i0)) ++
      i0 :: (grid_indices.filter fun j => decide (i0 < j)) := by
  rw [grid_indices_eq]
  interval_cases i0 <;> decide

/-- The grid loop of a round ends on the grid point `i0` when its error is less than the
error at every earlier grid point, at most the error at every later one, and improves on
the pair in hand. -/
theorem grid_round_best (e : ℝ → ℝ) (lo up : ℝ) (i0 : ℕ) (acc : ℝ × ℝ)
    (h1 : 1 ≤ i0) (h30 : i0 ≤ 30)
    (hbefore : ∀ j, 1 ≤ j → j < i0 → e (grid_point lo up i0) < e (grid_point lo up j))
    (hafter : ∀ j, i0 < j → j ≤ 30 → e (grid_point lo up i0) ≤ e (grid_point lo up j))
    (hacc : acc.2 = -1 ∨ e (grid_point lo up i0) < acc.2)
    (hv : e (grid_point lo up i0) ≠ -1) :
    grid_loop (fun C => some (e C)) lo up grid_indices acc
      = some (grid_point lo up i0, e (grid_point lo up i0)) := by
  rw [grid_indices_split i0 h1 h30]
  apply grid_loop_best e lo up _ _ i0 acc _ _ hacc hv
  · intro j hj
    rw [List.mem_filter, mem_grid_indices] at hj
    exact hbefore j hj.1.1 (of_decide_eq_true hj.2)
  · intro j hj
    rw [List.mem_filter, mem_grid_indices] at hj
    exact hafter j (of_decide_eq_true hj.2) hj.1.2

theorem while_loop_stop (E : ℝ → Option ℝ) (fuel : ℕ) (s : Vars) (h : ¬ s.deltaerror.above) :
    while_loop E fuel s = Outcome.ret s.best := by
  cases fuel <;> simp [while_loop, h]

theorem while_loop_round (E : ℝ → Option ℝ) (fuel : ℕ) (s s1 : Vars) (h : s.deltaerror.above)
    (hr : round E s = some s1) :
    while_loop E (fuel + 1) s = while_loop E fuel s1 := by
  simp [while_loop, h, hr]

/-- The state after a round whose grid loop ends on the pair `(best, besterr)`. -/
theorem round_of_grid (E : ℝ → Option ℝ) (s : Vars) (r : ℝ × ℝ)
    (h : grid_loop E s.lowerC s.upperC grid_indices (s.best, s.besterr) = some r) :
    round E s = some (Vars.mk (r.1 - (s.upperC - s.lowerC) / 32)
      (r.1 + (s.upperC - (r.1 - (s.upperC - s.lowerC) / 32)) / 32)
      (delta_of r.2 s.besterr) r.1 r.2) := by
  unfold round
  rw [h]
  simp only [Option.map_some', p_eq]
  congr 2
  · ring
  · ring

theorem error_spec_single (x t C : ℝ) (comp : complexity) :
    error_spec [(x, t)] C comp = |C * growth comp x - t| := by
  unfold error_spec
  simp [Real.sqrt_sq_eq_abs]

theorem in_domain_of_pos (data : Dataset) (comp : complexity) (hc : comp ≠ complexity.last)
    (h : ∀ d ∈ data, 0 < d.1) : in_domain data comp :=
  ⟨hc, fun _ => h⟩

theorem delta_real_one_above : (Delta.real 1).above := by
  show (1 : ℝ) > 0.00001
  norm_num

theorem get_error_single (x t C : ℝ) (comp : complexity) (hdom : in_domain [(x, t)] comp) :
    get_error [(x, t)] C comp = some (|C * growth comp x - t|) := by
  rw [get_error_eq _ C comp hdom (by simp), error_spec_single]

/-! ### The ranking loop of `main` -/

theorem candidates_pairwise :
    List.Pairwise (fun a b => enum_value a < enum_value b) candidates := by
  unfold candidates
  simp [enum_value]

/-- In a split of the candidate list, the part before `j` holds exactly the candidates
enumerated before `j`. -/
theorem candidates_split_before (l1 l2 : List complexity) (j i : complexity)
    (h : candidates = l1 ++ j :: l2) (hi : i ∈ candidates)
    (hlt : enum_value i < enum_value j) : i ∈ l1 := by
  have hp := candidates_pairwise
  rw [h] at hp hi
  rw [List.pairwise_append] at hp
  obtain ⟨_, hp2, _⟩ := hp
  rw [List.pairwise_cons] at hp2
  rcases List.mem_append.mp hi with h1 | h1
  · exact h1
  · rcases List.mem_cons.mp h1 with rfl | h2
    · exact absurd hlt (lt_irrefl _)
    · exact absurd (hp2.1 i h2) (by omega)

theorem init_vars_row_5_50 :
    init_vars ((5 : ℝ), (50 : ℝ)) = Vars.mk 0 100 (Delta.real 1) (-1) (-1) := by
  unfold init_vars
  have h : Int.ceil (50 : ℝ) = 50 := by
    have : ((50 : ℤ) : ℝ) = (50 : ℝ) := by norm_num
    rw [← this, Int.ceil_intCast]
  simp only [h]
  norm_num

/-! ### The number of rounds -/

/-- The state after a round in which grid point `i0` is the first of least error and
improves on the best error so far. -/
theorem round_best (e : ℝ → ℝ) (s : Vars) (i0 : ℕ) (h1 : 1 ≤ i0) (h30 : i0 ≤ 30)
    (hbefore : ∀ j, 1 ≤ j → j < i0 →
      e (grid_point s.lowerC s.upperC i0) < e (grid_point s.lowerC s.upperC j))
    (hafter : ∀ j, i0 < j → j ≤ 30 →
      e (grid_point s.lowerC s.upperC i0) ≤ e (grid_point s.lowerC s.upperC j))
    (hacc : s.besterr = -1 ∨ e (grid_point s.lowerC s.upperC i0) < s.besterr)
    (hv : e (grid_point s.lowerC s.upperC i0) ≠ -1) :
    round (fun C => some (e C)) s
      = some (Vars.mk (grid_point s.lowerC s.upperC i0 - (s.upperC - s.lowerC) / 32)
          (grid_point s.lowerC s.upperC i0
            + (s.upperC - (grid_point s.lowerC s.upperC i0 - (s.upperC - s.lowerC) / 32)) / 32)
          (delta_of (e (grid_point s.lowerC s.upperC i0)) s.besterr)
          (grid_point s.lowerC s.upperC i0) (e (grid_point s.lowerC s.upperC i0))) := by
  have hg := grid_round_best e s.lowerC s.upperC i0 (s.best, s.besterr) h1 h30 hbefore
    hafter hacc hv
  exact round_of_grid _ s _ hg

/-! ### Termination when no constant fits exactly -/

/-- Summary of the grid loop for a real-valued, non-negative error: it ends on a pair whose
error is at most the error it started from and at most the error at every grid point, and
the pair is the one it started from or a grid point with its error. -/
theorem grid_loop_summary (e : ℝ → ℝ) (he : ∀ C, 0 ≤ e C) (lo up : ℝ) (is : List ℕ)
    (acc : ℝ × ℝ) :
    ∃ r : ℝ × ℝ, grid_loop (fun C => some (e C)) lo up is acc = some r
      ∧ (acc.2 ≠ -1 → r.2 ≤ acc.2)
      ∧ (acc.2 ≠ -1 ∨ is ≠ [] → ∀ j ∈ is, r.2 ≤ e (grid_point lo up j))
      ∧ ((r = acc ∧ (acc.2 ≠ -1 ∨ is = []))
          ∨ ∃ i ∈ is, r = (grid_point lo up i, e (grid_point lo up i))) := by
  induction is generalizing acc with
  | nil =>
    refine ⟨acc, rfl, fun _ => le_refl _, fun _ j hj => absurd hj (List.not_mem_nil j), ?_⟩
    exact Or.inl ⟨rfl, Or.inr rfl⟩
  | cons i is ih =>
    simp only [grid_loop, grid_step_real, Option.some_bind]
    by_cases hc : e (grid_point lo up i) < acc.2 ∨ acc.2 = -1
    · rw [if_pos hc]
      obtain ⟨r, h1, h2, h3, h4⟩ := ih (grid_point lo up i, e (grid_point lo up i))
      have hne : (grid_point lo up i, e (grid_point lo up i)).2 ≠ -1 := by
        simp only
        have := he (grid_point lo up i)
        linarith
      have hr : r.2 ≤ e (grid_point lo up i) := h2 hne
      refine ⟨r, h1, ?_, ?_, ?_⟩
      · intro hacc
        rcases hc with hc | hc
        · exact le_trans hr hc.le
        · exact absurd hc hacc
      · intro _ j hj
        rcases List.mem_cons.mp hj with rfl | hj
        · exact hr
        · exact h3 (Or.inl hne) j hj
      · right
        rcases h4 with ⟨h4, _⟩ | ⟨k, hk, h4⟩
        · exact ⟨i, List.mem_cons_self _ _, h4⟩
        · exact ⟨k, List.mem_cons_of_mem _ hk, h4⟩
    · rw [if_neg hc]
      have hacc : acc.2 ≠ -1 := fun h => hc (Or.inr h)
      have hle : acc.2 ≤ e (grid_point lo up i) := not_lt.mp (fun h => hc (Or.inl h))
      obtain ⟨r, h1, h2, h3, h4⟩ := ih acc
      refine ⟨r, h1, h2, ?_, ?_⟩
      · intro _ j hj
        rcases List.mem_cons.mp hj with rfl | hj
        · exact le_trans (h2 hacc) hle
        · exact h3 (Or.inl hacc) j hj
      · rcases h4 with ⟨h4, _⟩ | ⟨k, hk, h4⟩
        · exact Or.inl ⟨h4, Or.inl hacc⟩
        · exact Or.inr ⟨k, List.mem_cons_of_mem _ hk, h4⟩

/-- Summary of a round for a real-valued, non-negative error. -/
theorem round_summary (e : ℝ → ℝ) (he : ∀ C, 0 ≤ e C) (s : Vars)
    (hs : s.besterr = -1 ∨ s.besterr = e s.best) :
    ∃ s1 : Vars, round (fun C => some (e C)) s = some s1
      ∧ s1.besterr = e s1.best
      ∧ (s.besterr ≠ -1 → s1.besterr ≤ s.besterr)
      ∧ (∀ j ∈ grid_indices, s1.besterr ≤ e (grid_point s.lowerC s.upperC j))
      ∧ s1.deltaerror = delta_of s1.besterr s.besterr
      ∧ s1.lowerC = s1.best - (s.upperC - s.lowerC) / 32
      ∧ s1.upperC = s1.best + (s.upperC - s1.lowerC) / 32
      ∧ ((s1.best = s.best ∧ s1.besterr = s.besterr ∧ s.besterr ≠ -1)
          ∨ ∃ i ∈ grid_indices, s1.best = grid_point s.lowerC s.upperC i) := by
  obtain ⟨r, h1, h2, h3, h4⟩ :=
    grid_loop_summary e he s.lowerC s.upperC grid_indices (s.best, s.besterr)
  refine ⟨_, round_of_grid _ s r h1, ?_, h2, h3 (Or.inr grid_indices_ne_nil), rfl, rfl, rfl, ?_⟩
  · simp only
    rcases h4 with ⟨h4, h5⟩ | ⟨i, _, h4⟩
    · rcases h5 with h5 | h5
      · rw [h4]
        simp only
        rcases hs with hs | hs
        · exact absurd hs h5
        · exact hs
      · exact absurd h5 grid_indices_ne_nil
    · rw [h4]
  · simp only
    rcases h4 with ⟨h4, h5⟩ | ⟨i, hi, h4⟩
    · left
      rcases h5 with h5 | h5
      · rw [h4]
        exact ⟨rfl, rfl, h5⟩
      · exact absurd h5 grid_indices_ne_nil
    · right
      exact ⟨i, hi, by rw [h4]⟩

theorem while_loop_mono (E : ℝ → Option ℝ) (fuel k : ℕ) (s : Vars) (C : ℝ)
    (h : while_loop E fuel s = Outcome.ret C) : while_loop E (fuel + k) s = Outcome.ret C := by
  induction fuel generalizing s with
  | zero =>
    unfold while_loop at h
    by_cases ha : s.deltaerror.above
    · rw [if_pos ha] at h
      cases h
    · rw [if_neg ha] at h
      rw [while_loop_stop E _ s ha]
      exact h
  | succ fuel ih =>
    by_cases ha : s.deltaerror.above
    · cases hr : round E s with
      | none =>
        simp [while_loop, ha, hr] at h
      | some s1 =>
        rw [while_loop_round E fuel s s1 ha hr] at h
        have : fuel + 1 + k = (fuel + k) + 1 := by omega
        rw [this, while_loop_round E (fuel + k) s s1 ha hr]
        exact ih s1 h
    · rw [while_loop_stop E _ s ha] at h
      rw [while_loop_stop E _ s ha]
      exact h

theorem not_above_or_lt (b1 b : ℝ) (hb : 0 < b) (h : (delta_of b1 b).above) :
    b1 < 0.99999 * b := by
  unfold delta_of at h
  rw [if_neg hb.ne'] at h
  have h1 : 1 - b1 / b > 0.00001 := h
  have h2 : b1 / b < 0.99999 := by linarith
  rwa [div_lt_iff₀ hb] at h2

/-- When the error is at least `m > 0` everywhere, a loop whose best error `b` satisfies
`b * 0.99999^k < m` returns within `k` rounds: each further round must improve the best
error by the factor 0.99999. -/
theorem while_loop_returns_within (e : ℝ → ℝ) (m : ℝ) (hm : 0 < m) (he : ∀ C, m ≤ e C)
    (k : ℕ) : ∀ s : Vars, s.besterr = e s.best → s.besterr * 0.99999 ^ k < m →
      ∃ C, while_loop (fun C => some (e C)) k s = Outcome.ret C := by
  have he0 : ∀ C, 0 ≤ e C := fun C => le_trans hm.le (he C)
  induction k with
  | zero =>
    intro s hs hk
    rw [pow_zero, mul_one, hs] at hk
    exact absurd hk (not_lt.mpr (he _))
  | succ k ih =>
    intro s hs hk
    by_cases ha : s.deltaerror.above
    · obtain ⟨s1, hr, h1, h2, _, h4, _⟩ := round_summary e he0 s (Or.inr hs)
      rw [while_loop_round _ k s s1 ha hr]
      by_cases ha1 : s1.deltaerror.above
      · apply ih s1 h1
        have hbpos : 0 < s.besterr := by
          rw [hs]
          exact lt_of_lt_of_le hm (he _)
        rw [h4] at ha1
        have hlt := not_above_or_lt _ _ hbpos ha1
        have hp : (0 : ℝ) < 0.99999 ^ k := by positivity
        calc s1.besterr * 0.99999 ^ k < 0.99999 * s.besterr * 0.99999 ^ k := by
              apply mul_lt_mul_of_pos_right hlt hp
          _ = s.besterr * 0.99999 ^ (k + 1) := by ring
          _ < m := hk
      · exact ⟨s1.best, while_loop_stop _ _ _ ha1⟩
    · exact ⟨s.best, while_loop_stop _ _ _ ha⟩

/-- Termination: when the error is at least `m > 0` everywhere, the loop of `get_const`,
started with the sentinel `besterr = -1`, returns after finitely many rounds. -/
theorem while_loop_terminates (e : ℝ → ℝ) (m : ℝ) (hm : 0 < m) (he : ∀ C, m ≤ e C)
    (s : Vars) (hs : s.besterr = -1) :
    ∃ fuel C, while_loop (fun C => some (e C)) fuel s = Outcome.ret C := by
  have he0 : ∀ C, 0 ≤ e C := fun C => le_trans hm.le (he C)
  by_cases ha : s.deltaerror.above
  · obtain ⟨s1, hr, h1, _⟩ := round_summary e he0 s (Or.inl hs)
    have hbpos : 0 < s1.besterr := by
      rw [h1]
      exact lt_of_lt_of_le hm (he _)
    obtain ⟨k, hk⟩ := exists_pow_lt_of_lt_one (div_pos hm hbpos)
      (by norm_num : (0.99999 : ℝ) < 1)
    have hk2 : s1.besterr * 0.99999 ^ k < m := by
      rw [lt_div_iff₀ hbpos] at hk
      linarith
    obtain ⟨C, hC⟩ := while_loop_returns_within e m hm he k s1 h1 hk2
    exact ⟨k + 1, C, by rw [while_loop_round _ k s s1 ha hr]; exact hC⟩
  · exact ⟨0, s.best, while_loop_stop _ _ _ ha⟩

theorem get_const_mono (fuel k : ℕ) (data : Dataset) (comp : complexity) (C : ℝ)
    (h : get_const fuel data comp = Outcome.ret C) :
    get_const (fuel + k) data comp = Outcome.ret C := by
  unfold get_const at h ⊢
  cases hrow : read_at data ((data.length : ℤ) - 1) with
  | none =>
    rw [hrow] at h
    cases h
  | some row =>
    rw [hrow] at h
    exact while_loop_mono _ fuel k _ C h

/-! ### The states that the loop of `get_const` goes through -/

/-- A property kept by every round holds in every state the loop goes through. -/
theorem vars_after_inv (E : ℝ → Option ℝ) (I : Vars → Prop)
    (hstep : ∀ s s1, I s → s.deltaerror.above → round E s = some s1 → I s1)
    (k : ℕ) (s0 s : Vars) (h0 : I s0) (h : vars_after E k s0 = some s) : I s := by
  induction k generalizing s0 with
  | zero =>
    simp only [vars_after, Option.some.injEq] at h
    rw [← h]
    exact h0
  | succ k ih =>
    unfold vars_after at h
    by_cases ha : s0.deltaerror.above
    · rw [if_pos ha] at h
      cases hr : round E s0 with
      | none =>
        rw [hr] at h
        cases h
      | some s1 =>
        rw [hr] at h
        exact ih s1 (hstep s0 s1 h0 ha hr) h
    · rw [if_neg ha] at h
      cases h

/-- The interval that a round leaves: `lowerC` is one step of the old interval below the new
`best`; `upperC` is computed from the new `lowerC`; and the new `best` lies in the old
interval, at least one step above its lower end. -/
theorem round_interval (E : ℝ → Option ℝ) (s s1 : Vars) (hs : loop_inv s)
    (h : round E s = some s1) :
    s1.lowerC = s1.best - (s.upperC - s.lowerC) / 32
      ∧ s1.upperC = s1.best + (s.upperC - s1.lowerC) / 32
      ∧ s.lowerC + (s.upperC - s.lowerC) / 32 ≤ s1.best ∧ s1.best ≤ s.upperC := by
  obtain ⟨r, hg, rfl⟩ := round_some E s s1 h
  obtain ⟨h0, hw, hb⟩ := hs
  have hgrid : ∀ i ∈ grid_indices, s.lowerC + (s.upperC - s.lowerC) / 32
      ≤ grid_point s.lowerC s.upperC i ∧ grid_point s.lowerC s.upperC i ≤ s.upperC := by
    intro i hi
    rw [mem_grid_indices] at hi
    rw [grid_point_eq]
    have h1 : (1 : ℝ) ≤ (i : ℝ) := by exact_mod_cast hi.1
    have h2 : (i : ℝ) ≤ 30 := by exact_mod_cast hi.2
    have hw0 : 0 ≤ (s.upperC - s.lowerC) / 32 := by linarith
    constructor
    · nlinarith
    · nlinarith
  have hbest : s.lowerC + (s.upperC - s.lowerC) / 32 ≤ r.1 ∧ r.1 ≤ s.upperC := by
    rcases hb with ⟨hsent, _⟩ | hin
    · obtain ⟨i, hi, h1, _⟩ :=
        grid_loop_cases_sentinel E s.lowerC s.upperC grid_indices (s.best, s.besterr) r
          hsent grid_indices_ne_nil hg
      rw [h1]
      exact hgrid i hi
    · rcases grid_loop_cases E s.lowerC s.upperC grid_indices (s.best, s.besterr) r hg with
        h1 | ⟨i, hi, h1, _⟩
      · rw [h1]
        exact hin
      · rw [h1]
        exact hgrid i hi
  simp only [p_eq]
  refine ⟨by ring, by ring, hbest.1, hbest.2⟩

theorem round_row_5_50 :
    round (fun C => get_error row_5_50 C complexity.c) (init_vars ((5 : ℝ), (50 : ℝ)))
      = some (Vars.mk (375 / 8) (13225 / 256) (Delta.real 1) 50 0) := by
  have hfun : (fun C => get_error row_5_50 C complexity.c)
      = fun C => some (|C * 1 - 50|) := by
    funext C
    unfold row_5_50
    rw [get_error_single 5 50 C complexity.c (in_domain_of_pos _ _ (by decide) (by simp))]
    rfl
  have e16 : |grid_point 0 100 16 * 1 - 50| = 0 := by
    rw [grid_point_eq]
    norm_num
  have hr := round_best (fun C => |C * 1 - 50|) (Vars.mk 0 100 (Delta.real 1) (-1) (-1)) 16
    (by norm_num) (by norm_num)
    (by
      intro j hj1 hj2
      simp only [e16]
      apply abs_pos.mpr
      rw [grid_point_eq]
      have hj : (j : ℝ) ≤ 15 := by exact_mod_cast (by omega : j ≤ 15)
      intro h0
      linarith)
    (by
      intro j _ _
      simp only [e16]
      exact abs_nonneg _)
    (Or.inl rfl)
    (by simp only [e16]; norm_num)
  simp only [e16] at hr
  rw [hfun, init_vars_row_5_50, hr]
  have hg : grid_point 0 100 16 = 50 := by
    rw [grid_point_eq]
    norm_num
  have hd : delta_of 0 (-1) = Delta.real 1 := by
    unfold delta_of
    norm_num
  simp only [hg, hd]
  norm_num

/-! ### The new search interval of a round -/

/-- C12 (as stated) fails in the first round of `get_const` on the dataset `{(5,50)}` with
the constant candidate.  The round starts on `[0, 100]`, so the step is `100/32 = 3.125`; it
finds `best = 50` and sets `lowerC = 50 - 3.125`, but `upperC` is computed from the already
reassigned `lowerC`: it is `50 + (100 - 46.875)/32 = 13225/256`, about `51.66`, and not
`50 + 3.125 = 53.125`. -/
theorem round_row_5_50_upper_bound :
    ∃ s1 : Vars,
      round (fun C => get_error row_5_50 C complexity.c) (init_vars ((5 : ℝ), (50 : ℝ)))
        = some s1
      ∧ s1.best = 50
      ∧ s1.lowerC
          = s1.best - ((init_vars ((5 : ℝ), (50 : ℝ))).upperC
              - (init_vars ((5 : ℝ), (50 : ℝ))).lowerC) / 32
      ∧ s1.upperC = 13225 / 256
      ∧ s1.upperC
          ≠ s1.best + ((init_vars ((5 : ℝ), (50 : ℝ))).upperC
              - (init_vars ((5 : ℝ), (50 : ℝ))).lowerC) / 32 := by
  refine ⟨_, round_row_5_50, rfl, ?_, rfl, ?_⟩
  · rw [init_vars_row_5_50]
    norm_num
  · rw [init_vars_row_5_50]
    norm_num

/-- In exact real arithmetic, in a call of `get_const` on a non-empty dataset whose last
runtime is `>= 0`, every round of the loop (round `k + 1`, from the state
`s` after `k` rounds to the state `s1`) leaves `0 <= lowerC <= best <= upperC`, and the new
interval is at most `65/1024` of the old one (it is in fact at most `1/16` of it). -/
theorem round_keeps_order_and_shrinks (data : Dataset) (comp : complexity) (hne : data ≠ [])
    (hlast : 0 ≤ (data.getLast hne).2) (k : ℕ) (s s1 : Vars)
    (hk : vars_after (fun C => get_error data C comp) k (init_vars (data.getLast hne)) = some s)
    (_ha : s.deltaerror.above)
    (hr : round (fun C => get_error data C comp) s = some s1) :
    0 ≤ s1.lowerC ∧ s1.lowerC ≤ s1.best ∧ s1.best ≤ s1.upperC
      ∧ s1.upperC - s1.lowerC ≤ 65 / 1024 * (s.upperC - s.lowerC)
      ∧ s1.upperC - s1.lowerC ≤ 1 / 16 * (s.upperC - s.lowerC) := by
  have hinv : loop_inv s :=
    vars_after_inv _ loop_inv (fun a b hi hab hrab => loop_inv_step _ a b hi hab hrab)
      k _ s (loop_inv_init _ hlast) hk
  obtain ⟨h0, h1, h2, h3⟩ := loop_inv_round _ s s1 hinv hr
  obtain ⟨hl, hu, hb1, hb2⟩ := round_interval _ s s1 hinv hr
  have hw : 0 ≤ s.upperC - s.lowerC := by linarith [hinv.2.1]
  refine ⟨h0, by linarith, h3, by linarith, by linarith⟩

/-- Witness of `round_keeps_order_and_shrinks`: the first round on the dataset `{(5,50)}`
with the constant candidate takes `[0, 100]` to `[46.875, 51.66015625]`, with `best = 50`. -/
theorem round_keeps_order_and_shrinks_witness :
    round (fun C => get_error row_5_50 C complexity.c) (init_vars ((5 : ℝ), (50 : ℝ)))
        = some (Vars.mk (375 / 8) (13225 / 256) (Delta.real 1) 50 0)
      ∧ ((0 : ℝ) ≤ 375 / 8 ∧ (375 / 8 : ℝ) ≤ 50 ∧ (50 : ℝ) ≤ 13225 / 256
      ∧ (13225 / 256 : ℝ) - 375 / 8
          ≤ 65 / 1024 * ((init_vars ((5 : ℝ), (50 : ℝ))).upperC
              - (init_vars ((5 : ℝ), (50 : ℝ))).lowerC)
      ∧ (13225 / 256 : ℝ) - 375 / 8
          ≤ 1 / 16 * ((init_vars ((5 : ℝ), (50 : ℝ))).upperC
              - (init_vars ((5 : ℝ), (50 : ℝ))).lowerC)) :=
  ⟨round_row_5_50,
    round_keeps_order_and_shrinks row_5_50 complexity.c (by simp [row_5_50])
      (by simp [row_5_50]) 0 (init_vars ((5 : ℝ), (50 : ℝ)))
      (Vars.mk (375 / 8) (13225 / 256) (Delta.real 1) 50 0) rfl
      (by rw [init_vars_row_5_50]; exact delta_real_one_above)
      round_row_5_50⟩

/-! ### The growth functions on sizes above 2 -/

theorem log_gt_half (x : ℝ) (hx : 2 < x) : 1 / 2 < Real.log x := by
  have h1 : Real.log 2 < Real.log x := Real.log_lt_log (by norm_num) hx
  have h2 := Real.log_two_gt_d9
  linarith

theorem growth_mono (comp : complexity) (x y : ℝ) (hx : 2 < x) (hxy : x ≤ y) :
    growth comp x ≤ growth comp y := by
  have hx0 : 0 < x := by linarith
  have hlog : Real.log x ≤ Real.log y := Real.log_le_log hx0 hxy
  have hlx : 0 ≤ Real.log x := by linarith [log_gt_half x hx]
  have hsq : x ^ 2 ≤ y ^ 2 := pow_le_pow_left₀ hx0.le hxy 2
  cases comp
  case c => exact le_refl _
  case logn => exact hlog
  case n => exact hxy
  case nlogn => exact mul_le_mul hxy hlog hlx (by linarith)
  case n2 => exact hsq
  case n2logn => exact mul_le_mul hsq hlog hlx (by positivity)
  case n3 => exact pow_le_pow_left₀ hx0.le hxy 3
  case expo => exact Real.rpow_le_rpow_of_exponent_le (by norm_num) hxy
  case last => exact le_refl _

theorem growth_ge_one (comp : complexity) (hc : comp ∈ candidates)
    (hlog : comp ≠ complexity.logn) (x : ℝ) (hx : 2 < x) : 1 ≤ growth comp x := by
  have hl := log_gt_half x hx
  cases comp
  case c => exact le_refl _
  case logn => exact absurd rfl hlog
  case n => show (1 : ℝ) ≤ x; linarith
  case nlogn => show (1 : ℝ) ≤ x * Real.log x; nlinarith
  case n2 => show (1 : ℝ) ≤ x ^ 2; nlinarith
  case n2logn =>
    show (1 : ℝ) ≤ x ^ 2 * Real.log x
    have h4 : (4 : ℝ) ≤ x ^ 2 := by nlinarith
    nlinarith
  case n3 =>
    show (1 : ℝ) ≤ x ^ 3
    have h4 : (4 : ℝ) ≤ x ^ 2 := by nlinarith
    nlinarith
  case expo => exact Real.one_le_rpow (by norm_num) (by linarith)
  case last => simp [candidates] at hc

theorem growth_gt_half (comp : complexity) (hc : comp ∈ candidates) (x : ℝ) (hx : 2 < x) :
    1 / 2 < growth comp x := by
  by_cases hlog : comp = complexity.logn
  · rw [hlog]
    exact log_gt_half x hx
  · have := growth_ge_one comp hc hlog x hx
    linarith

/-- C15 (as stated) fails for the candidate `ln x` at the size `x = 2.5`: the size is above
2 but `ln 2.5 < 1`. -/
theorem growth_logn_below_one : (2 : ℝ) < 5 / 2 ∧ growth complexity.logn (5 / 2) < 1 := by
  refine ⟨by norm_num, ?_⟩
  show Real.log (5 / 2) < 1
  rw [Real.log_lt_iff_lt_exp (by norm_num)]
  have := Real.exp_one_gt_d9
  linarith

theorem growth_ge_one_of_exp_le (comp : complexity) (hc : comp ∈ candidates) (x : ℝ)
    (hx : 2 < x) (he : Real.exp 1 ≤ x) : 1 ≤ growth comp x := by
  by_cases hlog : comp = complexity.logn
  · rw [hlog]
    exact (Real.le_log_iff_exp_le (by linarith)).mpr he
  · exact growth_ge_one comp hc hlog x hx

/-- C15 (amended): each of the eight candidate growth functions is non-decreasing on sizes
above 2, and satisfies `f(x) >= 1` at every size `x >= e`, in particular at every integer
size above 2 (the sizes that `main` reads are integers).  On all real sizes `x > 2`,
`f(x) >= 1` holds for the seven candidates other than `ln x`; for `ln x` it holds exactly
when `x >= e`, and only `ln x > 1/2` holds on all of `x > 2`. -/
theorem growth_above_two (comp : complexity) (hc : comp ∈ candidates) (x y : ℝ) (hx : 2 < x)
    (hxy : x ≤ y) :
    growth comp x ≤ growth comp y
      ∧ (Real.exp 1 ≤ x → 1 ≤ growth comp x)
      ∧ (∀ k : ℤ, 2 < k → 1 ≤ growth comp (k : ℝ))
      ∧ (comp ≠ complexity.logn → 1 ≤ growth comp x)
      ∧ (1 ≤ growth complexity.logn x ↔ Real.exp 1 ≤ x)
      ∧ 1 / 2 < growth comp x := by
  refine ⟨growth_mono comp x y hx hxy, growth_ge_one_of_exp_le comp hc x hx, ?_,
    fun hlog => growth_ge_one comp hc hlog x hx, ?_, growth_gt_half comp hc x hx⟩
  · intro k hk
    have h3 : (3 : ℝ) ≤ (k : ℝ) := by exact_mod_cast (by omega : (3 : ℤ) ≤ k)
    have he := Real.exp_one_lt_d9
    exact growth_ge_one_of_exp_le comp hc k (by linarith) (by linarith)
  · show 1 ≤ Real.log x ↔ Real.exp 1 ≤ x
    exact Real.le_log_iff_exp_le (by linarith)

/-- Witness of `growth_above_two` for the candidate `x ln x` at the sizes 3 and 4. -/
theorem growth_above_two_witness :
    (2 : ℝ) < 3 ∧ (3 : ℝ) ≤ 4
      ∧ growth complexity.nlogn 3 ≤ growth complexity.nlogn 4
      ∧ (Real.exp 1 ≤ 3 → 1 ≤ growth complexity.nlogn 3)
      ∧ (∀ k : ℤ, 2 < k → 1 ≤ growth complexity.nlogn (k : ℝ))
      ∧ (complexity.nlogn ≠ complexity.logn → 1 ≤ growth complexity.nlogn 3)
      ∧ (1 ≤ growth complexity.logn 3 ↔ Real.exp 1 ≤ 3)
      ∧ 1 / 2 < growth complexity.nlogn 3 :=
  ⟨by norm_num, by norm_num,
    growth_above_two complexity.nlogn (by simp [candidates]) 3 4 (by norm_num) (by norm_num)⟩

/-! ### The error as a function of the constant -/

theorem predicted_some (comp : complexity) (C x v : ℝ) (h : predicted comp C x = some v) :
    v = C * growth comp x := by
  by_cases hc : comp = complexity.last
  · rw [hc] at h
    simp [predicted] at h
  by_cases hx : uses_log comp → 0 < x
  · rw [predicted_eq comp C x hc hx] at h
    exact (Option.some.inj h).symm
  · push_neg at hx
    obtain ⟨hl, hx0⟩ := hx
    have hx1 : ¬ 0 < x := not_lt.mpr hx0
    rcases hl with rfl | rfl | rfl <;> simp [predicted, flog, hx1] at h

theorem fill_test_some (comp : complexity) (C : ℝ) (data : Dataset) (test : List ℝ)
    (h : fill_test comp C data = some test) :
    test = data.map fun d => C * growth comp d.1 := by
  induction data generalizing test with
  | nil =>
    simp only [fill_test, Option.some.injEq] at h
    rw [← h]
    rfl
  | cons d ds ih =>
    unfold fill_test at h
    cases hp : predicted comp C d.1 with
    | none => simp [hp] at h
    | some v =>
      cases hf : fill_test comp C ds with
      | none => simp [hp, hf] at h
      | some vs =>
        simp only [hp, hf, Option.some_bind, Option.map_some', Option.some.injEq] at h
        rw [← h, ih vs hf, predicted_some comp C d.1 v hp]
        rfl

theorem loss_loop_some (nn : ℝ) (g : ℝ × ℝ → ℝ) (data : Dataset) (loss l : ℝ)
    (h : loss_loop nn data (data.map g) loss = some l) :
    l = loss + (data.map fun d => (d.2 - g d) ^ 2 / nn).sum := by
  induction data generalizing loss with
  | nil =>
    simp only [List.map_nil, loss_loop, Option.some.injEq] at h
    simp [h]
  | cons d ds ih =>
    simp only [List.map_cons, loss_loop] at h
    by_cases hnn : nn = 0
    · simp [fdiv, hnn] at h
    · simp only [fdiv, if_neg hnn, Option.some_bind] at h
      rw [ih _ h]
      simp only [List.map_cons, List.sum_cons]
      ring

/-- Whenever `get_error` returns a real number, it is the square root of the sum of the
squared residuals divided by the `int` product `n*n`. -/
theorem get_error_some_eq (data : Dataset) (C : ℝ) (comp : complexity) (e : ℝ)
    (h : get_error data C comp = some e) :
    e = Real.sqrt ((data.map fun d => (d.2 - C * growth comp d.1) ^ 2).sum
          / ((wrap_int ((data.length : ℤ) * (data.length : ℤ)) : ℤ) : ℝ)) := by
  unfold get_error at h
  cases hf : fill_test comp C data with
  | none => simp [hf] at h
  | some test =>
    rw [hf] at h
    simp only [Option.some_bind] at h
    rw [fill_test_some comp C data test hf] at h
    unfold get_quadratic_loss at h
    cases hl : loss_loop ((wrap_int ((data.length : ℤ) * (data.length : ℤ)) : ℤ) : ℝ) data
        (data.map fun d => C * growth comp d.1) 0 with
    | none => simp [hl] at h
    | some l =>
      rw [hl] at h
      simp only [Option.some_bind] at h
      have hl2 := loss_loop_some _ _ data 0 l hl
      rw [zero_add, sum_map_div] at hl2
      unfold fsqrt at h
      by_cases hneg : l < 0
      · simp [hneg] at h
      · rw [if_neg hneg] at h
        rw [← hl2]
        exact (Option.some.inj h).symm

theorem sum_sq_expand (data : Dataset) (g : ℝ × ℝ → ℝ) (C : ℝ) :
    (data.map fun d => (d.2 - C * g d) ^ 2).sum
      = (data.map fun d => (g d) ^ 2).sum * C ^ 2 - 2 * (data.map fun d => g d * d.2).sum * C
          + (data.map fun d => d.2 ^ 2).sum := by
  induction data with
  | nil => simp
  | cons d ds ih =>
    simp only [List.map_cons, List.sum_cons]
    rw [ih]
    ring

/-- A quadratic `a C^2 - 2 b C + c0` with `a >= 0` that is nowhere negative falls up to some
`Cs` and rises from there on. -/
theorem quadratic_unimodal (a b c0 : ℝ) (ha : 0 ≤ a)
    (hq : ∀ C : ℝ, 0 ≤ a * C ^ 2 - 2 * b * C + c0) :
    ∃ Cs : ℝ,
      (∀ C1 C2 : ℝ, C1 ≤ C2 → C2 ≤ Cs →
        a * C2 ^ 2 - 2 * b * C2 + c0 ≤ a * C1 ^ 2 - 2 * b * C1 + c0)
      ∧ (∀ C1 C2 : ℝ, Cs ≤ C1 → C1 ≤ C2 →
        a * C1 ^ 2 - 2 * b * C1 + c0 ≤ a * C2 ^ 2 - 2 * b * C2 + c0) := by
  by_cases ha0 : a = 0
  · have hb : b = 0 := by
      by_contra hb
      have h := hq ((c0 + 1) / (2 * b))
      rw [ha0] at h
      have e : 2 * b * ((c0 + 1) / (2 * b)) = c0 + 1 := by field_simp
      rw [zero_mul, zero_sub, e] at h
      linarith
    refine ⟨0, ?_, ?_⟩
    · intro C1 C2 _ _
      rw [ha0, hb]
      simp
    · intro C1 C2 _ _
      rw [ha0, hb]
      simp
  · have hapos : 0 < a := lt_of_le_of_ne ha (Ne.symm ha0)
    have hCs : a * (b / a) = b := by field_simp
    refine ⟨b / a, ?_, ?_⟩
    · intro C1 C2 h12 h2
      have h1 : C1 ≤ b / a := le_trans h12 h2
      have e1 : a * C1 ≤ b := by rw [← hCs]; exact mul_le_mul_of_nonneg_left h1 ha
      have e2 : a * C2 ≤ b := by rw [← hCs]; exact mul_le_mul_of_nonneg_left h2 ha
      nlinarith [mul_nonneg (sub_nonneg.mpr h12) (by linarith : 0 ≤ 2 * b - a * C1 - a * C2)]
    · intro C1 C2 h1 h12
      have h2 : b / a ≤ C2 := le_trans h1 h12
      have e1 : b ≤ a * C1 := by rw [← hCs]; exact mul_le_mul_of_nonneg_left h1 ha
      have e2 : b ≤ a * C2 := by rw [← hCs]; exact mul_le_mul_of_nonneg_left h2 ha
      nlinarith [mul_nonneg (sub_nonneg.mpr h12) (by linarith : 0 ≤ a * C1 + a * C2 - 2 * b)]

/-- The sum of the squared residuals falls up to some constant `Cs` and rises from there
on. -/
theorem residuals_unimodal (data : Dataset) (comp : complexity) :
    ∃ Cs : ℝ,
      (∀ C1 C2 : ℝ, C1 ≤ C2 → C2 ≤ Cs →
        (data.map fun d => (d.2 - C2 * growth comp d.1) ^ 2).sum
          ≤ (data.map fun d => (d.2 - C1 * growth comp d.1) ^ 2).sum)
      ∧ (∀ C1 C2 : ℝ, Cs ≤ C1 → C1 ≤ C2 →
        (data.map fun d => (d.2 - C1 * growth comp d.1) ^ 2).sum
          ≤ (data.map fun d => (d.2 - C2 * growth comp d.1) ^ 2).sum) := by
  have hq : ∀ C : ℝ, 0 ≤ (data.map fun d => (growth comp d.1) ^ 2).sum * C ^ 2
      - 2 * (data.map fun d => growth comp d.1 * d.2).sum * C
      + (data.map fun d => d.2 ^ 2).sum := by
    intro C
    rw [← sum_sq_expand data (fun d => growth comp d.1) C]
    exact sum_map_sq_nonneg data _
  obtain ⟨Cs, h1, h2⟩ := quadratic_unimodal _ _ _ (sum_map_sq_nonneg data _) hq
  refine ⟨Cs, ?_, ?_⟩
  · intro C1 C2 h12 hC2
    rw [sum_sq_expand data (fun d => growth comp d.1) C1,
      sum_sq_expand data (fun d => growth comp d.1) C2]
    exact h1 C1 C2 h12 hC2
  · intro C1 C2 hC1 h12
    rw [sum_sq_expand data (fun d => growth comp d.1) C1,
      sum_sq_expand data (fun d => growth comp d.1) C2]
    exact h2 C1 C2 hC1 h12

/-- The values of `get_error` at two constants compare as the sums of the squared residuals
do. -/
theorem get_error_le_of_residuals (data : Dataset) (comp : complexity) (C1 C2 e1 e2 : ℝ)
    (h1 : get_error data C1 comp = some e1) (h2 : get_error data C2 comp = some e2)
    (h : (data.map fun d => (d.2 - C1 * growth comp d.1) ^ 2).sum
      ≤ (data.map fun d => (d.2 - C2 * growth comp d.1) ^ 2).sum) : e1 ≤ e2 := by
  rw [get_error_some_eq data C1 comp e1 h1, get_error_some_eq data C2 comp e2 h2]
  by_cases hnn : 0 < ((wrap_int ((data.length : ℤ) * (data.length : ℤ)) : ℤ) : ℝ)
  · exact Real.sqrt_le_sqrt (div_le_div_of_nonneg_right h hnn.le)
  · have hle : ((wrap_int ((data.length : ℤ) * (data.length : ℤ)) : ℤ) : ℝ) ≤ 0 :=
      not_lt.mp hnn
    rw [Real.sqrt_eq_zero_of_nonpos (div_nonpos_of_nonneg_of_nonpos (sum_map_sq_nonneg data _) hle)]
    exact Real.sqrt_nonneg _

/-- In exact arithmetic, for every dataset and every candidate, `get_error` is unimodal as a
function of the constant: there is a constant `Cs` such that `get_error` is non-increasing up to `Cs` and
non-decreasing from `Cs` on, at all constants where it returns a real number; it returns one
at every constant when the sizes are positive where the candidate takes a logarithm and the
dataset has at most 46340 rows. -/
theorem get_error_unimodal (data : Dataset) (comp : complexity) :
    ∃ Cs : ℝ,
      (∀ C1 C2 e1 e2 : ℝ, C1 ≤ C2 → C2 ≤ Cs → get_error data C1 comp = some e1 →
        get_error data C2 comp = some e2 → e2 ≤ e1)
      ∧ (∀ C1 C2 e1 e2 : ℝ, Cs ≤ C1 → C1 ≤ C2 → get_error data C1 comp = some e1 →
        get_error data C2 comp = some e2 → e1 ≤ e2)
      ∧ (in_domain data comp → data.length ≤ 46340 →
        ∀ C, ∃ e, get_error data C comp = some e) := by
  obtain ⟨Cs, h1, h2⟩ := residuals_unimodal data comp
  refine ⟨Cs, ?_, ?_, ?_⟩
  · intro C1 C2 e1 e2 h12 hC2 he1 he2
    exact get_error_le_of_residuals data comp C2 C1 e2 e1 he2 he1 (h1 C1 C2 h12 hC2)
  · intro C1 C2 e1 e2 hC1 h12 he1 he2
    exact get_error_le_of_residuals data comp C1 C2 e1 e2 he1 he2 (h2 C1 C2 hC1 h12)
  · intro hdom hlen C
    exact ⟨_, get_error_eq data C comp hdom hlen⟩

/-! ### Termination when every constant has a positive error -/

/-- C18: on a non-empty dataset and for a candidate that no constant fits exactly
(`get_error` returns a positive number at every constant), the errors are bounded below by
a positive minimal error `m`, reached at some constant, and the loop of `get_const`
terminates: given enough rounds it returns a constant (and returns the same one given
more). -/
theorem get_const_terminates_of_pos (data : Dataset) (comp : complexity) (hne : data ≠ [])
    (hpos : ∀ C, ∃ e, get_error data C comp = some e ∧ 0 < e) :
    ∃ m : ℝ, 0 < m ∧ (∃ Cs, get_error data Cs comp = some m)
      ∧ (∀ C e, get_error data C comp = some e → m ≤ e)
      ∧ ∃ fuel C, ∀ k, get_const (fuel + k) data comp = Outcome.ret C := by
  obtain ⟨Cs, h1, h2⟩ := residuals_unimodal data comp
  obtain ⟨m, hm, hm0⟩ := hpos Cs
  have hmin : ∀ C e, get_error data C comp = some e → m ≤ e := by
    intro C e he
    apply get_error_le_of_residuals data comp Cs C m e hm he
    rcases le_total C Cs with hle | hle
    · exact h1 C Cs hle (le_refl _)
    · exact h2 Cs C (le_refl _) hle
  refine ⟨m, hm0, ⟨Cs, hm⟩, hmin, ?_⟩
  choose e he using hpos
  have hfun : (fun C => get_error data C comp) = fun C => some (e C) := by
    funext C
    exact (he C).1
  obtain ⟨fuel, C, hret⟩ := while_loop_terminates e m hm0 (fun C => hmin C (e C) (he C).1)
    (init_vars (data.getLast hne)) rfl
  refine ⟨fuel, C, fun k => ?_⟩
  apply get_const_mono
  rw [(get_const_last_row fuel data comp hne).2, hfun]
  exact hret

theorem get_error_rows_1_0_1_2 (C : ℝ) :
    get_error rows_1_0_1_2 C complexity.c = some (error_spec rows_1_0_1_2 C complexity.c)
      ∧ 0 < error_spec rows_1_0_1_2 C complexity.c := by
  refine ⟨get_error_eq _ C _ (in_domain_of_pos _ _ (by decide) (by simp [rows_1_0_1_2]))
    (by simp [rows_1_0_1_2]), ?_⟩
  unfold error_spec rows_1_0_1_2
  apply Real.sqrt_pos.mpr
  simp only [List.map_cons, List.map_nil, List.sum_cons, List.sum_nil, List.length_cons,
    List.length_nil, growth]
  have : 0 < (C * 1 - 0) ^ 2 + ((C * 1 - 2) ^ 2 + 0) := by nlinarith [sq_nonneg (C - 1)]
  positivity

/-- Witness of `get_const_terminates_of_pos` on the dataset `{(1,0),(1,2)}` with the constant
candidate: the error `sqrt(C^2 + (C-2)^2)/2` is positive at every constant. -/
theorem get_const_terminates_of_pos_witness :
    (∀ C, ∃ e, get_error rows_1_0_1_2 C complexity.c = some e ∧ 0 < e)
      ∧ ∃ m : ℝ, 0 < m ∧ (∃ Cs, get_error rows_1_0_1_2 Cs complexity.c = some m)
        ∧ (∀ C e, get_error rows_1_0_1_2 C complexity.c = some e → m ≤ e)
        ∧ ∃ fuel C, ∀ k, get_const (fuel + k) rows_1_0_1_2 complexity.c = Outcome.ret C :=
  ⟨fun C => ⟨_, get_error_rows_1_0_1_2 C⟩,
    get_const_terminates_of_pos rows_1_0_1_2 complexity.c (by simp [rows_1_0_1_2])
      (fun C => ⟨_, get_error_rows_1_0_1_2 C⟩)⟩

/-! ### The initial search interval and the minimising constant -/

/-- C13 (as stated) fails on the dataset `{(3,100),(4,0)}` with the constant candidate: the
sizes are above 2 and increasing and the runtimes are `>= 0`, the error
`sqrt((C-100)^2 + C^2)/2` is least at `C = 50`, but the last runtime is 0, so the initial
search interval is `[0, 0]`. -/
theorem minimiser_rows_3_100_4_0 :
    (∀ d ∈ rows_3_100_4_0, 2 < d.1 ∧ 0 ≤ d.2)
      ∧ (0 : ℝ) ≤ 50
      ∧ (∀ C' : ℝ, ∃ e e', get_error rows_3_100_4_0 50 complexity.c = some e
          ∧ get_error rows_3_100_4_0 C' complexity.c = some e' ∧ e ≤ e')
      ∧ (init_vars ((4 : ℝ), (0 : ℝ))).lowerC = 0
      ∧ (init_vars ((4 : ℝ), (0 : ℝ))).upperC = 0
      ∧ ¬ ((50 : ℝ) ≤ (init_vars ((4 : ℝ), (0 : ℝ))).upperC) := by
  have hup : (init_vars ((4 : ℝ), (0 : ℝ))).upperC = 0 := by
    unfold init_vars
    simp
  refine ⟨?_, by norm_num, ?_, rfl, hup, ?_⟩
  · intro d hd
    simp only [rows_3_100_4_0, List.mem_cons, List.mem_singleton, List.not_mem_nil,
      or_false] at hd
    rcases hd with rfl | rfl <;> norm_num
  · intro C'
    have hdom : in_domain rows_3_100_4_0 complexity.c :=
      in_domain_of_pos _ _ (by decide) (by simp [rows_3_100_4_0])
    refine ⟨_, _, get_error_eq _ 50 _ hdom (by simp [rows_3_100_4_0]),
      get_error_eq _ C' _ hdom (by simp [rows_3_100_4_0]), ?_⟩
    unfold error_spec rows_3_100_4_0
    apply Real.sqrt_le_sqrt
    simp only [List.map_cons, List.map_nil, List.sum_cons, List.sum_nil, List.length_cons,
      List.length_nil, growth]
    apply div_le_div_of_nonneg_right _ (by positivity)
    nlinarith [sq_nonneg (C' - 50)]
  · rw [hup]
    norm_num

/-- Past the initial upper bound the sum of the squared residuals only grows, when the
sizes are above 2 and no runtime exceeds the last one. -/
theorem residuals_lt_past_upper (data : Dataset) (comp : complexity) (hne : data ≠ [])
    (hc : comp ∈ candidates) (hsize : ∀ d ∈ data, 2 < d.1) (hrun : ∀ d ∈ data, 0 ≤ d.2)
    (hmax : ∀ d ∈ data, d.2 ≤ (data.getLast hne).2) (C : ℝ)
    (hC : (init_vars (data.getLast hne)).upperC < C) :
    (data.map fun d => ((init_vars (data.getLast hne)).upperC * growth comp d.1 - d.2) ^ 2).sum
      < (data.map fun d => (C * growth comp d.1 - d.2) ^ 2).sum := by
  have hU : (init_vars (data.getLast hne)).upperC
      = 2 * ((Int.ceil (data.getLast hne).2 : ℤ) : ℝ) := rfl
  have hceil : (data.getLast hne).2 ≤ ((Int.ceil (data.getLast hne).2 : ℤ) : ℝ) :=
    Int.le_ceil _
  have hlast0 : 0 ≤ (data.getLast hne).2 := hrun _ (List.getLast_mem hne)
  have hterm : ∀ d ∈ data,
      ((init_vars (data.getLast hne)).upperC * growth comp d.1 - d.2) ^ 2
        < (C * growth comp d.1 - d.2) ^ 2 := by
    intro d hd
    have hg := growth_gt_half comp hc d.1 (hsize d hd)
    have ht := hmax d hd
    have h1 : 0 ≤ (init_vars (data.getLast hne)).upperC * growth comp d.1 - d.2 := by
      rw [hU]
      nlinarith
    have h2 : (init_vars (data.getLast hne)).upperC * growth comp d.1 - d.2
        < C * growth comp d.1 - d.2 := by
      nlinarith
    exact pow_lt_pow_left₀ h2 h1 (by norm_num)
  obtain ⟨d0, hd0⟩ := List.exists_mem_of_ne_nil data hne
  exact List.sum_lt_sum _ _ (fun d hd => (hterm d hd).le) ⟨d0, hd0, hterm d0 hd0⟩

/-- C13 (amended): for a non-empty dataset of at most 46340 rows with all sizes above 2, all
runtimes `>= 0` and no runtime larger than the last one, and for every candidate, a constant
`C >= 0` at which `get_error` is least among the constants `>= 0` lies in the initial search
interval `[0, 2*ceil(t_last)]`. -/
theorem minimiser_in_initial_interval (data : Dataset) (comp : complexity) (hne : data ≠ [])
    (hlen : data.length ≤ 46340) (hc : comp ∈ candidates) (hsize : ∀ d ∈ data, 2 < d.1)
    (hrun : ∀ d ∈ data, 0 ≤ d.2) (hmax : ∀ d ∈ data, d.2 ≤ (data.getLast hne).2)
    (C : ℝ) (hC : 0 ≤ C)
    (hmin : ∀ C' : ℝ, 0 ≤ C' → ∃ e e', get_error data C comp = some e
      ∧ get_error data C' comp = some e' ∧ e ≤ e') :
    (init_vars (data.getLast hne)).lowerC ≤ C
      ∧ C ≤ (init_vars (data.getLast hne)).upperC := by
  refine ⟨hC, ?_⟩
  by_contra hlt
  have hlt2 : (init_vars (data.getLast hne)).upperC < C := lt_of_not_le hlt
  have hU0 : 0 ≤ (init_vars (data.getLast hne)).upperC := by
    have h1 : (0 : ℤ) ≤ Int.ceil (data.getLast hne).2 :=
      Int.ceil_nonneg (hrun _ (List.getLast_mem hne))
    have h2 : (0 : ℝ) ≤ ((Int.ceil (data.getLast hne).2 : ℤ) : ℝ) := by exact_mod_cast h1
    show (0 : ℝ) ≤ 2 * ((Int.ceil (data.getLast hne).2 : ℤ) : ℝ)
    linarith
  have hdom : in_domain data comp := by
    refine in_domain_of_pos data comp ?_ (fun d hd => by linarith [hsize d hd])
    rintro rfl
    simp [candidates] at hc
  obtain ⟨e, e', he, he', hle⟩ := hmin _ hU0
  rw [get_error_eq data _ comp hdom hlen] at he he'
  have hlen0 : (0 : ℝ) < (data.length : ℝ) ^ 2 := by
    have : 0 < data.length := List.length_pos.mpr hne
    positivity
  have hsum := residuals_lt_past_upper data comp hne hc hsize hrun hmax C hlt2
  have hlt3 : error_spec data (init_vars (data.getLast hne)).upperC comp
      < error_spec data C comp := by
    unfold error_spec
    apply Real.sqrt_lt_sqrt (div_nonneg (sum_map_sq_nonneg data _) hlen0.le)
    exact div_lt_div_of_pos_right hsum hlen0
  rw [← Option.some.inj he, ← Option.some.inj he'] at hle
  linarith

/-- Witness of `minimiser_in_initial_interval` on the dataset `{(3,6)}` with the linear
candidate: the error `|3C - 6|` is least at `C = 2`, which lies in `[0, 12]`. -/
theorem minimiser_in_initial_interval_witness :
    (∀ C' : ℝ, 0 ≤ C' → ∃ e e', get_error row_3_6 2 complexity.n = some e
        ∧ get_error row_3_6 C' complexity.n = some e' ∧ e ≤ e')
      ∧ (init_vars ((3 : ℝ), (6 : ℝ))).lowerC ≤ 2
      ∧ (2 : ℝ) ≤ (init_vars ((3 : ℝ), (6 : ℝ))).upperC :=
  have hmin : ∀ C' : ℝ, 0 ≤ C' → ∃ e e', get_error row_3_6 2 complexity.n = some e
      ∧ get_error row_3_6 C' complexity.n = some e' ∧ e ≤ e' := fun C' _ =>
    ⟨_, _, get_error_single 3 6 2 complexity.n (in_domain_of_pos _ _ (by decide) (by simp)),
      get_error_single 3 6 C' complexity.n (in_domain_of_pos _ _ (by decide) (by simp)),
      by simp only [growth]; norm_num⟩
  ⟨hmin,
    minimiser_in_initial_interval row_3_6 complexity.n (by simp [row_3_6]) (by simp [row_3_6])
      (by simp [candidates]) (by simp [row_3_6]; norm_num) (by simp [row_3_6])
      (by simp [row_3_6]) 2 (by norm_num) hmin⟩

namespace Ieee

/-! ### The order of the doubles -/

set_option exponentiation.threshold 4096 in
theorem scale_pos : 0 < scale := by
  unfold scale
  exact Nat.two_pow_pos 1074

set_option exponentiation.threshold 4096 in
theorem scale_lt_huge : scale < huge := by
  unfold scale huge
  exact Nat.pow_lt_pow_right (by omega : 1 < 2) (by omega : 1074 < 2098)

set_option exponentiation.threshold 4096 in
theorem huge_pos : 0 < huge := by
  unfold huge
  exact Nat.two_pow_pos 2098

theorem dlt_nan_right (x : Dbl) : dlt x Dbl.nan = false := by
  cases x <;> rfl

theorem dlt_trans (x y z : Dbl) (h1 : dlt x y = true) (h2 : dlt y z = true) :
    dlt x z = true := by
  cases x <;> cases y <;> cases z <;> simp_all [dlt]
  omega

theorem is_neg_eq (z : ℤ) : is_neg z = decide (z < 0) := by
  cases z with
  | ofNat k => simp [is_neg]
  | negSucc k => simp [is_neg, Int.negSucc_lt_zero]

theorem is_neg_cast (k : ℕ) : is_neg (k : ℤ) = false := rfl

theorem is_err_nan : is_err Dbl.nan := Or.inl rfl

theorem is_err_pinf : is_err Dbl.pinf := Or.inr (Or.inl rfl)

theorem is_err_ne_sentinel (x : Dbl) (h : is_err x) : deq x (of_int (-1)) = false := by
  rcases h with rfl | rfl | ⟨k, _, rfl⟩
  · rfl
  · rfl
  · simp only [deq, of_int, decide_eq_false_iff_not]
    have h2 : (0 : ℤ) < (scale : ℤ) := by exact_mod_cast scale_pos
    have h1 : (0 : ℤ) ≤ (k : ℤ) := Int.ofNat_nonneg k
    intro h
    rw [h] at h1
    linarith

theorem deq_sentinel : deq (of_int (-1)) (of_int (-1)) = true := by
  simp [deq, of_int]

/-- On error values that are not NaN, `<` is the order of the ranks. -/
theorem dlt_iff_rank (x y : Dbl) (hx : is_err x) (hy : is_err y) (hxn : x ≠ Dbl.nan)
    (hyn : y ≠ Dbl.nan) : dlt x y = true ↔ err_rank x < err_rank y := by
  rcases hx with rfl | rfl | ⟨k, hk, rfl⟩
  · exact absurd rfl hxn
  · rcases hy with rfl | rfl | ⟨l, hl, rfl⟩
    · exact absurd rfl hyn
    · simp [dlt, err_rank]
    · simp only [dlt, err_rank, Int.natAbs_ofNat]
      constructor
      · intro h
        cases h
      · intro h
        omega
  · rcases hy with rfl | rfl | ⟨l, hl, rfl⟩
    · exact absurd rfl hyn
    · simp only [dlt, err_rank, Int.natAbs_ofNat, true_iff]
      exact hk
    · simp only [dlt, err_rank, Int.natAbs_ofNat, decide_eq_true_eq]
      exact Int.ofNat_lt

/-- On error values that are not NaN, `<=` is the order of the ranks. -/
theorem dle_iff_rank (x y : Dbl) (hx : is_err x) (hy : is_err y) (hxn : x ≠ Dbl.nan)
    (hyn : y ≠ Dbl.nan) : dle x y = true ↔ err_rank x ≤ err_rank y := by
  unfold dle
  rw [Bool.or_eq_true, dlt_iff_rank x y hx hy hxn hyn]
  rcases hx with rfl | rfl | ⟨k, hk, rfl⟩
  · exact absurd rfl hxn
  · rcases hy with rfl | rfl | ⟨l, hl, rfl⟩
    · exact absurd rfl hyn
    · simp [deq, err_rank]
    · simp only [deq, err_rank, Int.natAbs_ofNat]
      constructor
      · rintro (h | h)
        · omega
        · cases h
      · intro h
        omega
  · rcases hy with rfl | rfl | ⟨l, hl, rfl⟩
    · exact absurd rfl hyn
    · simp only [deq, err_rank, Int.natAbs_ofNat]
      constructor
      · intro _
        omega
      · intro _
        left
        exact hk
    · simp only [deq, err_rank, Int.natAbs_ofNat, decide_eq_true_eq, Nat.cast_inj]
      omega

theorem dlt_ne_nan (x y : Dbl) (h : dlt x y = true) : x ≠ Dbl.nan ∧ y ≠ Dbl.nan := by
  constructor
  · rintro rfl
    simp [dlt] at h
  · rintro rfl
    rw [dlt_nan_right] at h
    cases h

theorem err_rank_le (x : Dbl) (h : is_err x) : err_rank x ≤ huge := by
  rcases h with rfl | rfl | ⟨k, hk, rfl⟩
  · simp [err_rank]
  · simp [err_rank]
  · simp only [err_rank, Int.natAbs_ofNat]
    omega

/-! ### Rounding -/

theorem log2_step_inv (q lo s : ℕ) (h : 2 ^ lo ≤ q) : 2 ^ log2_step q lo s ≤ q := by
  unfold log2_step
  cases hb : Nat.ble (2 ^ (lo + s)) q with
  | true => exact Nat.le_of_ble_eq_true hb
  | false => exact h

theorem log2_nat_le (q : ℕ) (h : 1 ≤ q) : 2 ^ log2_nat q ≤ q := by
  unfold log2_nat
  repeat apply log2_step_inv
  simpa using h

theorem round_to_ge (a d : ℕ) : a / d ≤ round_to a d := by
  unfold round_to
  cases Nat.ble (2 * (a % d) + 1) d <;> cases Nat.ble (d + 1) (2 * (a % d)) <;> simp

theorem round_to_exact (k d : ℕ) (hd : 0 < d) : round_to (k * d) d = k := by
  unfold round_to
  have h1 : k * d % d = 0 := Nat.mul_mod_left k d
  have h2 : k * d / d = k := Nat.mul_div_cancel k hd
  rw [h1, h2]
  have h3 : Nat.ble (2 * 0 + 1) d = true := Nat.ble_eq_true_of_le (by omega)
  rw [h3]
  rfl

theorem log2_nat_scale : log2_nat scale = 1074 := by decide!

theorem ulp_exp_scale : ulp_exp 1074 = 1022 := rfl

/-- A quotient `x / x` of finite non-zero doubles is exactly 1. -/
theorem round_nat_self (n : ℕ) (hn : 0 < n) : round_nat (n * scale) n = scale := by
  unfold round_nat
  have hq : n * scale / n = scale := Nat.mul_div_cancel_left scale hn
  rw [hq, log2_nat_scale, ulp_exp_scale]
  have e : n * scale = 2 ^ 52 * (n * 2 ^ 1022) := by
    have : scale = 2 ^ 52 * 2 ^ 1022 := by
      unfold scale
      rw [← pow_add]
    rw [this]
    ring
  rw [e, round_to_exact _ _ (Nat.mul_pos hn (Nat.two_pow_pos 1022))]
  unfold scale
  rw [← pow_add]

theorem round_nat_zero : round_nat 0 1 = 0 := by decide!

/-- Rounding an integer that is at least a power of two gives at least that power. -/
theorem round_nat_ge (a j : ℕ) (h : 2 ^ j ≤ a) : 2 ^ j ≤ round_nat a 1 := by
  unfold round_nat
  rw [Nat.div_one, one_mul]
  have ha : 1 ≤ a := le_trans (Nat.one_le_two_pow) h
  have hl := log2_nat_le a ha
  set g := ulp_exp (log2_nat a) with hg
  have hge : 2 ^ g ≤ a := by
    refine le_trans (Nat.pow_le_pow_right (by norm_num) ?_) hl
    rw [hg]
    unfold ulp_exp
    omega
  have hk := round_to_ge a (2 ^ g)
  have hgpos : 0 < 2 ^ g := Nat.two_pow_pos g
  rcases Nat.lt_or_ge j g with hjg | hjg
  · have h1 : 1 ≤ a / 2 ^ g := (Nat.one_le_div_iff hgpos).mpr hge
    calc 2 ^ j ≤ 2 ^ g := Nat.pow_le_pow_right (by norm_num) hjg.le
      _ = 1 * 2 ^ g := (one_mul _).symm
      _ ≤ round_to a (2 ^ g) * 2 ^ g := Nat.mul_le_mul_right _ (le_trans h1 hk)
  · have h2 : 2 ^ (j - g) ≤ a / 2 ^ g := by
      rw [Nat.le_div_iff_mul_le hgpos, ← pow_add]
      have : j - g + g = j := Nat.sub_add_cancel hjg
      rw [this]
      exact h
    calc 2 ^ j = 2 ^ (j - g) * 2 ^ g := by
          rw [← pow_add, Nat.sub_add_cancel hjg]
      _ ≤ round_to a (2 ^ g) * 2 ^ g := Nat.mul_le_mul_right _ (le_trans h2 hk)

/-- A rounded value is an infinity or a finite double in range, of the given sign. -/
theorem rnd_cases (neg : Bool) (a b : ℕ) :
    rnd neg a b = (bif neg then Dbl.ninf else Dbl.pinf)
      ∨ ∃ k : ℕ, k < huge ∧ rnd neg a b = Dbl.fin (bif neg then -(k : ℤ) else (k : ℤ)) := by
  by_cases hb : Nat.ble huge (round_nat a b) = true
  · left
    rw [rnd, hb, cond_true]
  · right
    have hb2 : Nat.ble huge (round_nat a b) = false := Bool.eq_false_iff.mpr hb
    refine ⟨round_nat a b, ?_, ?_⟩
    · by_contra hge
      exact hb (Nat.ble_eq_true_of_le (Nat.le_of_not_lt hge))
    · rw [rnd, hb2, cond_false]

theorem rnd_pos_cases (a b : ℕ) :
    rnd false a b = Dbl.pinf ∨ ∃ k : ℕ, k < huge ∧ rnd false a b = Dbl.fin (k : ℤ) :=
  rnd_cases false a b

theorem rnd_neg_cases (a b : ℕ) :
    rnd true a b = Dbl.ninf ∨ ∃ k : ℕ, k < huge ∧ rnd true a b = Dbl.fin (-(k : ℤ)) :=
  rnd_cases true a b

theorem rnd_z_valid (z : ℤ) (b : ℕ) (n : ℤ) (h : rnd_z z b = Dbl.fin n) : n.natAbs < huge := by
  unfold rnd_z at h
  rcases rnd_cases (is_neg z) z.natAbs b with h1 | ⟨k, hk, h1⟩
  · rw [h1] at h
    cases hz : is_neg z <;> rw [hz] at h <;> cases h
  · rw [h1] at h
    injection h with h
    rw [← h]
    cases hz : is_neg z
    · simpa using hk
    · simpa using hk

/-- A sum is a NaN, an infinity, or a finite double in range. -/
theorem dadd_valid (x y : Dbl) (n : ℤ) (h : dadd x y = Dbl.fin n) : n.natAbs < huge := by
  cases x <;> cases y
  all_goals first
    | exact rnd_z_valid _ _ n h
    | cases h

theorem isqrt_bits_lt (n i r : ℕ) : isqrt_bits n i r < r + 2 ^ i := by
  induction i generalizing r with
  | zero => simp [isqrt_bits]
  | succ i ih =>
    unfold isqrt_bits
    cases Nat.ble ((r + 2 ^ i) * (r + 2 ^ i)) n with
    | true =>
      have := ih (r + 2 ^ i)
      simp only [cond_true]
      rw [pow_succ]
      omega
    | false =>
      have := ih r
      simp only [cond_false]
      rw [pow_succ]
      omega

theorem sqrt_to_le (N k g : ℕ) : sqrt_to N k g ≤ (k + 1) * 2 ^ g := by
  unfold sqrt_to
  cases hg : Nat.beq g 0 with
  | true =>
    simp only [cond_true]
    have h1 : 1 ≤ 2 ^ g := Nat.one_le_two_pow
    cases Nat.ble (k * k + k + 1) N with
    | true => simp only [cond_true]; nlinarith
    | false => simp only [cond_false]; nlinarith
  | false =>
    simp only [cond_false]
    apply Nat.mul_le_mul_right
    cases Nat.ble ((2 * k + 1) ^ 2 * 4 ^ (g - 1) + 1) N <;>
      cases Nat.ble (N + 1) ((2 * k + 1) ^ 2 * 4 ^ (g - 1)) <;> simp
    have := Nat.mod_lt k (by norm_num : 0 < 2)
    omega

set_option exponentiation.threshold 4096 in
/-- The square root of a finite double is a finite double. -/
theorem sqrt_nat_lt (n : ℕ) (hn : n < huge) : sqrt_nat (n * scale) < huge := by
  unfold sqrt_nat
  set N := n * scale with hN
  set g := (log2_nat N + 2) / 2 - 53 with hg
  have hk : isqrt_bits (N / 4 ^ g) 53 0 < 0 + 2 ^ 53 := isqrt_bits_lt _ 53 0
  have hle := sqrt_to_le N (isqrt_bits (N / 4 ^ g) 53 0) g
  have hgb : g ≤ 1533 := by
    rcases Nat.eq_zero_or_pos N with h0 | hpos
    · have : log2_nat N = 0 := by rw [h0]; decide!
      rw [hg, this]
      norm_num
    · have hl := log2_nat_le N hpos
      have hNlt : N < 2 ^ 3172 := by
        have : (2 : ℕ) ^ 3172 = huge * scale := by
          unfold huge scale
          rw [← pow_add]
        rw [this, hN]
        exact Nat.mul_lt_mul_of_pos_right hn scale_pos
      have h3 : log2_nat N < 3172 := by
        by_contra hc
        have := Nat.pow_le_pow_right (by norm_num : 0 < 2) (Nat.le_of_not_lt hc)
        omega
      omega
  have h53 : isqrt_bits (N / 4 ^ g) 53 0 + 1 ≤ 2 ^ 53 := by omega
  calc sqrt_to N (isqrt_bits (N / 4 ^ g) 53 0) g
      ≤ (isqrt_bits (N / 4 ^ g) 53 0 + 1) * 2 ^ g := hle
    _ ≤ 2 ^ 53 * 2 ^ g := Nat.mul_le_mul_right _ h53
    _ = 2 ^ (53 + g) := by rw [← pow_add]
    _ < huge := by
        unfold huge
        exact Nat.pow_lt_pow_right (by omega) (by omega)

/-! ### The values of `get_error` -/

theorem dsqrt_is_err (x : Dbl) (hx : ∀ n, x = Dbl.fin n → n.natAbs < huge) :
    is_err (dsqrt x) := by
  cases x with
  | fin n =>
    cases hneg : is_neg n with
    | true =>
      have e : dsqrt (Dbl.fin n) = Dbl.nan := by
        simp only [dsqrt, hneg, cond_true]
      rw [e]
      exact is_err_nan
    | false =>
      have e : dsqrt (Dbl.fin n) = Dbl.fin ((sqrt_nat (n.natAbs * scale) : ℕ) : ℤ) := by
        simp only [dsqrt, hneg, cond_false]
      rw [e]
      exact Or.inr (Or.inr ⟨_, sqrt_nat_lt n.natAbs (hx n rfl), rfl⟩)
  | pinf => exact is_err_pinf
  | ninf => exact is_err_nan
  | nan => exact is_err_nan

theorem loss_loop_valid (nn : Dbl) (data : Dataset) (test : List Dbl) (loss : Dbl)
    (h : ∀ n, loss = Dbl.fin n → n.natAbs < huge) :
    ∀ n, loss_loop nn data test loss = Dbl.fin n → n.natAbs < huge := by
  induction data generalizing test loss with
  | nil =>
    intro n hn
    unfold loss_loop at hn
    exact h n hn
  | cons d ds ih =>
    cases test with
    | nil =>
      intro n hn
      unfold loss_loop at hn
      exact h n hn
    | cons t ts =>
      intro n hn
      unfold loss_loop at hn
      exact ih ts _ (fun m hm => dadd_valid _ _ m hm) n hn

theorem of_int_zero : of_int 0 = Dbl.fin 0 := by
  simp [of_int]

/-- The value of `get_error`: it returns a NaN, `+infinity`, or a finite double that is not
negative. -/
theorem get_error_is_err (env : Env) (data : Dataset) (C : Dbl) (comp : complexity) :
    is_err (get_error env data C comp) := by
  unfold get_error get_quadratic_loss
  apply dsqrt_is_err
  apply loss_loop_valid
  intro n hn
  rw [of_int_zero] at hn
  injection hn with hn
  rw [← hn]
  exact huge_pos

/-! ### The grid loop of a round -/

theorem grid_step_cases (E : Dbl → Dbl) (lo up : Dbl) (acc : Dbl × Dbl) (i : ℕ) :
    (grid_step E lo up acc i = acc
        ∧ dlt (E (grid_point lo up i)) acc.2 = false ∧ deq acc.2 (of_int (-1)) = false)
      ∨ (grid_step E lo up acc i = (grid_point lo up i, E (grid_point lo up i))
          ∧ (dlt (E (grid_point lo up i)) acc.2 = true ∨ deq acc.2 (of_int (-1)) = true)) := by
  unfold grid_step
  cases h1 : dlt (E (grid_point lo up i)) acc.2 <;> cases h2 : deq acc.2 (of_int (-1)) <;>
    simp

theorem ieee_grid_loop_cases (E : Dbl → Dbl) (lo up : Dbl) (is : List ℕ) (acc : Dbl × Dbl) :
    grid_loop E lo up is acc = acc
      ∨ ∃ i ∈ is, grid_loop E lo up is acc = (grid_point lo up i, E (grid_point lo up i)) := by
  induction is generalizing acc with
  | nil => left; rfl
  | cons i is ih =>
    unfold grid_loop
    rcases ih (grid_step E lo up acc i) with h | ⟨j, hj, h⟩
    · rw [h]
      rcases grid_step_cases E lo up acc i with ⟨h1, _⟩ | ⟨h1, _⟩
      · left; exact h1
      · right; exact ⟨i, List.mem_cons_self _ _, h1⟩
    · right
      exact ⟨j, List.mem_cons_of_mem _ hj, h⟩

/-- From a `besterr` that is not the sentinel, the `for` loop ends with the same `besterr`
and `best`, or with a smaller `besterr`. -/
theorem grid_loop_le (E : Dbl → Dbl) (hE : ∀ C, is_err (E C)) (lo up : Dbl) (is : List ℕ)
    (acc : Dbl × Dbl) (hacc : deq acc.2 (of_int (-1)) = false) :
    grid_loop E lo up is acc = acc ∨ dlt (grid_loop E lo up is acc).2 acc.2 = true := by
  induction is generalizing acc with
  | nil => left; rfl
  | cons i is ih =>
    unfold grid_loop
    rcases grid_step_cases E lo up acc i with ⟨h1, _, _⟩ | ⟨h1, h2⟩
    · rw [h1]
      exact ih acc hacc
    · rw [hacc] at h2
      have h3 : dlt (E (grid_point lo up i)) acc.2 = true := by
        rcases h2 with h2 | h2
        · exact h2
        · cases h2
      rw [h1]
      right
      rcases ih (grid_point lo up i, E (grid_point lo up i))
          (is_err_ne_sentinel _ (hE _)) with h4 | h4
      · rw [h4]
        exact h3
      · exact dlt_trans _ _ _ h4 h3

/-- The first pass of the `for` loop replaces the sentinel by the first grid point. -/
theorem grid_loop_sentinel (E : Dbl → Dbl) (lo up : Dbl) (i : ℕ) (is : List ℕ)
    (acc : Dbl × Dbl) (hacc : acc.2 = of_int (-1)) :
    grid_loop E lo up (i :: is) acc
      = grid_loop E lo up is (grid_point lo up i, E (grid_point lo up i)) := by
  have h : grid_step E lo up acc i = (grid_point lo up i, E (grid_point lo up i)) := by
    unfold grid_step
    rw [hacc, deq_sentinel, Bool.or_true, cond_true]
  rw [grid_loop, h]

theorem grid_indices_cons : grid_indices = 1 :: (List.range 31).tail.tail := by
  rw [grid_indices_eq]
  decide

/-- Every `besterr` that the `for` loop leaves is an error value, once the sentinel is
gone. -/
theorem grid_loop_is_err (E : Dbl → Dbl) (hE : ∀ C, is_err (E C)) (lo up : Dbl) (is : List ℕ)
    (acc : Dbl × Dbl) (hacc : is_err acc.2) : is_err (grid_loop E lo up is acc).2 := by
  rcases ieee_grid_loop_cases E lo up is acc with h | ⟨i, _, h⟩
  · rw [h]
    exact hacc
  · rw [h]
    exact hE _

/-! ### The loop test -/

theorem threshold_eq : threshold = Dbl.fin ((round_nat scale 100000 : ℕ) : ℤ) := by decide!

theorem threshold_lt_one : round_nat scale 100000 < scale := by decide!

theorem rnd_of_lt (neg : Bool) (a b : ℕ) (h : round_nat a b < huge) :
    rnd neg a b
      = Dbl.fin (bif neg then -((round_nat a b : ℕ) : ℤ) else ((round_nat a b : ℕ) : ℤ)) := by
  have hb : Nat.ble huge (round_nat a b) = false := by
    apply Bool.eq_false_iff.mpr
    intro hc
    have := Nat.le_of_ble_eq_true hc
    omega
  rw [rnd, hb, cond_false]

theorem of_int_one : of_int 1 = Dbl.fin (scale : ℤ) := by
  simp [of_int]

theorem of_int_neg_one : of_int (-1) = Dbl.fin (-(scale : ℤ)) := by
  simp [of_int]

theorem not_above_zero : dlt threshold (Dbl.fin 0) = false := by
  rw [threshold_eq]
  simp [dlt]

theorem not_above_nan : dlt threshold Dbl.nan = false := dlt_nan_right _

theorem above_pinf : dlt threshold Dbl.pinf = true := by
  rw [threshold_eq]
  rfl

theorem above_of_ge_one (n : ℕ) (h : scale ≤ n) : dlt threshold (Dbl.fin (n : ℤ)) = true := by
  rw [threshold_eq]
  simp only [dlt, decide_eq_true_eq, Nat.cast_lt]
  have := threshold_lt_one
  omega

/-- When a round brings no improvement, `deltaerror` is 0 or a NaN, and the loop test
fails. -/
theorem stall_exit (b : Dbl) (hb : is_err b) :
    dlt threshold (dsub (of_int 1) (ddiv b b)) = false := by
  rcases hb with rfl | rfl | ⟨k, hk, rfl⟩
  · decide!
  · decide!
  · rcases Nat.eq_zero_or_pos k with rfl | hpos
    · decide!
    · have hne : ((k : ℕ) : ℤ) ≠ 0 := by exact_mod_cast hpos.ne'
      have h1 : ddiv (Dbl.fin (k : ℤ)) (Dbl.fin (k : ℤ)) = Dbl.fin (scale : ℤ) := by
        simp only [ddiv, hne, if_false, is_neg_cast, Bool.xor_false, Int.natAbs_ofNat]
        rw [rnd_of_lt _ _ _ (by rw [round_nat_self k hpos]; exact scale_lt_huge),
          round_nat_self k hpos]
        rfl
      rw [h1, of_int_one]
      have h2 : dsub (Dbl.fin (scale : ℤ)) (Dbl.fin (scale : ℤ)) = Dbl.fin 0 := by
        simp only [dsub, dneg, dadd, add_neg_cancel]
        unfold rnd_z
        rw [show is_neg 0 = false from rfl, show (0 : ℤ).natAbs = 0 from rfl,
          rnd_of_lt _ _ _ (by rw [round_nat_zero]; exact huge_pos), round_nat_zero]
        rfl
      rw [h2]
      exact not_above_zero

/-- After the first round `deltaerror` is at least 1, unless `besterr` is a NaN. -/
theorem first_delta_above (b : Dbl) (hb : is_err b) (hn : b ≠ Dbl.nan) :
    dlt threshold (dsub (of_int 1) (ddiv b (of_int (-1)))) = true := by
  rcases hb with rfl | rfl | ⟨k, hk, rfl⟩
  · exact absurd rfl hn
  · decide!
  · have hsc : (-(scale : ℤ)) ≠ 0 := by
      have := scale_pos
      omega
    have hneg : is_neg (-(scale : ℤ)) = true := by
      rw [is_neg_eq]
      have := scale_pos
      simp only [decide_eq_true_eq]
      omega
    rw [of_int_neg_one, of_int_one]
    have h1 : ddiv (Dbl.fin (k : ℤ)) (Dbl.fin (-(scale : ℤ)))
        = rnd true (k * scale) scale := by
      simp only [ddiv, hsc, if_false, is_neg_cast, hneg, Bool.false_xor, Int.natAbs_ofNat,
        Int.natAbs_neg]
    rw [h1]
    rcases rnd_neg_cases (k * scale) scale with h2 | ⟨r, hr, h2⟩
    · rw [h2]
      exact above_pinf
    · rw [h2]
      have h3 : dsub (Dbl.fin (scale : ℤ)) (Dbl.fin (-(r : ℤ)))
          = rnd false (scale + r) 1 := by
        simp only [dsub, dneg, dadd, neg_neg]
        unfold rnd_z
        have e : ((scale : ℤ) + (r : ℤ)) = ((scale + r : ℕ) : ℤ) := by push_cast; rfl
        rw [e, is_neg_cast, Int.natAbs_ofNat]
      rw [h3]
      rcases rnd_pos_cases (scale + r) 1 with h4 | ⟨m, hm, h4⟩
      · rw [h4]
        exact above_pinf
      · have hlt : round_nat (scale + r) 1 < huge := by
          by_contra hc
          have hb : Nat.ble huge (round_nat (scale + r) 1) = true :=
            Nat.ble_eq_true_of_le (Nat.le_of_not_lt hc)
          rw [rnd, hb, cond_true] at h4
          cases h4
        rw [rnd_of_lt _ _ _ hlt]
        apply above_of_ge_one
        have hs : (2 : ℕ) ^ 1074 = scale := by
          unfold scale
          rfl
        have := round_nat_ge (scale + r) 1074 (by rw [hs]; exact Nat.le_add_right _ _)
        rw [hs] at this
        exact this

/-! ### The `while` loop -/

theorem ieee_while_loop_stop (E : Dbl → Dbl) (fuel : ℕ) (s : Vars)
    (h : dlt threshold s.deltaerror = false) : while_loop E fuel s = Outcome.ret s.best := by
  cases fuel <;> simp [while_loop, h]

theorem ieee_while_loop_round (E : Dbl → Dbl) (fuel : ℕ) (s : Vars)
    (h : dlt threshold s.deltaerror = true) :
    while_loop E (fuel + 1) s = while_loop E fuel (round E s) := by
  simp [while_loop, h]

theorem while_loop_zero (E : Dbl → Dbl) (s : Vars) (h : dlt threshold s.deltaerror = true) :
    while_loop E 0 s = Outcome.out_of_fuel := by
  simp [while_loop, h]

theorem ieee_while_loop_mono (E : Dbl → Dbl) (fuel k : ℕ) (s : Vars) (C : Dbl)
    (h : while_loop E fuel s = Outcome.ret C) : while_loop E (fuel + k) s = Outcome.ret C := by
  induction fuel generalizing s with
  | zero =>
    cases ht : dlt threshold s.deltaerror with
    | true =>
      rw [while_loop_zero E s ht] at h
      cases h
    | false =>
      rw [ieee_while_loop_stop E _ s ht] at h ⊢
      exact h
  | succ fuel ih =>
    cases ht : dlt threshold s.deltaerror with
    | true =>
      rw [ieee_while_loop_round E fuel s ht] at h
      have e : fuel + 1 + k = (fuel + k) + 1 := by omega
      rw [e, ieee_while_loop_round E (fuel + k) s ht]
      exact ih _ h
    | false =>
      rw [ieee_while_loop_stop E _ s ht] at h ⊢
      exact h

theorem round_besterr (E : Dbl → Dbl) (s : Vars) :
    (round E s).besterr = (grid_loop E s.lowerC s.upperC grid_indices (s.best, s.besterr)).2 :=
  rfl

theorem ieee_round_best (E : Dbl → Dbl) (s : Vars) :
    (round E s).best = (grid_loop E s.lowerC s.upperC grid_indices (s.best, s.besterr)).1 :=
  rfl

theorem round_deltaerror (E : Dbl → Dbl) (s : Vars) :
    (round E s).deltaerror = dsub (of_int 1) (ddiv (round E s).besterr s.besterr) := rfl

/-- A round leaves `besterr` as it was, or lowers it. -/
theorem round_le (E : Dbl → Dbl) (hE : ∀ C, is_err (E C)) (s : Vars) (hs : is_err s.besterr) :
    ((round E s).besterr = s.besterr ∧ (round E s).best = s.best)
      ∨ (dlt (round E s).besterr s.besterr = true ∧ is_err (round E s).besterr) := by
  rw [round_besterr, ieee_round_best]
  rcases grid_loop_le E hE s.lowerC s.upperC grid_indices (s.best, s.besterr)
      (is_err_ne_sentinel _ hs) with h | h
  · left
    rw [h]
    exact ⟨rfl, rfl⟩
  · right
    exact ⟨h, grid_loop_is_err E hE _ _ _ _ hs⟩

/-- The first round replaces the sentinel by the error at the first grid point, which later
passes of the `for` loop can only lower. -/
theorem round_first (E : Dbl → Dbl) (hE : ∀ C, is_err (E C)) (s : Vars)
    (hs : s.besterr = of_int (-1)) :
    is_err (round E s).besterr
      ∧ (((round E s).besterr = E (grid_point s.lowerC s.upperC 1)
            ∧ (round E s).best = grid_point s.lowerC s.upperC 1)
          ∨ dlt (round E s).besterr (E (grid_point s.lowerC s.upperC 1)) = true) := by
  rw [round_besterr, ieee_round_best, grid_indices_cons,
    grid_loop_sentinel E _ _ 1 _ (s.best, s.besterr) hs]
  refine ⟨grid_loop_is_err E hE _ _ _ _ (hE _), ?_⟩
  rcases grid_loop_le E hE s.lowerC s.upperC (List.range 31).tail.tail
      (grid_point s.lowerC s.upperC 1, E (grid_point s.lowerC s.upperC 1))
      (is_err_ne_sentinel _ (hE _)) with h | h
  · left
    rw [h]
    exact ⟨rfl, rfl⟩
  · right
    exact h

/-- Once `besterr` is an error value, the loop returns within as many further rounds as
there are doubles below `besterr`, plus one. -/
theorem while_loop_returns (E : Dbl → Dbl) (hE : ∀ C, is_err (E C)) (m : ℕ) (s : Vars)
    (hs : is_err s.besterr) (hm : err_rank s.besterr ≤ m) :
    ∃ C, while_loop E (m + 1) s = Outcome.ret C := by
  induction m generalizing s with
  | zero =>
    cases ht : dlt threshold s.deltaerror with
    | false => exact ⟨_, ieee_while_loop_stop E _ s ht⟩
    | true =>
      rw [ieee_while_loop_round E 0 s ht]
      rcases round_le E hE s hs with ⟨h1, _⟩ | ⟨h1, h2⟩
      · refine ⟨_, ieee_while_loop_stop E _ _ ?_⟩
        rw [round_deltaerror, h1]
        exact stall_exit _ hs
      · have hn := dlt_ne_nan _ _ h1
        have := (dlt_iff_rank _ _ h2 hs hn.1 hn.2).mp h1
        omega
  | succ m ih =>
    cases ht : dlt threshold s.deltaerror with
    | false => exact ⟨_, ieee_while_loop_stop E _ s ht⟩
    | true =>
      rw [ieee_while_loop_round E (m + 1) s ht]
      rcases round_le E hE s hs with ⟨h1, _⟩ | ⟨h1, h2⟩
      · refine ⟨_, ieee_while_loop_stop E _ _ ?_⟩
        rw [round_deltaerror, h1]
        exact stall_exit _ hs
      · have hn := dlt_ne_nan _ _ h1
        have := (dlt_iff_rank _ _ h2 hs hn.1 hn.2).mp h1
        exact ih _ h2 (by omega)

/-- The loop of `get_const` returns within `2^2098 + 2` rounds, whatever the error
function. -/
theorem ieee_while_loop_terminates (E : Dbl → Dbl) (hE : ∀ C, is_err (E C)) (s : Vars)
    (hs : s.besterr = of_int (-1)) : ∃ C, while_loop E (huge + 2) s = Outcome.ret C := by
  cases ht : dlt threshold s.deltaerror with
  | false => exact ⟨_, ieee_while_loop_stop E _ s ht⟩
  | true =>
    rw [ieee_while_loop_round E (huge + 1) s ht]
    have h1 := (round_first E hE s hs).1
    exact while_loop_returns E hE huge _ h1 (err_rank_le _ h1)

theorem get_const_returns (env : Env) (data : Dataset) (comp : complexity) :
    ∃ C, get_const env (huge + 2) data comp = Outcome.ret C :=
  ieee_while_loop_terminates _ (fun C => get_error_is_err env data C comp) _ rfl

theorem ieee_get_const_mono (env : Env) (fuel k : ℕ) (data : Dataset) (comp : complexity) (C : Dbl)
    (h : get_const env fuel data comp = Outcome.ret C) :
    get_const env (fuel + k) data comp = Outcome.ret C :=
  ieee_while_loop_mono _ fuel k _ C h

/-! ### The ranking loop of `main` -/

theorem dle_of_not_dlt (x y : Dbl) (hx : is_err x) (hy : is_err y) (hxn : x ≠ Dbl.nan)
    (hyn : y ≠ Dbl.nan) (h : dlt x y = false) : dle y x = true := by
  rw [dle_iff_rank y x hy hx hyn hxn]
  have h2 : ¬ err_rank x < err_rank y := by
    rw [← dlt_iff_rank x y hx hy hxn hyn, h]
    simp
  omega

theorem dlt_of_dlt_of_dle (x y z : Dbl) (hx : is_err x) (hy : is_err y) (hz : is_err z)
    (hzn : z ≠ Dbl.nan) (h1 : dlt x y = true) (h2 : dle y z = true) : dlt x z = true := by
  have hn := dlt_ne_nan x y h1
  rw [dlt_iff_rank x z hx hz hn.1 hzn]
  have a := (dlt_iff_rank x y hx hy hn.1 hn.2).mp h1
  have b := (dle_iff_rank y z hy hz hn.2 hzn).mp h2
  omega

theorem dle_of_dlt (x y : Dbl) (h : dlt x y = true) : dle x y = true := by
  unfold dle
  rw [h]
  rfl

theorem dle_self (x : Dbl) (hx : is_err x) (hxn : x ≠ Dbl.nan) : dle x x = true := by
  rw [dle_iff_rank x x hx hx hxn hxn]

theorem rank_cons (env : Env) (fuel : ℕ) (data : Dataset) (i : complexity)
    (is : List complexity) (acc : Dbl × String) (C : Dbl)
    (hC : get_const env fuel data i = Outcome.ret C) :
    main_loop env fuel data (i :: is) acc
      = main_loop env fuel data is
          (bif dlt (get_error env data C i) acc.1 || deq acc.1 (of_int (-1)) then
            (get_error env data C i, get_string i)
          else acc) := by
  simp only [main_loop, hC]

/-- Once `best` is a NaN, no later candidate replaces the output. -/
theorem rank_nan (env : Env) (fuel : ℕ) (data : Dataset) (Cs : complexity → Dbl)
    (l : List complexity) (out : String)
    (hC : ∀ i ∈ l, get_const env fuel data i = Outcome.ret (Cs i)) :
    main_loop env fuel data l (Dbl.nan, out) = Outcome.ret out := by
  induction l with
  | nil => rfl
  | cons i is ih =>
    rw [rank_cons env fuel data i is _ (Cs i) (hC i (List.mem_cons_self _ _))]
    have h : (dlt (get_error env data (Cs i) i) (Dbl.nan, out).1
        || deq (Dbl.nan, out).1 (of_int (-1))) = false := by
      simp only [dlt_nan_right]
      rfl
    rw [h, cond_false]
    exact ih (fun k hk => hC k (List.mem_cons_of_mem _ hk))

/-- The ranking loop started from a pair whose error is an error value other than NaN: it
keeps the pair when no candidate has a smaller error, and otherwise ends on the first
candidate of least error, NaN errors apart. -/
theorem rank_from (env : Env) (fuel : ℕ) (data : Dataset) (Cs : complexity → Dbl)
    (l : List complexity) (acc : Dbl × String)
    (hC : ∀ i ∈ l, get_const env fuel data i = Outcome.ret (Cs i))
    (hacc : is_err acc.1) (hnan : acc.1 ≠ Dbl.nan) :
    (main_loop env fuel data l acc = Outcome.ret acc.2
        ∧ ∀ i ∈ l, get_error env data (Cs i) i = Dbl.nan
            ∨ dle acc.1 (get_error env data (Cs i) i) = true)
      ∨ ∃ l1 j l2, l = l1 ++ j :: l2
          ∧ main_loop env fuel data l acc = Outcome.ret (get_string j)
          ∧ dlt (get_error env data (Cs j) j) acc.1 = true
          ∧ (∀ i ∈ l1, get_error env data (Cs i) i = Dbl.nan
              ∨ dlt (get_error env data (Cs j) j) (get_error env data (Cs i) i) = true)
          ∧ (∀ i ∈ l2, get_error env data (Cs i) i = Dbl.nan
              ∨ dle (get_error env data (Cs j) j) (get_error env data (Cs i) i) = true) := by
  induction l generalizing acc with
  | nil =>
    left
    exact ⟨rfl, fun i hi => absurd hi (List.not_mem_nil i)⟩
  | cons i is ih =>
    have hCi := hC i (List.mem_cons_self _ _)
    have hC2 : ∀ k ∈ is, get_const env fuel data k = Outcome.ret (Cs k) :=
      fun k hk => hC k (List.mem_cons_of_mem _ hk)
    have hEi : is_err (get_error env data (Cs i) i) := get_error_is_err env data (Cs i) i
    rw [rank_cons env fuel data i is acc (Cs i) hCi, is_err_ne_sentinel _ hacc, Bool.or_false]
    cases hlt : dlt (get_error env data (Cs i) i) acc.1 with
    | true =>
      rw [cond_true]
      right
      have hn := dlt_ne_nan _ _ hlt
      rcases ih (get_error env data (Cs i) i, get_string i) hC2 hEi hn.1 with
        ⟨h1, h2⟩ | ⟨l1, j, l2, h1, h2, h3, h4, h5⟩
      · exact ⟨[], i, is, rfl, h1, hlt, fun k hk => absurd hk (List.not_mem_nil k), h2⟩
      · refine ⟨i :: l1, j, l2, by rw [h1]; rfl, h2, dlt_trans _ _ _ h3 hlt, ?_, h5⟩
        intro k hk
        rcases List.mem_cons.mp hk with rfl | hk
        · exact Or.inr h3
        · exact h4 k hk
    | false =>
      rw [cond_false]
      rcases ih acc hC2 hacc hnan with ⟨h1, h2⟩ | ⟨l1, j, l2, h1, h2, h3, h4, h5⟩
      · left
        refine ⟨h1, ?_⟩
        intro k hk
        rcases List.mem_cons.mp hk with rfl | hk
        · by_cases hk : get_error env data (Cs k) k = Dbl.nan
          · exact Or.inl hk
          · exact Or.inr (dle_of_not_dlt _ _ hEi hacc hk hnan hlt)
        · exact h2 k hk
      · right
        refine ⟨i :: l1, j, l2, by rw [h1]; rfl, h2, h3, ?_, h5⟩
        intro k hk
        rcases List.mem_cons.mp hk with rfl | hk
        · by_cases hk : get_error env data (Cs k) k = Dbl.nan
          · exact Or.inl hk
          · exact Or.inr (dlt_of_dlt_of_dle _ _ _ (get_error_is_err env data (Cs j) j) hacc
              hEi hk h3 (dle_of_not_dlt _ _ hEi hacc hk hnan hlt))
        · exact h4 k hk

/-- The ranking loop of `main` over the eight candidates, when `get_const` returns for each:
if the achieved error of the first candidate is a NaN the output is the first label;
otherwise the loop ends on the first candidate of least error, NaN errors apart. -/
theorem rank_candidates (env : Env) (fuel : ℕ) (rows : List (ℤ × ℤ))
    (Cs : complexity → Dbl)
    (hC : ∀ i ∈ candidates, get_const env fuel (read_data rows) i = Outcome.ret (Cs i)) :
    ∃ j ∈ candidates, main env fuel rows = Outcome.ret (get_string j)
      ∧ (get_error env (read_data rows) (Cs complexity.c) complexity.c = Dbl.nan
          → j = complexity.c)
      ∧ (get_error env (read_data rows) (Cs complexity.c) complexity.c ≠ Dbl.nan
          → get_error env (read_data rows) (Cs j) j ≠ Dbl.nan
            ∧ (∀ i ∈ candidates, get_error env (read_data rows) (Cs i) i = Dbl.nan
                ∨ dle (get_error env (read_data rows) (Cs j) j)
                    (get_error env (read_data rows) (Cs i) i) = true)
            ∧ (∀ i ∈ candidates, enum_value i < enum_value j →
                get_error env (read_data rows) (Cs i) i = Dbl.nan
                ∨ dlt (get_error env (read_data rows) (Cs j) j)
                    (get_error env (read_data rows) (Cs i) i) = true)) := by
  have hcand : candidates = complexity.c :: candidates.tail := rfl
  have hC2 : ∀ k ∈ candidates.tail, get_const env fuel (read_data rows) k
      = Outcome.ret (Cs k) := fun k hk => hC k (by rw [hcand]; exact List.mem_cons_of_mem _ hk)
  have hm : main env fuel rows = main_loop env fuel (read_data rows) candidates.tail
      (get_error env (read_data rows) (Cs complexity.c) complexity.c,
        get_string complexity.c) := by
    unfold main
    rw [hcand, rank_cons env fuel _ complexity.c _ _ (Cs complexity.c)
      (hC _ (by simp [candidates]))]
    simp only [deq_sentinel, Bool.or_true, cond_true]
    rfl
  have hE := get_error_is_err env (read_data rows) (Cs complexity.c) complexity.c
  by_cases hn : get_error env (read_data rows) (Cs complexity.c) complexity.c = Dbl.nan
  · refine ⟨complexity.c, by simp [candidates], ?_, fun _ => rfl, fun h => absurd hn h⟩
    rw [hm, hn]
    exact rank_nan env fuel _ Cs _ _ hC2
  · rcases rank_from env fuel (read_data rows) Cs candidates.tail
        (get_error env (read_data rows) (Cs complexity.c) complexity.c,
          get_string complexity.c) hC2 hE hn with
      ⟨h1, h2⟩ | ⟨l1, j, l2, h1, h2, h3, h4, h5⟩
    · refine ⟨complexity.c, by simp [candidates], by rw [hm]; exact h1,
        fun _ => rfl, fun _ => ⟨hn, ?_, ?_⟩⟩
      · intro i hi
        rw [hcand] at hi
        rcases List.mem_cons.mp hi with rfl | hi
        · exact Or.inr (dle_self _ hE hn)
        · exact h2 i hi
      · intro i _ hlt
        simp [enum_value] at hlt
    · have hj : j ∈ candidates := by
        rw [hcand, h1]
        exact List.mem_cons_of_mem _ (List.mem_append_right _ (List.mem_cons_self _ _))
      have hsplit : candidates = (complexity.c :: l1) ++ j :: l2 := by
        rw [hcand, h1]
        rfl
      have hjn := (dlt_ne_nan _ _ h3).1
      refine ⟨j, hj, by rw [hm]; exact h2, fun h => absurd h hn, fun _ => ⟨hjn, ?_, ?_⟩⟩
      · intro i hi
        rw [hcand] at hi
        rcases List.mem_cons.mp hi with rfl | hi
        · exact Or.inr (dle_of_dlt _ _ h3)
        · rw [h1] at hi
          rcases List.mem_append.mp hi with h | h
          · rcases h4 i h with h | h
            · exact Or.inl h
            · exact Or.inr (dle_of_dlt _ _ h)
          · rcases List.mem_cons.mp h with rfl | h
            · exact Or.inr (dle_self _ (get_error_is_err _ _ _ _) hjn)
            · exact h5 i h
      · intro i hi hlt
        have := candidates_split_before (complexity.c :: l1) l2 j i hsplit hi hlt
        rcases List.mem_cons.mp this with rfl | h
        · exact Or.inr h3
        · exact h4 i h

/-- The constants that `get_const` returns: for every dataset there is one for each
candidate, reached within `2^2098 + 2` rounds and unchanged by more fuel. -/
theorem get_const_total (env : Env) (data : Dataset) :
    ∃ Cs : complexity → Dbl, ∀ (i : complexity) (k : ℕ),
      get_const env (huge + 2 + k) data i = Outcome.ret (Cs i) := by
  refine ⟨fun i => (get_const_returns env data i).choose, fun i k => ?_⟩
  exact ieee_get_const_mono env _ k data i _ (get_const_returns env data i).choose_spec

/-! ### Runs that do not depend on the C library -/

theorem dlog_env (env env2 : Env) (z : ℤ) (h : z ≤ 1) :
    dlog env (of_int z) = dlog env2 (of_int z) := by
  have hs : (0 : ℤ) < (scale : ℤ) := by exact_mod_cast scale_pos
  rcases lt_trichotomy z 0 with h0 | h0 | h0
  · have hn : is_neg (z * (scale : ℤ)) = true := by
      rw [is_neg_eq, decide_eq_true_eq]
      exact mul_neg_of_neg_of_pos h0 hs
    simp only [dlog, of_int, hn, cond_true]
  · subst h0
    simp only [dlog, of_int, zero_mul]
    rfl
  · have h1 : z = 1 := by omega
    subst h1
    have hn : is_neg (1 * (scale : ℤ)) = false := by
      rw [is_neg_eq, decide_eq_false_iff_not]
      omega
    have hne : ¬ (1 * (scale : ℤ) = 0) := by omega
    simp only [dlog, of_int, hn, cond_false, hne, if_false, one_mul, if_true]

theorem dexp2_env (env env2 : Env) (z : ℤ) :
    dexp2 env (of_int z) = dexp2 env2 (of_int z) := by
  have h : z * (scale : ℤ) % (scale : ℤ) = 0 := Int.mul_emod_left _ _
  simp only [dexp2, of_int, h, if_true]

theorem predicted_env (env env2 : Env) (comp : complexity) (C : Dbl) (z : ℤ)
    (hc : comp ≠ .last) (hl : uses_log comp → z ≤ 1) :
    predicted env comp C (of_int z) = predicted env2 comp C (of_int z) := by
  cases comp with
  | c => rfl
  | n => rfl
  | n2 => rfl
  | n3 => rfl
  | last => exact absurd rfl hc
  | expo =>
    simp only [predicted]
    rw [dexp2_env env env2]
  | logn =>
    simp only [predicted]
    rw [dlog_env env env2 z (hl (Or.inl rfl))]
  | nlogn =>
    simp only [predicted]
    rw [dlog_env env env2 z (hl (Or.inr (Or.inl rfl)))]
  | n2logn =>
    simp only [predicted]
    rw [dlog_env env env2 z (hl (Or.inr (Or.inr rfl)))]

theorem fill_test_env (env env2 : Env) (rows : List (ℤ × ℤ)) (comp : complexity) (C : Dbl)
    (hc : comp ≠ .last) (hl : uses_log comp → ∀ r ∈ rows, r.1 ≤ 1) :
    fill_test env comp C (read_data rows) = fill_test env2 comp C (read_data rows) := by
  induction rows with
  | nil => rfl
  | cons r rs ih =>
    have e : read_data (r :: rs) = (of_int r.1, of_int r.2) :: read_data rs := rfl
    rw [e, fill_test, fill_test,
      ih (fun h k hk => hl h k (List.mem_cons_of_mem _ hk)),
      predicted_env env env2 comp C r.1 hc (fun h => hl h r (List.mem_cons_self _ _))]

/-- On integer sizes, the error of a candidate that asks nothing of the environment is the
same in every environment. -/
theorem get_error_env (env env2 : Env) (rows : List (ℤ × ℤ)) (comp : complexity) (C : Dbl)
    (h : libm_free rows comp) :
    get_error env (read_data rows) C comp = get_error env2 (read_data rows) C comp := by
  unfold get_error
  rw [fill_test_env env env2 rows comp C h.1 h.2]

theorem last_runtime_env (env env2 : Env) (data : Dataset) (h : data ≠ []) :
    last_runtime env data = last_runtime env2 data := by
  unfold last_runtime
  cases hl : data.getLast? with
  | some row => rfl
  | none => exact absurd (List.getLast?_eq_none_iff.mp hl) h

theorem read_data_ne_nil (rows : List (ℤ × ℤ)) (h : rows ≠ []) : read_data rows ≠ [] := by
  cases rows with
  | nil => exact absurd rfl h
  | cons r rs => simp [read_data]

/-- On a non-empty dataset of integer sizes, the run of `get_const` for a candidate that asks
nothing of the environment is the same in every environment. -/
theorem get_const_env (env env2 : Env) (fuel : ℕ) (rows : List (ℤ × ℤ)) (comp : complexity)
    (hne : rows ≠ []) (h : libm_free rows comp) :
    get_const env fuel (read_data rows) comp = get_const env2 fuel (read_data rows) comp := by
  unfold get_const init_vars
  rw [last_runtime_env env env2 _ (read_data_ne_nil rows hne)]
  have hE : (fun C => get_error env (read_data rows) C comp)
      = fun C => get_error env2 (read_data rows) C comp :=
    funext fun C => get_error_env env env2 rows comp C h
  rw [hE]

theorem libm_free_of_sizes (rows : List (ℤ × ℤ)) (comp : complexity) (hc : comp ∈ candidates)
    (h : ∀ r ∈ rows, r.1 ≤ 1) : libm_free rows comp := by
  refine ⟨?_, fun _ => h⟩
  rintro rfl
  simp [candidates] at hc

theorem main_loop_env (env env2 : Env) (fuel : ℕ) (rows : List (ℤ × ℤ))
    (l : List complexity) (acc : Dbl × String) (hne : rows ≠ [])
    (h : ∀ i ∈ l, libm_free rows i) :
    main_loop env fuel (read_data rows) l acc = main_loop env2 fuel (read_data rows) l acc := by
  induction l generalizing acc with
  | nil => rfl
  | cons i is ih =>
    have hi := h i (List.mem_cons_self _ _)
    simp only [main_loop]
    rw [get_const_env env env2 fuel rows i hne hi]
    cases get_const env2 fuel (read_data rows) i with
    | ret C =>
      simp only
      rw [get_error_env env env2 rows i C hi]
      exact ih _ (fun k hk => h k (List.mem_cons_of_mem _ hk))
    | out_of_range => rfl
    | not_real => rfl
    | out_of_fuel => rfl

/-- On a non-empty dataset whose sizes are integers not above 1, the run of `main` is the
same in every environment. -/
theorem main_env (env env2 : Env) (fuel : ℕ) (rows : List (ℤ × ℤ)) (hne : rows ≠ [])
    (h : ∀ r ∈ rows, r.1 ≤ 1) : main env fuel rows = main env2 fuel rows :=
  main_loop_env env env2 fuel rows candidates _ hne
    (fun i hi => libm_free_of_sizes rows i hi h)

/-! ### The state of the search between rounds -/

theorem dle_trans (x y z : Dbl) (hx : is_err x) (hy : is_err y) (hz : is_err z)
    (hxn : x ≠ Dbl.nan) (hyn : y ≠ Dbl.nan) (hzn : z ≠ Dbl.nan)
    (h1 : dle x y = true) (h2 : dle y z = true) : dle x z = true := by
  rw [dle_iff_rank x z hx hz hxn hzn]
  have a := (dle_iff_rank x y hx hy hxn hyn).mp h1
  have b := (dle_iff_rank y z hy hz hyn hzn).mp h2
  omega

theorem vars_after_succ (E : Dbl → Dbl) (k : ℕ) (s : Vars)
    (h : dlt threshold s.deltaerror = true) :
    vars_after E (k + 1) s = vars_after E k (round E s) := by
  simp [vars_after, h]

theorem vars_after_none (E : Dbl → Dbl) (k : ℕ) (s : Vars)
    (h : dlt threshold s.deltaerror = false) : vars_after E (k + 1) s = none := by
  simp [vars_after, h]

/-- The `for` loop keeps `besterr` the error of `best`. -/
theorem grid_loop_pair (E : Dbl → Dbl) (lo up : Dbl) (is : List ℕ) (acc : Dbl × Dbl)
    (h : acc.2 = E acc.1) :
    (grid_loop E lo up is acc).2 = E (grid_loop E lo up is acc).1 := by
  rcases ieee_grid_loop_cases E lo up is acc with h1 | ⟨i, _, h1⟩
  · rw [h1]
    exact h
  · rw [h1]

/-- A round leaves `besterr` the error of `best`, if it was so or was the sentinel. -/
theorem round_pair (E : Dbl → Dbl) (s : Vars)
    (h : s.besterr = of_int (-1) ∨ s.besterr = E s.best) :
    (round E s).besterr = E (round E s).best := by
  rw [round_besterr, ieee_round_best]
  rcases h with h | h
  · rw [grid_indices_cons, grid_loop_sentinel E _ _ 1 _ (s.best, s.besterr) h]
    exact grid_loop_pair E _ _ _ _ rfl
  · exact grid_loop_pair E _ _ _ _ h

/-- From the second round on, `besterr` is the error of `best`, an error value. -/
theorem vars_after_pair (E : Dbl → Dbl) (hE : ∀ C, is_err (E C)) (k : ℕ) (s0 s : Vars)
    (h0 : s0.besterr = of_int (-1) ∨ s0.besterr = E s0.best)
    (h : vars_after E (k + 1) s0 = some s) : s.besterr = E s.best ∧ is_err s.besterr := by
  induction k generalizing s0 with
  | zero =>
    cases ht : dlt threshold s0.deltaerror with
    | false =>
      rw [vars_after_none E 0 s0 ht] at h
      cases h
    | true =>
      rw [vars_after_succ E 0 s0 ht] at h
      simp only [vars_after, Option.some.injEq] at h
      rw [← h]
      have e := round_pair E s0 h0
      exact ⟨e, by rw [e]; exact hE _⟩
  | succ k ih =>
    cases ht : dlt threshold s0.deltaerror with
    | false =>
      rw [vars_after_none E (k + 1) s0 ht] at h
      cases h
    | true =>
      rw [vars_after_succ E (k + 1) s0 ht] at h
      exact ih (round E s0) (Or.inr (round_pair E s0 h0)) h

/-- The state after `k + 1` rounds is one round after the state after `k` rounds, which
passed the loop test. -/
theorem vars_after_last (E : Dbl → Dbl) (k : ℕ) (s0 s : Vars)
    (h : vars_after E (k + 1) s0 = some s) :
    ∃ s1, vars_after E k s0 = some s1 ∧ dlt threshold s1.deltaerror = true
      ∧ s = round E s1 := by
  induction k generalizing s0 with
  | zero =>
    cases ht : dlt threshold s0.deltaerror with
    | false =>
      rw [vars_after_none E 0 s0 ht] at h
      cases h
    | true =>
      rw [vars_after_succ E 0 s0 ht] at h
      simp only [vars_after, Option.some.injEq] at h
      exact ⟨s0, rfl, ht, h.symm⟩
  | succ k ih =>
    cases ht : dlt threshold s0.deltaerror with
    | false =>
      rw [vars_after_none E (k + 1) s0 ht] at h
      cases h
    | true =>
      rw [vars_after_succ E (k + 1) s0 ht] at h
      obtain ⟨s1, h1, h2, h3⟩ := ih (round E s0) h
      exact ⟨s1, by rw [vars_after_succ E k s0 ht]; exact h1, h2, h3⟩

/-- A state in which the loop test holds after at least one round has a `besterr` that is
not a NaN. -/
theorem besterr_ne_nan (E : Dbl → Dbl) (k : ℕ) (s0 s : Vars)
    (h : vars_after E (k + 1) s0 = some s) (ht : dlt threshold s.deltaerror = true) :
    s.besterr ≠ Dbl.nan := by
  obtain ⟨s1, _, _, h3⟩ := vars_after_last E k s0 s h
  intro hn
  rw [h3, round_deltaerror] at ht
  rw [h3] at hn
  rw [hn] at ht
  have e : dsub (of_int 1) (ddiv Dbl.nan s1.besterr) = Dbl.nan := by
    cases s1.besterr <;> rfl
  rw [e, not_above_nan] at ht
  cases ht

/-- From a `besterr` that is an error value and not a NaN, the `for` loop ends on a
`besterr` that is not a NaN, not above the one it started from, and not above the error at
any grid point where the error is not a NaN. -/
theorem grid_loop_least_from (E : Dbl → Dbl) (hE : ∀ C, is_err (E C)) (lo up : Dbl)
    (is : List ℕ) (acc : Dbl × Dbl) (hacc : is_err acc.2) (hn : acc.2 ≠ Dbl.nan) :
    (grid_loop E lo up is acc).2 ≠ Dbl.nan
      ∧ dle (grid_loop E lo up is acc).2 acc.2 = true
      ∧ ∀ i ∈ is, E (grid_point lo up i) = Dbl.nan
          ∨ dle (grid_loop E lo up is acc).2 (E (grid_point lo up i)) = true := by
  induction is generalizing acc with
  | nil =>
    exact ⟨hn, dle_self _ hacc hn, fun i hi => absurd hi (List.not_mem_nil i)⟩
  | cons i is ih =>
    unfold grid_loop
    rcases grid_step_cases E lo up acc i with ⟨h1, h2, _⟩ | ⟨h1, h2⟩
    · rw [h1]
      obtain ⟨a, b, c⟩ := ih acc hacc hn
      refine ⟨a, b, ?_⟩
      intro j hj
      rcases List.mem_cons.mp hj with rfl | hj
      · by_cases hj : E (grid_point lo up j) = Dbl.nan
        · exact Or.inl hj
        · right
          exact dle_trans _ _ _ (grid_loop_is_err E hE _ _ _ _ hacc) hacc (hE _) a hn hj b
            (dle_of_not_dlt _ _ (hE _) hacc hj hn h2)
      · exact c j hj
    · rw [is_err_ne_sentinel _ hacc] at h2
      have h3 : dlt (E (grid_point lo up i)) acc.2 = true := by
        rcases h2 with h2 | h2
        · exact h2
        · cases h2
      have hi := (dlt_ne_nan _ _ h3).1
      rw [h1]
      obtain ⟨a, b, c⟩ := ih (grid_point lo up i, E (grid_point lo up i)) (hE _) hi
      refine ⟨a, ?_, ?_⟩
      · exact dle_trans _ _ _ (grid_loop_is_err E hE _ _ _ _ (hE _)) (hE _) hacc a hi hn b
          (dle_of_dlt _ _ h3)
      · intro j hj
        rcases List.mem_cons.mp hj with rfl | hj
        · exact Or.inr b
        · exact c j hj

/-- A round that starts from a `besterr` that is not a NaN (the sentinel, or an error value):
if the round is the first and the error at the first grid point is a NaN, it ends with
`best` the first grid point and `besterr` a NaN; otherwise it ends with a `besterr` that is
not a NaN and not above the error at any grid point where the error is not a NaN. -/
theorem ieee_round_least (E : Dbl → Dbl) (hE : ∀ C, is_err (E C)) (s : Vars)
    (h : s.besterr = of_int (-1) ∨ (is_err s.besterr ∧ s.besterr ≠ Dbl.nan)) :
    (s.besterr = of_int (-1) ∧ E (grid_point s.lowerC s.upperC 1) = Dbl.nan
        ∧ (round E s).besterr = Dbl.nan
        ∧ (round E s).best = grid_point s.lowerC s.upperC 1)
      ∨ ((round E s).besterr ≠ Dbl.nan
          ∧ ∀ i ∈ grid_indices, E (grid_point s.lowerC s.upperC i) = Dbl.nan
              ∨ dle (round E s).besterr (E (grid_point s.lowerC s.upperC i)) = true) := by
  rw [round_besterr, ieee_round_best]
  rcases h with h | ⟨h1, h2⟩
  · rw [grid_indices_cons, grid_loop_sentinel E _ _ 1 _ (s.best, s.besterr) h]
    by_cases hn : E (grid_point s.lowerC s.upperC 1) = Dbl.nan
    · left
      have e : grid_loop E s.lowerC s.upperC (List.range 31).tail.tail
          (grid_point s.lowerC s.upperC 1, E (grid_point s.lowerC s.upperC 1))
          = (grid_point s.lowerC s.upperC 1, E (grid_point s.lowerC s.upperC 1)) := by
        rcases grid_loop_le E hE s.lowerC s.upperC (List.range 31).tail.tail
            (grid_point s.lowerC s.upperC 1, E (grid_point s.lowerC s.upperC 1))
            (is_err_ne_sentinel _ (hE _)) with h3 | h3
        · exact h3
        · have := (dlt_ne_nan _ _ h3).2
          exact absurd hn this
      rw [e]
      exact ⟨h, hn, hn, rfl⟩
    · right
      obtain ⟨a, b, c⟩ := grid_loop_least_from E hE s.lowerC s.upperC
        (List.range 31).tail.tail
        (grid_point s.lowerC s.upperC 1, E (grid_point s.lowerC s.upperC 1)) (hE _) hn
      refine ⟨a, ?_⟩
      intro j hj
      rcases List.mem_cons.mp hj with rfl | hj
      · exact Or.inr b
      · exact c j hj
  · right
    obtain ⟨a, _, c⟩ := grid_loop_least_from E hE s.lowerC s.upperC grid_indices
      (s.best, s.besterr) h1 h2
    exact ⟨a, c⟩

/-- The loop runs no round without fuel. -/
theorem get_const_zero (env : Env) (data : Dataset) (comp : complexity) :
    get_const env 0 data comp = Outcome.out_of_fuel := by
  unfold get_const
  apply while_loop_zero
  show dlt threshold (of_int 1) = true
  decide!

theorem init_above (env : Env) (data : Dataset) :
    dlt threshold (init_vars env data).deltaerror = true := by
  show dlt threshold (of_int 1) = true
  decide!

/-- The first round of `get_const`: if the error at the first grid point is a NaN, the loop
ends after this round and returns the first grid point; otherwise the loop test holds again
after the round. -/
theorem first_round (E : Dbl → Dbl) (hE : ∀ C, is_err (E C)) (s : Vars)
    (hs : s.besterr = of_int (-1)) :
    (E (grid_point s.lowerC s.upperC 1) = Dbl.nan
        → dlt threshold (round E s).deltaerror = false
          ∧ (round E s).best = grid_point s.lowerC s.upperC 1)
      ∧ (E (grid_point s.lowerC s.upperC 1) ≠ Dbl.nan
        → dlt threshold (round E s).deltaerror = true) := by
  constructor
  · intro hn
    rcases ieee_round_least E hE s (Or.inl hs) with ⟨_, _, h3, h4⟩ | ⟨h3, h4⟩
    · refine ⟨?_, h4⟩
      rw [round_deltaerror, h3, hs]
      decide!
    · rcases round_first E hE s hs with ⟨_, ⟨h5, _⟩ | h5⟩
      · rw [h5] at h3
        exact absurd hn h3
      · exact absurd hn (dlt_ne_nan _ _ h5).2
  · intro hn
    have h1 := round_first E hE s hs
    have h2 : (round E s).besterr ≠ Dbl.nan := by
      rcases h1.2 with ⟨h5, _⟩ | h5
      · rw [h5]
        exact hn
      · exact (dlt_ne_nan _ _ h5).1
    rw [round_deltaerror, hs]
    exact first_delta_above _ h1.1 h2

/-! ### The sign of the error -/

theorem not_neg_ne_nan (x : Dbl) (h : not_neg x) : x ≠ Dbl.nan := by
  rcases h with rfl | ⟨k, rfl⟩
  · intro h
    cases h
  · intro h
    cases h

theorem rnd_not_neg (a b : ℕ) : not_neg (rnd false a b) := by
  rcases rnd_pos_cases a b with h | ⟨k, _, h⟩
  · exact Or.inl h
  · exact Or.inr ⟨k, h⟩

theorem rnd_z_not_neg (z : ℤ) (b : ℕ) (hz : 0 ≤ z) : not_neg (rnd_z z b) := by
  have h : is_neg z = false := by
    rw [is_neg_eq, decide_eq_false_iff_not]
    omega
  unfold rnd_z
  rw [h]
  exact rnd_not_neg _ _

theorem dsq_not_neg (x : Dbl) (h : x ≠ Dbl.nan) : not_neg (dsq x) := by
  cases x with
  | fin m => exact rnd_z_not_neg _ _ (mul_self_nonneg m)
  | pinf => exact Or.inl rfl
  | ninf => exact Or.inl rfl
  | nan => exact absurd rfl h

theorem ddiv_not_neg (x : Dbl) (hx : not_neg x) (z : ℤ) (hz : 0 < z) :
    not_neg (ddiv x (of_int z)) := by
  have hs : (0 : ℤ) < (scale : ℤ) := by exact_mod_cast scale_pos
  have hp : 0 < z * (scale : ℤ) := mul_pos hz hs
  have hn : is_neg (z * (scale : ℤ)) = false := by
    rw [is_neg_eq, decide_eq_false_iff_not]
    omega
  rcases hx with rfl | ⟨k, rfl⟩
  · left
    simp only [ddiv, of_int, hn, cond_false]
  · have e : ddiv (Dbl.fin (k : ℤ)) (of_int z)
        = rnd false ((k : ℤ).natAbs * scale) (z * (scale : ℤ)).natAbs := by
      simp only [ddiv, of_int, if_neg (ne_of_gt hp), is_neg_cast, hn, Bool.xor_false]
    rw [e]
    exact rnd_not_neg _ _

theorem dadd_not_neg (x y : Dbl) (hx : not_neg x) (hy : not_neg y) : not_neg (dadd x y) := by
  rcases hx with rfl | ⟨k, rfl⟩ <;> rcases hy with rfl | ⟨l, rfl⟩
  · exact Or.inl rfl
  · exact Or.inl rfl
  · exact Or.inl rfl
  · exact rnd_z_not_neg _ _ (by positivity)

theorem dsqrt_not_neg (x : Dbl) (hx : not_neg x) : not_neg (dsqrt x) := by
  rcases hx with rfl | ⟨k, rfl⟩
  · exact Or.inl rfl
  · right
    exact ⟨sqrt_nat ((k : ℤ).natAbs * scale), by simp only [dsqrt, is_neg_cast, cond_false]⟩

theorem loss_loop_not_neg (env : Env) (comp : complexity) (C : Dbl) (z : ℤ) (hz : 0 < z)
    (data : Dataset) (loss : Dbl) (hl : not_neg loss)
    (h : ∀ d ∈ data, dsub d.2 (predicted env comp C d.1) ≠ Dbl.nan) :
    not_neg (loss_loop (of_int z) data (fill_test env comp C data) loss) := by
  induction data generalizing loss with
  | nil => exact hl
  | cons d ds ih =>
    rw [fill_test, loss_loop]
    apply ih
    · exact dadd_not_neg _ _ hl
        (ddiv_not_neg _ (dsq_not_neg _ (h d (List.mem_cons_self _ _))) z hz)
    · exact fun e he => h e (List.mem_cons_of_mem _ he)

/-- The error is not a NaN when the `int` product `n*n` is positive and no residual
`data[i][1] - test[i][1]` is a NaN. -/
theorem get_error_not_neg (env : Env) (data : Dataset) (C : Dbl) (comp : complexity)
    (hn : 0 < wrap_int ((data.length : ℤ) * (data.length : ℤ)))
    (h : ∀ d ∈ data, dsub d.2 (predicted env comp C d.1) ≠ Dbl.nan) :
    not_neg (get_error env data C comp) := by
  unfold get_error get_quadratic_loss
  apply dsqrt_not_neg
  apply loss_loop_not_neg env comp C _ hn data _ _ h
  exact Or.inr ⟨0, of_int_zero⟩

theorem is_err_sign (x : Dbl) (h : is_err x) : x = Dbl.nan ∨ dle (of_int 0) x = true := by
  rcases h with h | rfl | ⟨k, _, rfl⟩
  · exact Or.inl h
  · right
    rw [of_int_zero]
    rfl
  · right
    rw [of_int_zero]
    simp only [dle, dlt, deq, Bool.or_eq_true, decide_eq_true_eq]
    omega

/-! ### The empty dataset -/

theorem dsqrt_zero : dsqrt (of_int 0) = of_int 0 := by decide!

theorem get_error_nil (env : Env) (C : Dbl) (comp : complexity) :
    get_error env [] C comp = of_int 0 := by
  show dsqrt (of_int 0) = of_int 0
  exact dsqrt_zero

/-- With an error that is 0 at every constant, the `for` loop leaves a pair with error 0 as
it is. -/
theorem grid_loop_zero (E : Dbl → Dbl) (hE : ∀ C, E C = of_int 0) (lo up : Dbl) (is : List ℕ)
    (acc : Dbl × Dbl) (hacc : acc.2 = of_int 0) : grid_loop E lo up is acc = acc := by
  induction is with
  | nil => rfl
  | cons i is ih =>
    have h : grid_step E lo up acc i = acc := by
      unfold grid_step
      rw [hE, hacc]
      have e : (dlt (of_int 0) (of_int 0) || deq (of_int 0) (of_int (-1))) = false := by
        decide!
      rw [e, cond_false]
    rw [grid_loop, h]
    exact ih

/-- With an error that is 0 at every constant, the loop of `get_const` runs two rounds and
returns the first grid point of the first round: the second round computes `0/0`. -/
theorem while_loop_zero_error (E : Dbl → Dbl) (hE : ∀ C, E C = of_int 0) (s : Vars)
    (hd : dlt threshold s.deltaerror = true) (hs : s.besterr = of_int (-1)) :
    while_loop E 1 s = Outcome.out_of_fuel
      ∧ while_loop E 2 s = Outcome.ret (grid_point s.lowerC s.upperC 1) := by
  have h1 : grid_loop E s.lowerC s.upperC grid_indices (s.best, s.besterr)
      = (grid_point s.lowerC s.upperC 1, of_int 0) := by
    rw [grid_indices_cons, grid_loop_sentinel E _ _ 1 _ (s.best, s.besterr) hs, hE]
    exact grid_loop_zero E hE _ _ _ _ rfl
  have hb1 : (round E s).besterr = of_int 0 := by rw [round_besterr, h1]
  have hc1 : (round E s).best = grid_point s.lowerC s.upperC 1 := by
    rw [ieee_round_best, h1]
  have hd1 : dlt threshold (round E s).deltaerror = true := by
    rw [round_deltaerror, hb1, hs]
    decide!
  have h2 : grid_loop E (round E s).lowerC (round E s).upperC grid_indices
      ((round E s).best, (round E s).besterr) = ((round E s).best, (round E s).besterr) :=
    grid_loop_zero E hE _ _ _ _ hb1
  have hb2 : (round E (round E s)).besterr = of_int 0 := by rw [round_besterr, h2, hb1]
  have hc2 : (round E (round E s)).best = grid_point s.lowerC s.upperC 1 := by
    rw [ieee_round_best, h2, hc1]
  have hd2 : dlt threshold (round E (round E s)).deltaerror = false := by
    rw [round_deltaerror, hb2, hb1]
    decide!
  constructor
  · rw [ieee_while_loop_round E 0 s hd]
    exact while_loop_zero E _ hd1
  · rw [ieee_while_loop_round E 1 s hd, ieee_while_loop_round E 0 _ hd1,
      ieee_while_loop_stop E 0 _ hd2, hc2]

theorem last_runtime_append (env : Env) (ds : Dataset) (d : Dbl × Dbl) :
    last_runtime env (ds ++ [d]) = d.2 := by
  unfold last_runtime
  rw [List.getLast?_append, List.getLast?_singleton]
  rfl

/-! ### The constant that `get_const` returns -/

theorem get_const_unique (env : Env) (f1 f2 : ℕ) (data : Dataset) (comp : complexity)
    (C1 C2 : Dbl) (h1 : get_const env f1 data comp = Outcome.ret C1)
    (h2 : get_const env f2 data comp = Outcome.ret C2) : C1 = C2 := by
  have a := ieee_get_const_mono env f1 f2 data comp C1 h1
  have b := ieee_get_const_mono env f2 f1 data comp C2 h2
  rw [Nat.add_comm] at b
  rw [a] at b
  injection b

/-! ### Runs of the program on concrete inputs, by evaluation -/

set_option maxRecDepth 100000 in
theorem eval_neg_logn : get_const env_nan 1 (read_data [(-1, 5)]) complexity.logn
    = Outcome.ret (dbl 5 (-4)) := by
  decide!

set_option maxRecDepth 100000 in
theorem eval_neg_logn_err :
    get_error env_nan (read_data [(-1, 5)]) (dbl 5 (-4)) complexity.logn = Dbl.nan := by
  decide!

set_option maxRecDepth 100000 in
theorem eval_neg_c : get_const env_nan 2 (read_data [(-1, 5)]) complexity.c
    = Outcome.ret (of_int 5) := by
  decide!

set_option maxRecDepth 100000 in
theorem eval_neg_c_err :
    get_error env_nan (read_data [(-1, 5)]) (of_int 5) complexity.c = of_int 0 := by
  decide!

set_option maxRecDepth 100000 in
theorem eval_neg_main : main env_nan 6 [(-1, 5)] = Outcome.ret "O(1)" := by
  decide!

set_option maxRecDepth 100000 in
theorem eval_250 : get_const env_nan 3 (read_data [(250, 250)]) complexity.n
    = Outcome.ret (dbl 125 (-7)) := by
  decide!

set_option maxRecDepth 100000 in
theorem eval_250_rounds : get_const env_nan 2 (read_data [(250, 250)]) complexity.n
    = Outcome.out_of_fuel := by
  decide!

set_option maxRecDepth 100000 in
theorem eval_250_err :
    get_error env_nan (read_data [(250, 250)]) (dbl 125 (-7)) complexity.n = dbl 375 (-6)
      ∧ get_error env_nan (read_data [(250, 250)]) (of_int 1) complexity.n = of_int 0
      ∧ dlt (ddiv (of_int 1) (of_int 100)) (dsub (of_int 1) (dbl 125 (-7))) = true := by
  decide!

set_option maxRecDepth 100000 in
theorem eval_cubic_n3 :
    get_const env_nan 5 (read_data [(39, 59319), (40, 64000)]) complexity.n3
      = Outcome.ret (dbl 125 (-7)) := by
  decide!

set_option maxRecDepth 100000 in
theorem eval_cubic_n2 :
    get_const env_nan 7 (read_data [(39, 59319), (40, 64000)]) complexity.n2
      = Outcome.ret (dbl 2716155262375 (-36)) := by
  decide!

set_option maxRecDepth 100000 in
theorem eval_cubic_err :
    get_error env_nan (read_data [(39, 59319), (40, 64000)]) (dbl 125 (-7)) complexity.n3
        = dbl 2248737480556049 (-41)
      ∧ get_error env_nan (read_data [(39, 59319), (40, 64000)]) (dbl 2716155262375 (-36))
          complexity.n2 = dbl 4848318691787911 (-43)
      ∧ get_error env_nan (read_data [(39, 59319), (40, 64000)]) (of_int 1) complexity.n3
          = of_int 0
      ∧ dlt (dbl 4848318691787911 (-43)) (dbl 2248737480556049 (-41)) = true := by
  decide!

set_option maxRecDepth 100000 in
theorem eval_5_50 :
    vars_after (error_of [(5, 50)] complexity.c) 1 (init_vars env_nan (read_data [(5, 50)]))
        = some vars_row_5_50
      ∧ dlt threshold vars_row_5_50.deltaerror = true
      ∧ (round (error_of [(5, 50)] complexity.c) vars_row_5_50).deltaerror = Dbl.nan
      ∧ get_const env_nan 2 (read_data [(5, 50)]) complexity.c = Outcome.ret (of_int 50) := by
  decide!

set_option maxRecDepth 100000 in
theorem eval_unimodal :
    get_error env_nan (read_data [(1, 0), (1, 2)]) (dbl 4908633431212032 (-53)) complexity.c
        = dbl 6997423819678435 (-53)
      ∧ get_error env_nan (read_data [(1, 0), (1, 2)]) (dbl 4908633431212033 (-53))
          complexity.c = dbl 6997423819678436 (-53)
      ∧ get_error env_nan (read_data [(1, 0), (1, 2)]) (of_int 1) complexity.c
          = dbl 6369051672525773 (-53) := by
  decide!

set_option maxRecDepth 100000 in
theorem eval_neg_round :
    (round (error_of [(-1, 5)] complexity.logn)
        (init_vars env_nan (read_data [(-1, 5)]))).besterr = Dbl.nan
      ∧ error_of [(-1, 5)] complexity.logn
          (grid_point (of_int 0) (dmul (of_int 2) (dceil (of_int 5))) 1) = Dbl.nan := by
  decide!

set_option maxRecDepth 100000 in
theorem eval_9_9 :
    vars_after (error_of [(9, 9)] complexity.n) 12 (init_vars env_nan (read_data [(9, 9)]))
        = some vars_row_9_9
      ∧ dlt threshold vars_row_9_9.deltaerror = true
      ∧ round (error_of [(9, 9)] complexity.n) vars_row_9_9 = vars_row_9_9_next
      ∧ 65 * width vars_row_9_9 < 1024 * width vars_row_9_9_next := by
  decide!

set_option maxRecDepth 100000 in
theorem eval_stray :
    grid_point (of_int 0) (dmul (of_int 2) (dceil (of_int 16))) 1 = of_int 1
      ∧ of_int 1 ≠ of_int 0 := by
  decide!

set_option maxRecDepth 100000 in
theorem eval_log_neg :
    get_error env_nan (read_data [(-1, 0)]) (of_int 0) complexity.logn = Dbl.nan := by
  decide!

/-! ### The run of `main` -/

theorem main_loop_fuel (env : Env) (f1 f2 : ℕ) (data : Dataset) (Cs : complexity → Dbl)
    (l : List complexity) (acc : Dbl × String)
    (h1 : ∀ i ∈ l, get_const env f1 data i = Outcome.ret (Cs i))
    (h2 : ∀ i ∈ l, get_const env f2 data i = Outcome.ret (Cs i)) :
    main_loop env f1 data l acc = main_loop env f2 data l acc := by
  induction l generalizing acc with
  | nil => rfl
  | cons i is ih =>
    rw [rank_cons env f1 data i is acc (Cs i) (h1 i (List.mem_cons_self _ _)),
      rank_cons env f2 data i is acc (Cs i) (h2 i (List.mem_cons_self _ _))]
    exact ih _ (fun k hk => h1 k (List.mem_cons_of_mem _ hk))
      (fun k hk => h2 k (List.mem_cons_of_mem _ hk))

/-- For every dataset, given `2^2098 + 2` rounds or more, `get_const` returns a constant for
each candidate and `main` prints the label of a candidate `j`: the first candidate if its
achieved error is a NaN, and otherwise the first candidate of least achieved error, NaN
errors apart. -/
theorem rank_total (env : Env) (rows : List (ℤ × ℤ)) :
    ∃ (Cs : complexity → Dbl) (j : complexity), j ∈ candidates
      ∧ (∀ (i : complexity) (k : ℕ),
          get_const env (huge + 2 + k) (read_data rows) i = Outcome.ret (Cs i))
      ∧ (∀ k : ℕ, main env (huge + 2 + k) rows = Outcome.ret (get_string j))
      ∧ (get_error env (read_data rows) (Cs complexity.c) complexity.c = Dbl.nan
          → j = complexity.c)
      ∧ (get_error env (read_data rows) (Cs complexity.c) complexity.c ≠ Dbl.nan
          → get_error env (read_data rows) (Cs j) j ≠ Dbl.nan
            ∧ (∀ i ∈ candidates, get_error env (read_data rows) (Cs i) i = Dbl.nan
                ∨ dle (get_error env (read_data rows) (Cs j) j)
                    (get_error env (read_data rows) (Cs i) i) = true)
            ∧ (∀ i ∈ candidates, enum_value i < enum_value j →
                get_error env (read_data rows) (Cs i) i = Dbl.nan
                ∨ dlt (get_error env (read_data rows) (Cs j) j)
                    (get_error env (read_data rows) (Cs i) i) = true)) := by
  obtain ⟨Cs, hCs⟩ := get_const_total env (read_data rows)
  obtain ⟨j, hj, hm, h1, h2⟩ :=
    rank_candidates env (huge + 2) rows Cs (fun i _ => hCs i 0)
  refine ⟨Cs, j, hj, hCs, ?_, h1, h2⟩
  intro k
  rw [← hm]
  exact main_loop_fuel env _ _ _ Cs candidates _ (fun i _ => hCs i k) (fun i _ => hCs i 0)

theorem get_string_inj (i j : complexity) (hi : i ∈ candidates) (hj : j ∈ candidates)
    (h : get_string i = get_string j) : i = j := by
  cases i <;> cases j <;> simp_all [candidates, get_string]

theorem labels_of_candidates (j : complexity) (hj : j ∈ candidates) :
    get_string j ∈ candidates.map get_string ∧ get_string j ≠ "" ∧ get_string j ≠ "X" := by
  cases j <;> first | exact absurd hj (by decide) | decide

theorem libm_free_not_log (rows : List (ℤ × ℤ)) (comp : complexity) (hc : comp ≠ .last)
    (h : ¬ uses_log comp) : libm_free rows comp :=
  ⟨hc, fun hl => absurd hl h⟩

theorem error_of_eq (env : Env) (rows : List (ℤ × ℤ)) (comp : complexity)
    (h : libm_free rows comp) :
    (fun C => get_error env (read_data rows) C comp) = error_of rows comp :=
  funext fun C => get_error_env env env_nan rows comp C h

theorem init_vars_env (env env2 : Env) (rows : List (ℤ × ℤ)) (h : rows ≠ []) :
    init_vars env (read_data rows) = init_vars env2 (read_data rows) := by
  unfold init_vars
  rw [last_runtime_env env env2 _ (read_data_ne_nil rows h)]

/-! ### The claims, on the program in IEEE double arithmetic -/

/-- C1 (as amended).  For every dataset that `main` reads and every behaviour of the C
library, given enough rounds, `get_const` returns a constant for each of the eight candidates
and `main` prints the label of a candidate `j` such that: if the achieved error of the first
candidate `c` is a NaN then `j = c`; otherwise the achieved error of `j` is not a NaN, it is
`<=` the achieved error of every candidate whose error is not a NaN, and `<` the achieved
error of every such candidate enumerated before `j`. -/
theorem main_selects_first_least_apart_from_nan (env : Env) (rows : List (ℤ × ℤ)) :
    ∃ (fuel : ℕ) (Cs : complexity → Dbl) (j : complexity), j ∈ candidates
      ∧ (∀ (i : complexity) (k : ℕ),
          get_const env (fuel + k) (read_data rows) i = Outcome.ret (Cs i))
      ∧ (∀ k : ℕ, main env (fuel + k) rows = Outcome.ret (get_string j))
      ∧ (get_error env (read_data rows) (Cs complexity.c) complexity.c = Dbl.nan
          → j = complexity.c)
      ∧ (get_error env (read_data rows) (Cs complexity.c) complexity.c ≠ Dbl.nan
          → get_error env (read_data rows) (Cs j) j ≠ Dbl.nan
            ∧ (∀ i ∈ candidates, get_error env (read_data rows) (Cs i) i = Dbl.nan
                ∨ dle (get_error env (read_data rows) (Cs j) j)
                    (get_error env (read_data rows) (Cs i) i) = true)
            ∧ (∀ i ∈ candidates, enum_value i < enum_value j →
                get_error env (read_data rows) (Cs i) i = Dbl.nan
                ∨ dlt (get_error env (read_data rows) (Cs j) j)
                    (get_error env (read_data rows) (Cs i) i) = true)) := by
  obtain ⟨Cs, j, h⟩ := rank_total env rows
  exact ⟨huge + 2, Cs, j, h⟩

/-- C1, counterexample: on the input `1 / -1 5`, whatever the C library, `main` prints
"O(1)", the label of the candidate `c`, whose constant is 5 with error 0, while the
logarithmic candidate has the constant 0.3125 with a NaN error (`log(-1)`): the comparison
`err_c <= err_logn` is false. -/
theorem main_row_neg_nan_error :
    get_string complexity.c = "O(1)" ∧ ∀ env : Env,
    main env 6 [(-1, 5)] = Outcome.ret (get_string complexity.c)
      ∧ get_const env 6 (read_data [(-1, 5)]) complexity.c = Outcome.ret (of_int 5)
      ∧ get_const env 6 (read_data [(-1, 5)]) complexity.logn = Outcome.ret (dbl 5 (-4))
      ∧ get_error env (read_data [(-1, 5)]) (of_int 5) complexity.c = of_int 0
      ∧ get_error env (read_data [(-1, 5)]) (dbl 5 (-4)) complexity.logn = Dbl.nan
      ∧ dle (get_error env (read_data [(-1, 5)]) (of_int 5) complexity.c)
          (get_error env (read_data [(-1, 5)]) (dbl 5 (-4)) complexity.logn) = false := by
  refine ⟨rfl, fun env => ?_⟩
  have hs : ∀ r ∈ [((-1 : ℤ), (5 : ℤ))], r.1 ≤ 1 := by decide
  have hne : [((-1 : ℤ), (5 : ℤ))] ≠ [] := by decide
  have hc := libm_free_of_sizes [(-1, 5)] complexity.c (by decide) hs
  have hl := libm_free_of_sizes [(-1, 5)] complexity.logn (by decide) hs
  have e1 : get_error env (read_data [(-1, 5)]) (of_int 5) complexity.c = of_int 0 := by
    rw [get_error_env env env_nan _ _ _ hc]
    exact eval_neg_c_err
  have e2 : get_error env (read_data [(-1, 5)]) (dbl 5 (-4)) complexity.logn = Dbl.nan := by
    rw [get_error_env env env_nan _ _ _ hl]
    exact eval_neg_logn_err
  refine ⟨?_, ?_, ?_, e1, e2, ?_⟩
  · rw [main_env env env_nan 6 _ hne hs]
    exact eval_neg_main
  · rw [get_const_env env env_nan 6 _ _ hne hc]
    exact ieee_get_const_mono env_nan 2 4 _ _ _ eval_neg_c
  · rw [get_const_env env env_nan 6 _ _ hne hl]
    exact ieee_get_const_mono env_nan 1 5 _ _ _ eval_neg_logn
  · rw [e2]
    exact Bool.or_eq_false_iff.mpr ⟨dlt_nan_right _, by rw [e1]; rfl⟩

/-- C3: on the input `1 / 250 250`, data generated exactly as `t = 1 * n`, the call of
`get_const` for the linear candidate runs three rounds and returns `0.9765625 = 125/128`,
whatever the C library: the third round finds no error below that of the second, and the
loop stops.  The error is 0 at the constant 1 and `5.859375` at the returned constant, which
is more than 1% of 1 away from 1 (`0.01 < 1 - 0.9765625`). -/
theorem get_const_row_250_stalls : ∀ env : Env,
    get_const env 2 (read_data [(250, 250)]) complexity.n = Outcome.out_of_fuel
      ∧ (∀ k : ℕ, get_const env (3 + k) (read_data [(250, 250)]) complexity.n
          = Outcome.ret (dbl 125 (-7)))
      ∧ get_error env (read_data [(250, 250)]) (of_int 1) complexity.n = of_int 0
      ∧ get_error env (read_data [(250, 250)]) (dbl 125 (-7)) complexity.n = dbl 375 (-6)
      ∧ dlt (ddiv (of_int 1) (of_int 100)) (dsub (of_int 1) (dbl 125 (-7))) = true := by
  intro env
  have hne : [((250 : ℤ), (250 : ℤ))] ≠ [] := by decide
  have hn : libm_free [(250, 250)] complexity.n :=
    libm_free_not_log _ _ (by decide) (by unfold uses_log; decide)
  refine ⟨?_, ?_, ?_, ?_, eval_250_err.2.2⟩
  · rw [get_const_env env env_nan 2 _ _ hne hn]
    exact eval_250_rounds
  · intro k
    rw [get_const_env env env_nan _ _ _ hne hn]
    exact ieee_get_const_mono env_nan 3 k _ _ _ eval_250
  · rw [get_error_env env env_nan _ _ _ hn]
    exact eval_250_err.2.1
  · rw [get_error_env env env_nan _ _ _ hn]
    exact eval_250_err.1

/-- C4: on the input `2 / 39 59319 / 40 64000`, data generated exactly as `t = 1 * n^3` (the
error of the cubic candidate at the constant 1 is 0), `main` prints a label other than
"O(n^3)", whatever the C library: the search for the cubic candidate stops after five rounds
at `0.9765625` with error `1022.6`, while the quadratic candidate reaches the error
`551.19`. -/
theorem main_cubic_rows_not_cubic : ∀ env : Env,
    get_error env (read_data [(39, 59319), (40, 64000)]) (of_int 1) complexity.n3 = of_int 0
      ∧ (∀ k : ℕ, get_const env (5 + k) (read_data [(39, 59319), (40, 64000)]) complexity.n3
          = Outcome.ret (dbl 125 (-7)))
      ∧ ∃ (fuel : ℕ) (out : String),
          (∀ k : ℕ, main env (fuel + k) [(39, 59319), (40, 64000)] = Outcome.ret out)
            ∧ out ≠ get_string complexity.n3 := by
  intro env
  have hne : [((39 : ℤ), (59319 : ℤ)), (40, 64000)] ≠ [] := by decide
  have h3 : libm_free [(39, 59319), (40, 64000)] complexity.n3 :=
    libm_free_not_log _ _ (by decide) (by unfold uses_log; decide)
  have h2 : libm_free [(39, 59319), (40, 64000)] complexity.n2 :=
    libm_free_not_log _ _ (by decide) (by unfold uses_log; decide)
  have c3 : ∀ k : ℕ, get_const env (5 + k) (read_data [(39, 59319), (40, 64000)])
      complexity.n3 = Outcome.ret (dbl 125 (-7)) := by
    intro k
    rw [get_const_env env env_nan _ _ _ hne h3]
    exact ieee_get_const_mono env_nan 5 k _ _ _ eval_cubic_n3
  have c2 : get_const env 7 (read_data [(39, 59319), (40, 64000)]) complexity.n2
      = Outcome.ret (dbl 2716155262375 (-36)) := by
    rw [get_const_env env env_nan _ _ _ hne h2]
    exact eval_cubic_n2
  refine ⟨?_, c3, ?_⟩
  · rw [get_error_env env env_nan _ _ _ h3]
    exact eval_cubic_err.2.2.1
  · obtain ⟨Cs, j, hj, hC, hm, hnan, hrank⟩ := rank_total env [(39, 59319), (40, 64000)]
    refine ⟨huge + 2, get_string j, hm, ?_⟩
    intro hlab
    have hj3 : j = complexity.n3 := get_string_inj j _ hj (by decide) hlab
    have e3 : Cs complexity.n3 = dbl 125 (-7) :=
      get_const_unique env _ _ _ _ _ _ (hC complexity.n3 0) (c3 0)
    have e2 : Cs complexity.n2 = dbl 2716155262375 (-36) :=
      get_const_unique env _ _ _ _ _ _ (hC complexity.n2 0) c2
    have v3 : get_error env (read_data [(39, 59319), (40, 64000)]) (Cs complexity.n3)
        complexity.n3 = dbl 2248737480556049 (-41) := by
      rw [e3, get_error_env env env_nan _ _ _ h3]
      exact eval_cubic_err.1
    have v2 : get_error env (read_data [(39, 59319), (40, 64000)]) (Cs complexity.n2)
        complexity.n2 = dbl 4848318691787911 (-43) := by
      rw [e2, get_error_env env env_nan _ _ _ h2]
      exact eval_cubic_err.2.1
    by_cases hc : get_error env (read_data [(39, 59319), (40, 64000)]) (Cs complexity.c)
        complexity.c = Dbl.nan
    · have := hnan hc
      rw [hj3] at this
      cases this
    · obtain ⟨_, hle, _⟩ := hrank hc
      rcases hle complexity.n2 (by decide) with h | h
      · rw [v2] at h
        cases h
      · rw [hj3, v3, v2] at h
        revert h
        decide!

/-- C7 (as amended).  For a non-empty dataset the read `data[num-1][1]` is the runtime of the
last row.  For the empty dataset it is a read before the array, of a value `stray` that the
program has not written; `get_error` is then 0 at every constant, and `get_const` runs two
rounds and returns the first grid point of the first round, `0 + (1/32)*(2*ceil(stray) - 0)`,
for every candidate. -/
theorem get_const_empty (env : Env) (comp : complexity) :
    (∀ (ds : Dataset) (d : Dbl × Dbl), last_runtime env (ds ++ [d]) = d.2)
      ∧ last_runtime env [] = env.stray
      ∧ (∀ C : Dbl, get_error env [] C comp = of_int 0)
      ∧ get_const env 1 [] comp = Outcome.out_of_fuel
      ∧ ∀ k : ℕ, get_const env (2 + k) [] comp
          = Outcome.ret (grid_point (of_int 0) (dmul (of_int 2) (dceil env.stray)) 1) := by
  have h := while_loop_zero_error (fun C => get_error env [] C comp)
    (fun C => get_error_nil env C comp) (init_vars env []) (init_above env []) rfl
  refine ⟨last_runtime_append env, rfl, fun C => get_error_nil env C comp, h.1, fun k => ?_⟩
  exact ieee_while_loop_mono _ 2 k _ _ h.2

/-- C7, counterexample: if the double before the array is 16, `get_const` on the empty
dataset returns 1, not 0. -/
theorem get_const_empty_stray_16 :
    get_const (Env.mk env_nan.log env_nan.pow2 (of_int 16)) 2 [] complexity.c
        = Outcome.ret (of_int 1)
      ∧ of_int 1 ≠ of_int 0 := by
  have h := while_loop_zero_error
    (fun C => get_error (Env.mk env_nan.log env_nan.pow2 (of_int 16)) [] C complexity.c)
    (fun C => get_error_nil _ C complexity.c)
    (init_vars (Env.mk env_nan.log env_nan.pow2 (of_int 16)) [])
    (init_above _ []) rfl
  refine ⟨?_, eval_stray.2⟩
  rw [← eval_stray.1]
  exact h.2

/-- C8 (as amended).  In a call of `get_const`, in the round that starts from the state `s`
reached after `k` rounds, the divisor `olderr` of `deltaerror = 1 - besterr/olderr` is the
value of `besterr` in `s`: the sentinel `-1` in the first round, and in every later round
the error `get_error` of the constant `best` found so far, which is a NaN or `>= 0` (zero
when `best` fits the data exactly). -/
theorem get_const_divisor (env : Env) (data : Dataset) (comp : complexity) (k : ℕ) (s : Vars)
    (h : vars_after (fun C => get_error env data C comp) k (init_vars env data) = some s) :
    (round (fun C => get_error env data C comp) s).deltaerror
        = dsub (of_int 1)
            (ddiv (round (fun C => get_error env data C comp) s).besterr s.besterr)
      ∧ (k = 0 → s.besterr = of_int (-1))
      ∧ (0 < k → s.besterr = get_error env data s.best comp
          ∧ (s.besterr = Dbl.nan ∨ dle (of_int 0) s.besterr = true)) := by
  refine ⟨rfl, ?_, ?_⟩
  · rintro rfl
    simp only [vars_after, Option.some.injEq] at h
    rw [← h]
    rfl
  · intro hk
    obtain ⟨m, rfl⟩ : ∃ m, k = m + 1 := ⟨k - 1, by omega⟩
    have := vars_after_pair _ (fun C => get_error_is_err env data C comp) m _ s
      (Or.inl rfl) h
    exact ⟨this.1, is_err_sign _ this.2⟩

/-- Witness of `get_const_divisor`: the state after round one on the dataset `{(5,50)}` with
the constant candidate. -/
theorem get_const_divisor_witness :
    (round (fun C => get_error env_nan (read_data [(5, 50)]) C complexity.c)
        vars_row_5_50).deltaerror
        = dsub (of_int 1)
            (ddiv (round (fun C => get_error env_nan (read_data [(5, 50)]) C complexity.c)
              vars_row_5_50).besterr vars_row_5_50.besterr)
      ∧ (1 = 0 → vars_row_5_50.besterr = of_int (-1))
      ∧ (0 < 1 → vars_row_5_50.besterr
            = get_error env_nan (read_data [(5, 50)]) vars_row_5_50.best complexity.c
          ∧ (vars_row_5_50.besterr = Dbl.nan
              ∨ dle (of_int 0) vars_row_5_50.besterr = true)) :=
  get_const_divisor env_nan (read_data [(5, 50)]) complexity.c 1 vars_row_5_50 eval_5_50.1

/-- C8, counterexample: on the input `1 / 5 50` with the constant candidate, whatever the C
library, the first round ends with `best = 50`, `besterr = 0` and `deltaerror = 1`, so the
loop runs a second round, whose divisor `olderr` is 0: it computes `0/0`, a NaN, which ends
the loop, and `get_const` returns 50. -/
theorem get_const_row_5_50_zero_divisor :
    dlt threshold vars_row_5_50.deltaerror = true
      ∧ vars_row_5_50.besterr = of_int 0
      ∧ ∀ env : Env,
    vars_after (fun C => get_error env (read_data [(5, 50)]) C complexity.c) 1
        (init_vars env (read_data [(5, 50)])) = some vars_row_5_50
      ∧ ddiv (round (fun C => get_error env (read_data [(5, 50)]) C complexity.c)
          vars_row_5_50).besterr vars_row_5_50.besterr = Dbl.nan
      ∧ get_const env 2 (read_data [(5, 50)]) complexity.c = Outcome.ret (of_int 50) := by
  refine ⟨eval_5_50.2.1, rfl, fun env => ?_⟩
  have hne : [((5 : ℤ), (50 : ℤ))] ≠ [] := by decide
  have hc : libm_free [(5, 50)] complexity.c :=
    libm_free_not_log _ _ (by decide) (by unfold uses_log; decide)
  rw [error_of_eq env _ _ hc, init_vars_env env env_nan _ hne,
    get_const_env env env_nan _ _ _ hne hc]
  refine ⟨eval_5_50.1, ?_, eval_5_50.2.2.2⟩
  decide!

/-- C9: for every dataset with exactly one observation, every candidate and every behaviour
of the C library, the loop of `get_const` ends and returns a constant; and on every input of
one row `main` prints one of the eight labels. -/
theorem single_observation_terminates (env : Env) (d : Dbl × Dbl) (row : ℤ × ℤ)
    (comp : complexity) :
    (∃ (fuel : ℕ) (C : Dbl), ∀ k : ℕ, get_const env (fuel + k) [d] comp = Outcome.ret C)
      ∧ ∃ (fuel : ℕ) (out : String), (∀ k : ℕ, main env (fuel + k) [row] = Outcome.ret out)
          ∧ out ∈ candidates.map get_string := by
  constructor
  · obtain ⟨C, hC⟩ := get_const_returns env [d] comp
    exact ⟨huge + 2, C, fun k => ieee_get_const_mono env _ k _ _ C hC⟩
  · obtain ⟨_, j, hj, _, hm, _⟩ := rank_total env [row]
    exact ⟨huge + 2, get_string j, hm, (labels_of_candidates j hj).1⟩

/-- C10 (as amended).  For every dataset, candidate and constant, `get_error` returns a NaN
or a value `>= 0` (which may be `+infinity`).  It is not a NaN when the `int` product `n*n`
is positive and no residual `data[i][1] - test[i][1]` is a NaN; on the empty dataset it
is 0. -/
theorem get_error_nan_or_nonneg (env : Env) (data : Dataset) (C : Dbl) (comp : complexity) :
    (get_error env data C comp = Dbl.nan ∨ dle (of_int 0) (get_error env data C comp) = true)
      ∧ (0 < wrap_int ((data.length : ℤ) * (data.length : ℤ)) →
          (∀ d ∈ data, dsub d.2 (predicted env comp C d.1) ≠ Dbl.nan) →
          get_error env data C comp ≠ Dbl.nan)
      ∧ get_error env [] C comp = of_int 0 :=
  ⟨is_err_sign _ (get_error_is_err env data C comp),
    fun hn h => not_neg_ne_nan _ (get_error_not_neg env data C comp hn h),
    get_error_nil env C comp⟩

/-- C10, counterexample: `get_error(1, {(-1,0)}, 0, logn)` is a NaN, whatever the C library
(`log(-1)` is a NaN), and the comparison `0 <= NaN` is false. -/
theorem get_error_log_of_negative_size :
    dle (of_int 0) Dbl.nan = false ∧ ∀ env : Env,
    get_error env (read_data [(-1, 0)]) (of_int 0) complexity.logn = Dbl.nan
      ∧ dle (of_int 0) (get_error env (read_data [(-1, 0)]) (of_int 0) complexity.logn)
          = false := by
  refine ⟨rfl, fun env => ?_⟩
  have h : get_error env (read_data [(-1, 0)]) (of_int 0) complexity.logn = Dbl.nan := by
    rw [get_error_env env env_nan [(-1, 0)] _ _
      (libm_free_of_sizes _ _ (by decide) (by decide))]
    exact eval_log_neg
  refine ⟨h, ?_⟩
  rw [h]
  rfl

/-- C11: for every dataset and every behaviour of the C library, given enough rounds, `main`
prints one of the eight labels, never the empty string and never "X"; `get_string` maps the
eight variants, in their order, to the eight labels, which are pairwise distinct. -/
theorem main_prints_a_label (env : Env) (rows : List (ℤ × ℤ)) :
    (∃ (fuel : ℕ) (out : String), (∀ k : ℕ, main env (fuel + k) rows = Outcome.ret out)
        ∧ out ∈ candidates.map get_string ∧ out ≠ "" ∧ out ≠ "X")
      ∧ candidates.map get_string
          = ["O(1)", "O(log n)", "O(n)", "O(n log n)", "O(n^2)", "O(n^2 log n)", "O(n^3)",
              "O(2^n)"]
      ∧ (candidates.map get_string).Nodup := by
  refine ⟨?_, by decide, by decide⟩
  obtain ⟨_, j, hj, _, hm, _⟩ := rank_total env rows
  exact ⟨huge + 2, get_string j, hm, labels_of_candidates j hj⟩

theorem dle_fin (x y : ℤ) : dle (Dbl.fin x) (Dbl.fin y) = true ↔ x ≤ y := by
  simp only [dle, dlt, deq, Bool.or_eq_true, decide_eq_true_eq]
  omega

theorem dle_nan_left (x : Dbl) : dle Dbl.nan x = false := by
  cases x <;> rfl

/-- C14 (as amended).  In the round of `get_const` that starts from the state `s` reached
after `k` rounds, the `for` loop goes through the 30 points
`lowerC + (i/32)*(upperC - lowerC)`, `i = 1..30`; at the end of the round `besterr` is the
value that `get_error` returned at `best`, and `best` is the old `best` or one of the 30
points.  If `besterr` is not a NaN, it is `<=` the error at each of the 30 points at which
the error is not a NaN.  It is a NaN only in the first round, when the error at the first
grid point is a NaN; `best` is then that first point. -/
theorem round_searches_grid_apart_from_nan (env : Env) (data : Dataset) (comp : complexity)
    (k : ℕ) (s : Vars)
    (h : vars_after (fun C => get_error env data C comp) k (init_vars env data) = some s)
    (ht : dlt threshold s.deltaerror = true) :
    (∀ i : ℕ, i ∈ grid_indices ↔ 1 ≤ i ∧ i ≤ 30)
      ∧ ((round (fun C => get_error env data C comp) s).best,
            (round (fun C => get_error env data C comp) s).besterr)
          = grid_loop (fun C => get_error env data C comp) s.lowerC s.upperC grid_indices
              (s.best, s.besterr)
      ∧ (round (fun C => get_error env data C comp) s).besterr
          = get_error env data (round (fun C => get_error env data C comp) s).best comp
      ∧ ((round (fun C => get_error env data C comp) s).best = s.best
          ∨ ∃ i ∈ grid_indices, (round (fun C => get_error env data C comp) s).best
              = grid_point s.lowerC s.upperC i)
      ∧ ((round (fun C => get_error env data C comp) s).besterr ≠ Dbl.nan →
          ∀ i ∈ grid_indices,
            get_error env data (grid_point s.lowerC s.upperC i) comp = Dbl.nan
              ∨ dle (round (fun C => get_error env data C comp) s).besterr
                  (get_error env data (grid_point s.lowerC s.upperC i) comp) = true)
      ∧ ((round (fun C => get_error env data C comp) s).besterr = Dbl.nan →
          k = 0 ∧ get_error env data (grid_point s.lowerC s.upperC 1) comp = Dbl.nan
            ∧ (round (fun C => get_error env data C comp) s).best
                = grid_point s.lowerC s.upperC 1) := by
  have hE : ∀ C, is_err (get_error env data C comp) := fun C => get_error_is_err env data C comp
  have hs : (k = 0 ∧ s.besterr = of_int (-1))
      ∨ (0 < k ∧ s.besterr = get_error env data s.best comp ∧ is_err s.besterr
          ∧ s.besterr ≠ Dbl.nan) := by
    cases k with
    | zero =>
      left
      simp only [vars_after, Option.some.injEq] at h
      rw [← h]
      exact ⟨rfl, rfl⟩
    | succ m =>
      right
      have hp := vars_after_pair _ hE m _ s (Or.inl rfl) h
      exact ⟨Nat.succ_pos m, hp.1, hp.2, besterr_ne_nan _ m _ s h ht⟩
  have hpair : s.besterr = of_int (-1) ∨ s.besterr = get_error env data s.best comp := by
    rcases hs with ⟨_, h1⟩ | ⟨_, h1, _⟩
    · exact Or.inl h1
    · exact Or.inr h1
  have hstart : s.besterr = of_int (-1) ∨ (is_err s.besterr ∧ s.besterr ≠ Dbl.nan) := by
    rcases hs with ⟨_, h1⟩ | ⟨_, _, h1, h2⟩
    · exact Or.inl h1
    · exact Or.inr ⟨h1, h2⟩
  refine ⟨mem_grid_indices, rfl, round_pair _ s hpair, ?_, ?_, ?_⟩
  · rw [ieee_round_best]
    rcases ieee_grid_loop_cases (fun C => get_error env data C comp) s.lowerC s.upperC
        grid_indices (s.best, s.besterr) with h1 | ⟨i, hi, h1⟩
    · left
      rw [h1]
    · right
      exact ⟨i, hi, by rw [h1]⟩
  · intro hn
    rcases ieee_round_least _ hE s hstart with ⟨_, _, h3, _⟩ | ⟨_, h4⟩
    · exact absurd h3 hn
    · exact h4
  · intro hn
    rcases ieee_round_least _ hE s hstart with ⟨h1, h2, _, h4⟩ | ⟨h3, _⟩
    · refine ⟨?_, h2, h4⟩
      rcases hs with ⟨h5, _⟩ | ⟨_, _, h6, _⟩
      · exact h5
      · have := is_err_ne_sentinel _ h6
        rw [h1, deq_sentinel] at this
        cases this
    · exact absurd hn h3

/-- Witness of `round_searches_grid_apart_from_nan`: the first round on the dataset
`{(5,50)}` with the constant candidate. -/
theorem round_searches_grid_apart_from_nan_witness :
    (round (fun C => get_error env_nan (read_data [(5, 50)]) C complexity.c)
        (init_vars env_nan (read_data [(5, 50)]))).besterr
      = get_error env_nan (read_data [(5, 50)])
          (round (fun C => get_error env_nan (read_data [(5, 50)]) C complexity.c)
            (init_vars env_nan (read_data [(5, 50)]))).best complexity.c :=
  (round_searches_grid_apart_from_nan env_nan (read_data [(5, 50)]) complexity.c 0
    (init_vars env_nan (read_data [(5, 50)])) rfl (init_above _ _)).2.2.1

/-- C14, counterexample: on the input `1 / -1 5` with the logarithmic candidate, whatever the
C library, the first round ends with `besterr` a NaN, and `besterr <= get_error(...)` is
false at each of the 30 grid points. -/
theorem round_row_neg_besterr_nan :
    (∀ x : Dbl, dle Dbl.nan x = false) ∧ ∀ env : Env,
    (round (fun C => get_error env (read_data [(-1, 5)]) C complexity.logn)
        (init_vars env (read_data [(-1, 5)]))).besterr = Dbl.nan
      ∧ ∀ i ∈ grid_indices,
          dle (round (fun C => get_error env (read_data [(-1, 5)]) C complexity.logn)
              (init_vars env (read_data [(-1, 5)]))).besterr
            (get_error env (read_data [(-1, 5)])
              (grid_point (init_vars env (read_data [(-1, 5)])).lowerC
                (init_vars env (read_data [(-1, 5)])).upperC i) complexity.logn) = false := by
  refine ⟨dle_nan_left, fun env => ?_⟩
  have hl : libm_free [(-1, 5)] complexity.logn :=
    libm_free_of_sizes _ _ (by decide) (by decide)
  have h : (round (fun C => get_error env (read_data [(-1, 5)]) C complexity.logn)
      (init_vars env (read_data [(-1, 5)]))).besterr = Dbl.nan := by
    rw [error_of_eq env _ _ hl, init_vars_env env env_nan _ (by decide)]
    exact eval_neg_round.1
  refine ⟨h, fun i _ => ?_⟩
  rw [h]
  exact dle_nan_left _

/-- C17 (as amended).  For every dataset and candidate, the loop of `get_const` runs a first
round; if the error at the first grid point `0 + (1/32)*(upperC - 0)` of that round is a NaN,
the loop ends after this one round and `get_const` returns that point; otherwise the loop
test holds again after round one and a second round is run. -/
theorem get_const_first_round (env : Env) (data : Dataset) (comp : complexity) :
    get_const env 0 data comp = Outcome.out_of_fuel
      ∧ (get_error env data
            (grid_point (of_int 0) (dmul (of_int 2) (dceil (last_runtime env data))) 1) comp
          = Dbl.nan →
          ∀ k : ℕ, get_const env (1 + k) data comp
            = Outcome.ret
                (grid_point (of_int 0) (dmul (of_int 2) (dceil (last_runtime env data))) 1))
      ∧ (get_error env data
            (grid_point (of_int 0) (dmul (of_int 2) (dceil (last_runtime env data))) 1) comp
          ≠ Dbl.nan →
          get_const env 1 data comp = Outcome.out_of_fuel) := by
  have hE : ∀ C, is_err (get_error env data C comp) := fun C => get_error_is_err env data C comp
  have hf := first_round _ hE (init_vars env data) rfl
  refine ⟨get_const_zero env data comp, ?_, ?_⟩
  · intro hn k
    obtain ⟨h1, h2⟩ := hf.1 hn
    have e : get_const env 1 data comp = Outcome.ret
        (grid_point (of_int 0) (dmul (of_int 2) (dceil (last_runtime env data))) 1) := by
      unfold get_const
      rw [ieee_while_loop_round _ 0 _ (init_above env data), ieee_while_loop_stop _ 0 _ h1, h2]
      rfl
    exact ieee_get_const_mono env 1 k data comp _ e
  · intro hn
    unfold get_const
    rw [ieee_while_loop_round _ 0 _ (init_above env data)]
    exact while_loop_zero _ _ (hf.2 hn)

/-- C17, counterexample: on the input `1 / -1 5` with the logarithmic candidate, whatever
the C library, `get_const` returns `0.3125` after one round. -/
theorem get_const_row_neg_one_round :
    (∀ env : Env,
        get_const env 0 (read_data [(-1, 5)]) complexity.logn = Outcome.out_of_fuel)
      ∧ ∀ env : Env,
        get_const env 1 (read_data [(-1, 5)]) complexity.logn = Outcome.ret (dbl 5 (-4)) := by
  refine ⟨fun env => get_const_zero env _ _, fun env => ?_⟩
  rw [get_const_env env env_nan 1 [(-1, 5)] _ (by decide)
    (libm_free_of_sizes _ _ (by decide) (by decide))]
  exact eval_neg_logn

set_option maxRecDepth 100000 in
theorem eval_unimodal_order :
    dlt (dbl 4908633431212032 (-53)) (dbl 4908633431212033 (-53)) = true
      ∧ dlt (dbl 4908633431212033 (-53)) (of_int 1) = true
      ∧ dlt (dbl 6997423819678435 (-53)) (dbl 6997423819678436 (-53)) = true
      ∧ dlt (dbl 6369051672525773 (-53)) (dbl 6997423819678436 (-53)) = true
      ∧ dle (dbl 6997423819678436 (-53)) (dbl 6997423819678435 (-53)) = false
      ∧ dle (dbl 6997423819678436 (-53)) (dbl 6369051672525773 (-53)) = false := by
  decide!

/-- C16, counterexample: on the dataset `{(1,0),(1,2)}` with the constant candidate, whatever
the C library, the error that `get_error` returns rises from `C = 4908633431212032 * 2^-53`
to the next double `C + 2^-53` (from `6997423819678435 * 2^-53` to
`6997423819678436 * 2^-53`), and is lower again at `C = 1`: no constant `C*` makes it
non-increasing up to `C*` and non-decreasing from `C*` on. -/
theorem get_error_rows_1_0_1_2_not_unimodal :
    dlt (dbl 4908633431212032 (-53)) (dbl 4908633431212033 (-53)) = true
      ∧ dlt (dbl 4908633431212033 (-53)) (of_int 1) = true
      ∧ ∀ env : Env,
        dlt (get_error env (read_data [(1, 0), (1, 2)]) (dbl 4908633431212032 (-53))
            complexity.c)
          (get_error env (read_data [(1, 0), (1, 2)]) (dbl 4908633431212033 (-53))
            complexity.c) = true
      ∧ dlt (get_error env (read_data [(1, 0), (1, 2)]) (of_int 1) complexity.c)
          (get_error env (read_data [(1, 0), (1, 2)]) (dbl 4908633431212033 (-53))
            complexity.c) = true
      ∧ ¬ ∃ m : ℤ,
          (∀ x y : Dbl, dle x y = true → dle y (Dbl.fin m) = true →
            dle (get_error env (read_data [(1, 0), (1, 2)]) y complexity.c)
              (get_error env (read_data [(1, 0), (1, 2)]) x complexity.c) = true)
          ∧ (∀ x y : Dbl, dle (Dbl.fin m) x = true → dle x y = true →
            dle (get_error env (read_data [(1, 0), (1, 2)]) x complexity.c)
              (get_error env (read_data [(1, 0), (1, 2)]) y complexity.c) = true) := by
  obtain ⟨o1, o2, o3, o4, o5, o6⟩ := eval_unimodal_order
  refine ⟨o1, o2, fun env => ?_⟩
  have hc : libm_free [(1, 0), (1, 2)] complexity.c :=
    libm_free_not_log _ _ (by decide) (by unfold uses_log; decide)
  have ea : get_error env (read_data [(1, 0), (1, 2)]) (dbl 4908633431212032 (-53))
      complexity.c = dbl 6997423819678435 (-53) := by
    rw [get_error_env env env_nan _ _ _ hc]
    exact eval_unimodal.1
  have eb : get_error env (read_data [(1, 0), (1, 2)]) (dbl 4908633431212033 (-53))
      complexity.c = dbl 6997423819678436 (-53) := by
    rw [get_error_env env env_nan _ _ _ hc]
    exact eval_unimodal.2.1
  have e1 : get_error env (read_data [(1, 0), (1, 2)]) (of_int 1) complexity.c
      = dbl 6369051672525773 (-53) := by
    rw [get_error_env env env_nan _ _ _ hc]
    exact eval_unimodal.2.2
  refine ⟨by rw [ea, eb]; exact o3, by rw [e1, eb]; exact o4, ?_⟩
  rintro ⟨m, H1, H2⟩
  obtain ⟨nb, hnb⟩ : ∃ nb : ℤ, dbl 4908633431212033 (-53) = Dbl.fin nb := ⟨_, rfl⟩
  by_cases hm : nb ≤ m
  · have h := H1 (dbl 4908633431212032 (-53)) (dbl 4908633431212033 (-53))
      (dle_of_dlt _ _ o1) (by rw [hnb]; exact (dle_fin _ _).mpr hm)
    rw [ea, eb, o5] at h
    cases h
  · have h := H2 (dbl 4908633431212033 (-53)) (of_int 1)
      (by rw [hnb]; exact (dle_fin _ _).mpr (by omega)) (dle_of_dlt _ _ o2)
    rw [e1, eb, o6] at h
    cases h

set_option maxRecDepth 100000 in
theorem eval_9_9_widths :
    width vars_row_9_9 = 29 * ((2 ^ 1022 : ℕ) : ℤ)
      ∧ width vars_row_9_9_next = 2 * ((2 ^ 1022 : ℕ) : ℤ) := by
  decide!

/-- C19, counterexample: on the input `1 / 9 9` with the linear candidate, whatever the C
library, round thirteen takes the interval `[1 - 12*2^-52, 1 + 17*2^-52]`, of width
`29*2^-52`, to `[1 - 2^-52, 1 + 2^-52]`, of width `2*2^-52`, which is more than `65/1024`
of the old width. -/
theorem round_row_9_9_no_shrink :
    dlt threshold vars_row_9_9.deltaerror = true
      ∧ width vars_row_9_9 = 29 * ((2 ^ 1022 : ℕ) : ℤ)
      ∧ width vars_row_9_9_next = 2 * ((2 ^ 1022 : ℕ) : ℤ)
      ∧ 65 * width vars_row_9_9 < 1024 * width vars_row_9_9_next
      ∧ ∀ env : Env,
        vars_after (fun C => get_error env (read_data [(9, 9)]) C complexity.n) 12
            (init_vars env (read_data [(9, 9)])) = some vars_row_9_9
          ∧ round (fun C => get_error env (read_data [(9, 9)]) C complexity.n) vars_row_9_9
              = vars_row_9_9_next := by
  refine ⟨eval_9_9.2.1, eval_9_9_widths.1, eval_9_9_widths.2, eval_9_9.2.2.2, fun env => ?_⟩
  have hn : libm_free [(9, 9)] complexity.n :=
    libm_free_not_log _ _ (by decide) (by unfold uses_log; decide)
  rw [error_of_eq env _ _ hn, init_vars_env env env_nan _ (by decide)]
  exact ⟨eval_9_9.1, eval_9_9.2.2.1⟩

/-- Witness of `single_observation_terminates` on the dataset `{(5,50)}` with the constant
candidate. -/
theorem single_observation_terminates_witness :
    (∃ (fuel : ℕ) (C : Dbl), ∀ k : ℕ,
        get_const env_nan (fuel + k) [(of_int 5, of_int 50)] complexity.c = Outcome.ret C)
      ∧ ∃ (fuel : ℕ) (out : String),
          (∀ k : ℕ, main env_nan (fuel + k) [(5, 50)] = Outcome.ret out)
            ∧ out ∈ candidates.map get_string :=
  single_observation_terminates env_nan (of_int 5, of_int 50) (5, 50) complexity.c

/-! ### Rounding to nearest -/

theorem log2_step_lt (q lo s : ℕ) (h : q < 2 ^ (lo + s + s)) :
    q < 2 ^ (log2_step q lo s + s) := by
  unfold log2_step
  cases hb : Nat.ble (2 ^ (lo + s)) q with
  | true => exact h
  | false =>
    have h1 : ¬ 2 ^ (lo + s) ≤ q := fun hc => by
      rw [Nat.ble_eq_true_of_le hc] at hb
      cases hb
    exact Nat.lt_of_not_le h1

set_option exponentiation.threshold 10000 in
theorem span_eq : span = 2 ^ (0 + 4096 + 4096) := by
  unfold span
  rfl

/-- The leading bit of `q < 2^8192` is at position `log2_nat q`. -/
theorem log2_nat_lt (q : ℕ) (h : q < span) : q < 2 ^ (log2_nat q + 1) := by
  rw [span_eq] at h
  unfold log2_nat
  have h1 := log2_step_lt q 0 4096 h
  have h2 := log2_step_lt q _ 2048 h1
  have h3 := log2_step_lt q _ 1024 h2
  have h4 := log2_step_lt q _ 512 h3
  have h5 := log2_step_lt q _ 256 h4
  have h6 := log2_step_lt q _ 128 h5
  have h7 := log2_step_lt q _ 64 h6
  have h8 := log2_step_lt q _ 32 h7
  have h9 := log2_step_lt q _ 16 h8
  have h10 := log2_step_lt q _ 8 h9
  have h11 := log2_step_lt q _ 4 h10
  have h12 := log2_step_lt q _ 2 h11
  exact log2_step_lt q _ 1 h12


theorem round_to_le (a d : ℕ) : round_to a d ≤ a / d + 1 := by
  unfold round_to
  cases Nat.ble (2 * (a % d) + 1) d <;> cases Nat.ble (d + 1) (2 * (a % d)) <;> simp
  have := Nat.mod_lt (a / d) (by norm_num : 0 < 2)
  omega

/-- The multiple `round_to a d * d` of `d` is within `d/2` of `a`. -/
theorem round_to_near (a d : ℕ) (hd : 0 < d) :
    2 * (round_to a d * d) ≤ 2 * a + d ∧ 2 * a ≤ 2 * (round_to a d * d) + d := by
  have h1 : d * (a / d) + a % d = a := Nat.div_add_mod a d
  have h2 : a % d < d := Nat.mod_lt a hd
  have h3 : (a / d + 1) * d = d * (a / d) + d := by ring
  have h4 : a / d * d = d * (a / d) := Nat.mul_comm _ _
  have h5 : a / d ≤ round_to a d := round_to_ge a d
  have h6 : round_to a d ≤ a / d + 1 := round_to_le a d
  unfold round_to at h5 h6 ⊢
  cases hb1 : Nat.ble (2 * (a % d) + 1) d with
  | true =>
    have := Nat.le_of_ble_eq_true hb1
    simp only [cond_true]
    omega
  | false =>
    have hn1 : ¬ 2 * (a % d) + 1 ≤ d := fun hc => by
      rw [Nat.ble_eq_true_of_le hc] at hb1
      cases hb1
    cases hb2 : Nat.ble (d + 1) (2 * (a % d)) with
    | true =>
      simp only [cond_true, cond_false]
      omega
    | false =>
      have hn2 : ¬ d + 1 ≤ 2 * (a % d) := fun hc => by
        rw [Nat.ble_eq_true_of_le hc] at hb2
        cases hb2
      simp only [cond_false]
      rw [hb1, hb2] at h5 h6
      simp only [cond_false] at h5 h6
      have h7 : a / d + a / d % 2 = a / d ∨ a / d + a / d % 2 = a / d + 1 := by omega
      rcases h7 with h7 | h7
      · rw [h7]
        omega
      · rw [h7]
        omega

/-- Among the multiples of `d`, `round_to a d * d` is nearest to `a`: it is not above a
multiple that is at least `a`, and not below a multiple that is at most `a`. -/
theorem round_to_between (a d m : ℕ) (hd : 0 < d) :
    (a ≤ m * d → round_to a d ≤ m) ∧ (m * d ≤ a → m ≤ round_to a d) := by
  obtain ⟨h1, h2⟩ := round_to_near a d hd
  constructor
  · intro h
    by_contra hc
    have h3 : m + 1 ≤ round_to a d := by omega
    have h4 : (m + 1) * d ≤ round_to a d * d := Nat.mul_le_mul_right d h3
    have h5 : (m + 1) * d = m * d + d := by ring
    omega
  · intro h
    by_contra hc
    have h3 : round_to a d + 1 ≤ m := by omega
    have h4 : (round_to a d + 1) * d ≤ m * d := Nat.mul_le_mul_right d h3
    have h5 : (round_to a d + 1) * d = round_to a d * d + d := by ring
    omega


theorem log2_nat_zero : log2_nat 0 = 0 := by decide!

/-- A number with at most 53 significant bits is representable. -/
theorem representable_of_bits (k j : ℕ) (hk : k < 2 ^ 53) : representable (k * 2 ^ j) := by
  unfold representable
  rcases Nat.eq_zero_or_pos k with rfl | hk0
  · rw [Nat.zero_mul]
    exact round_nat_zero
  · have hq : 1 ≤ k * 2 ^ j := Nat.mul_pos hk0 (Nat.two_pow_pos j)
    have hl := log2_nat_le (k * 2 ^ j) hq
    unfold round_nat
    rw [Nat.div_one, Nat.one_mul]
    generalize log2_nat (k * 2 ^ j) = l at hl ⊢
    have hlt : 2 ^ l < 2 ^ (53 + j) := by
      apply lt_of_le_of_lt hl
      rw [pow_add]
      exact Nat.mul_lt_mul_of_pos_right hk (Nat.two_pow_pos j)
    have hl2 : l < 53 + j := (Nat.pow_lt_pow_iff_right (by norm_num)).mp hlt
    have hg : ulp_exp l ≤ j := by
      unfold ulp_exp
      omega
    obtain ⟨e, he⟩ : ∃ e, j = e + ulp_exp l := ⟨j - ulp_exp l, by omega⟩
    have h2 : k * 2 ^ j = (k * 2 ^ e) * 2 ^ ulp_exp l := by
      rw [he, pow_add]
      ring
    rw [h2, round_to_exact _ _ (Nat.two_pow_pos _)]

theorem representable_zero : representable 0 := round_nat_zero

/-- The value of `round_nat a b` has at most 53 significant bits. -/
theorem round_nat_representable (a b : ℕ) (h : a / b < span) :
    representable (round_nat a b) := by
  have hlt := log2_nat_lt (a / b) h
  unfold round_nat
  generalize log2_nat (a / b) = l at hlt ⊢
  have h1 : round_to a (b * 2 ^ ulp_exp l) ≤ a / (b * 2 ^ ulp_exp l) + 1 := round_to_le _ _
  rw [← Nat.div_div_eq_div_mul] at h1
  have h2 : l + 1 ≤ ulp_exp l + 53 := by
    unfold ulp_exp
    omega
  have h3 : a / b < 2 ^ ulp_exp l * 2 ^ 53 := by
    rw [← pow_add]
    exact lt_of_lt_of_le hlt (Nat.pow_le_pow_right (by norm_num) h2)
  have h4 : a / b / 2 ^ ulp_exp l < 2 ^ 53 := Nat.div_lt_of_lt_mul h3
  rcases Nat.lt_or_ge (round_to a (b * 2 ^ ulp_exp l)) (2 ^ 53) with h5 | h5
  · exact representable_of_bits _ _ h5
  · have h6 : round_to a (b * 2 ^ ulp_exp l) = 2 ^ 53 := by omega
    rw [h6, ← pow_add]
    have := representable_of_bits 1 (53 + ulp_exp l) (by norm_num)
    rw [Nat.one_mul] at this
    exact this

/-- A representable number that is at least `2^l` is a multiple of the spacing
`2^(l - 52)` of the doubles from `2^l` on. -/
theorem representable_dvd (r l : ℕ) (hr : representable r) (hs : r < span)
    (hl : 2 ^ l ≤ r) : 2 ^ ulp_exp l ∣ r := by
  have hlt := log2_nat_lt r hs
  unfold representable round_nat at hr
  rw [Nat.div_one, Nat.one_mul] at hr
  generalize log2_nat r = L at hlt hr
  have h1 : 2 ^ l < 2 ^ (L + 1) := lt_of_le_of_lt hl hlt
  have h2 : l < L + 1 := (Nat.pow_lt_pow_iff_right (by norm_num)).mp h1
  have h3 : ulp_exp l ≤ ulp_exp L := by
    unfold ulp_exp
    omega
  have h4 : 2 ^ ulp_exp L ∣ r := Dvd.intro_left _ hr
  exact dvd_trans (pow_dvd_pow 2 h3) h4

/-- A representable number `r`, seen from the rounding of `a / b` to multiples of the
spacing `2^g`: it is such a multiple, or it lies below a multiple that is at most `a / b`. -/
theorem representable_cases (a b r : ℕ) (hr : representable r) (hs : r < span) :
    (∃ m, r = m * 2 ^ ulp_exp (log2_nat (a / b)))
      ∨ ∃ m0, m0 * (b * 2 ^ ulp_exp (log2_nat (a / b))) ≤ a
          ∧ r * b < m0 * (b * 2 ^ ulp_exp (log2_nat (a / b))) := by
  rcases Nat.eq_zero_or_pos b with rfl | hb
  · left
    rw [Nat.div_zero, log2_nat_zero]
    exact ⟨r, by simp [ulp_exp]⟩
  rcases Nat.eq_zero_or_pos (ulp_exp (log2_nat (a / b))) with h0 | h0
  · left
    rw [h0]
    exact ⟨r, by simp⟩
  · have hq : 1 ≤ a / b := by
      by_contra hc
      have : a / b = 0 := Nat.lt_one_iff.mp (Nat.lt_of_not_le hc)
      rw [this, log2_nat_zero] at h0
      simp [ulp_exp] at h0
    have hl := log2_nat_le (a / b) hq
    generalize log2_nat (a / b) = l at hl h0 ⊢
    rcases Nat.lt_or_ge r (2 ^ l) with h1 | h1
    · right
      have hg : ulp_exp l ≤ l := by
        unfold ulp_exp
        omega
      obtain ⟨e, he⟩ : ∃ e, l = e + ulp_exp l := ⟨l - ulp_exp l, by omega⟩
      refine ⟨2 ^ e, ?_, ?_⟩
      · have h2 : 2 ^ e * (b * 2 ^ ulp_exp l) = b * 2 ^ l := by
          conv_rhs => rw [he, pow_add]
          ring
        rw [h2]
        calc b * 2 ^ l ≤ b * (a / b) := Nat.mul_le_mul_left b hl
          _ ≤ a := Nat.mul_div_le a b
      · have h2 : 2 ^ e * (b * 2 ^ ulp_exp l) = 2 ^ l * b := by
          conv_rhs => rw [he, pow_add]
          ring
        rw [h2]
        exact Nat.mul_lt_mul_of_pos_right h1 hb
    · left
      obtain ⟨m, hm⟩ := representable_dvd r l hr hs h1
      exact ⟨m, by rw [hm]; ring⟩


/-- Rounding does not go past a representable number: from below. -/
theorem round_nat_le_of_le (a b r : ℕ) (hb : 0 < b) (hr : representable r) (hs : r < span)
    (h : a ≤ r * b) : round_nat a b ≤ r := by
  have hc := representable_cases a b r hr hs
  unfold round_nat
  generalize ulp_exp (log2_nat (a / b)) = g at hc ⊢
  have hD : 0 < b * 2 ^ g := Nat.mul_pos hb (Nat.two_pow_pos g)
  rcases hc with ⟨m, hm⟩ | ⟨m0, h1, h2⟩
  · have h3 : a ≤ m * (b * 2 ^ g) := by
      have : r * b = m * (b * 2 ^ g) := by rw [hm]; ring
      omega
    have h4 := (round_to_between a (b * 2 ^ g) m hD).1 h3
    rw [hm]
    exact Nat.mul_le_mul_right _ h4
  · omega

/-- Rounding does not go past a representable number: from above. -/
theorem round_nat_ge_of_ge (a b r : ℕ) (hb : 0 < b) (hr : representable r) (hs : r < span)
    (h : r * b ≤ a) : r ≤ round_nat a b := by
  have hc := representable_cases a b r hr hs
  unfold round_nat
  generalize ulp_exp (log2_nat (a / b)) = g at hc ⊢
  have hD : 0 < b * 2 ^ g := Nat.mul_pos hb (Nat.two_pow_pos g)
  rcases hc with ⟨m, hm⟩ | ⟨m0, h1, h2⟩
  · have h3 : m * (b * 2 ^ g) ≤ a := by
      have : r * b = m * (b * 2 ^ g) := by rw [hm]; ring
      omega
    have h4 := (round_to_between a (b * 2 ^ g) m hD).2 h3
    rw [hm]
    exact Nat.mul_le_mul_right _ h4
  · have h4 := (round_to_between a (b * 2 ^ g) m0 hD).2 h1
    have h5 : m0 * (b * 2 ^ g) ≤ round_to a (b * 2 ^ g) * (b * 2 ^ g) :=
      Nat.mul_le_mul_right _ h4
    have h6 : round_to a (b * 2 ^ g) * (b * 2 ^ g) = round_to a (b * 2 ^ g) * 2 ^ g * b := by
      ring
    have h7 : r * b < round_to a (b * 2 ^ g) * 2 ^ g * b := by omega
    exact Nat.le_of_lt (Nat.lt_of_mul_lt_mul_right h7)

/-- The rounded value is at least as near to `a / b` as a multiple of the spacing below. -/
theorem round_to_near_up (a d m : ℕ) (hd : 0 < d) (h : m * d ≤ a) :
    round_to a d * d + m * d ≤ 2 * a := by
  have h1 := (round_to_between a d m hd).2 h
  obtain ⟨h2, _⟩ := round_to_near a d hd
  rcases Nat.eq_or_lt_of_le h1 with h3 | h3
  · rw [← h3]
    omega
  · have h4 : (m + 1) * d ≤ round_to a d * d := Nat.mul_le_mul_right d h3
    have h5 : (m + 1) * d = m * d + d := by ring
    omega

theorem round_to_near_down (a d m : ℕ) (hd : 0 < d) (h : a ≤ m * d) :
    2 * a ≤ round_to a d * d + m * d := by
  have h1 := (round_to_between a d m hd).1 h
  obtain ⟨_, h2⟩ := round_to_near a d hd
  rcases Nat.eq_or_lt_of_le h1 with h3 | h3
  · rw [h3]
    omega
  · have h4 : (round_to a d + 1) * d ≤ m * d := Nat.mul_le_mul_right d h3
    have h5 : (round_to a d + 1) * d = round_to a d * d + d := by ring
    omega

/-- The rounded value is at least as near to `a / b` as any representable number below. -/
theorem round_nat_near_up (a b r : ℕ) (hb : 0 < b) (hr : representable r) (hs : r < span)
    (h : r * b ≤ a) : round_nat a b * b + r * b ≤ 2 * a := by
  have hc := representable_cases a b r hr hs
  unfold round_nat
  generalize ulp_exp (log2_nat (a / b)) = g at hc ⊢
  have hD : 0 < b * 2 ^ g := Nat.mul_pos hb (Nat.two_pow_pos g)
  have h6 : round_to a (b * 2 ^ g) * 2 ^ g * b = round_to a (b * 2 ^ g) * (b * 2 ^ g) := by
    ring
  rw [h6]
  rcases hc with ⟨m, hm⟩ | ⟨m0, h1, h2⟩
  · have h0 : r * b = m * (b * 2 ^ g) := by rw [hm]; ring
    have := round_to_near_up a (b * 2 ^ g) m hD (by omega)
    omega
  · have := round_to_near_up a (b * 2 ^ g) m0 hD h1
    omega

/-- The rounded value is at least as near to `a / b` as any representable number above. -/
theorem round_nat_near_down (a b r : ℕ) (hb : 0 < b) (hr : representable r) (hs : r < span)
    (h : a ≤ r * b) : 2 * a ≤ round_nat a b * b + r * b := by
  have hc := representable_cases a b r hr hs
  unfold round_nat
  generalize ulp_exp (log2_nat (a / b)) = g at hc ⊢
  have hD : 0 < b * 2 ^ g := Nat.mul_pos hb (Nat.two_pow_pos g)
  have h6 : round_to a (b * 2 ^ g) * 2 ^ g * b = round_to a (b * 2 ^ g) * (b * 2 ^ g) := by
    ring
  rw [h6]
  rcases hc with ⟨m, hm⟩ | ⟨m0, h1, h2⟩
  · have h0 : r * b = m * (b * 2 ^ g) := by rw [hm]; ring
    have := round_to_near_down a (b * 2 ^ g) m hD (by omega)
    omega
  · omega

/-- Rounding leaves a representable number as it is. -/
theorem round_nat_fix (n b : ℕ) (hb : 0 < b) (hn : representable n) (hs : n < span) :
    round_nat (n * b) b = n :=
  Nat.le_antisymm (round_nat_le_of_le _ b n hb hn hs (le_refl _))
    (round_nat_ge_of_ge _ b n hb hn hs (le_refl _))

set_option exponentiation.threshold 10000 in
theorem span_pos : 0 < span := by
  rw [span_eq]
  exact Nat.two_pow_pos _

/-- The rounded value is at most twice the exact one. -/
theorem round_nat_le_twice (a b : ℕ) (hb : 0 < b) : round_nat a b * b ≤ 2 * a := by
  have h := round_nat_near_up a b 0 hb representable_zero
    span_pos (by simp)
  omega

/-- Rounding is monotone. -/
theorem round_nat_mono (a a2 b : ℕ) (hb : 0 < b) (h1 : a / b < span) (h2 : a2 / b < span)
    (hp : round_nat a b < span) (hq : round_nat a2 b < span) (h : a ≤ a2) :
    round_nat a b ≤ round_nat a2 b := by
  by_contra hc
  have hlt : round_nat a2 b < round_nat a b := Nat.lt_of_not_le hc
  have r1 := round_nat_representable a b h1
  have r2 := round_nat_representable a2 b h2
  have hlt2 : round_nat a2 b * b < round_nat a b * b := Nat.mul_lt_mul_of_pos_right hlt hb
  have k1 : round_nat a b * b + round_nat a2 b * b ≤ 2 * a := by
    rcases le_or_lt (round_nat a2 b * b) a with h3 | h3
    · exact round_nat_near_up a b _ hb r2 hq h3
    · have := round_nat_le_of_le a b _ hb r2 hq (Nat.le_of_lt h3)
      omega
  have k2 : 2 * a2 ≤ round_nat a2 b * b + round_nat a b * b := by
    rcases le_or_lt a2 (round_nat a b * b) with h3 | h3
    · exact round_nat_near_down a2 b _ hb r1 hp h3
    · have := round_nat_ge_of_ge a2 b _ hb r1 hp (Nat.le_of_lt h3)
      omega
  have e : a = a2 := by omega
  rw [e] at hlt
  exact Nat.lt_irrefl _ hlt


/-! ### The arithmetic of a round, on numbers of units -/

set_option exponentiation.threshold 10000 in
theorem scale_eq_part : scale = 32 * part := by
  unfold scale part
  rw [show (1074 : ℕ) = 5 + 1069 from rfl, pow_add]
  rfl

set_option exponentiation.threshold 10000 in
theorem part_pos : 0 < part := by
  unfold part
  exact Nat.two_pow_pos _

set_option exponentiation.threshold 10000 in
theorem huge_le_span : 8 * huge ≤ span := by
  unfold huge span
  rw [show (8 : ℕ) = 2 ^ 3 from rfl, ← pow_add]
  exact Nat.pow_le_pow_right (by norm_num) (by norm_num)

theorem rnd1_representable (x : ℕ) (h : x < span) : representable (rnd1 x) := by
  unfold rnd1
  exact round_nat_representable x 1 (by rw [Nat.div_one]; exact h)

theorem rnd1_le (x r : ℕ) (hr : representable r) (hs : r < span) (h : x ≤ r) :
    rnd1 x ≤ r :=
  round_nat_le_of_le x 1 r Nat.one_pos hr hs (by rw [Nat.mul_one]; exact h)

theorem rnd1_ge (x r : ℕ) (hr : representable r) (hs : r < span) (h : r ≤ x) :
    r ≤ rnd1 x :=
  round_nat_ge_of_ge x 1 r Nat.one_pos hr hs (by rw [Nat.mul_one]; exact h)

theorem rnd1_near_up (x r : ℕ) (hr : representable r) (hs : r < span) (h : r ≤ x) :
    rnd1 x + r ≤ 2 * x := by
  have := round_nat_near_up x 1 r Nat.one_pos hr hs (by rw [Nat.mul_one]; exact h)
  rw [Nat.mul_one, Nat.mul_one] at this
  exact this

theorem rnd1_near_down (x r : ℕ) (hr : representable r) (hs : r < span) (h : x ≤ r) :
    2 * x ≤ rnd1 x + r := by
  have := round_nat_near_down x 1 r Nat.one_pos hr hs (by rw [Nat.mul_one]; exact h)
  rw [Nat.mul_one, Nat.mul_one] at this
  exact this

theorem rnd1_le_twice (x : ℕ) : rnd1 x ≤ 2 * x := by
  have := round_nat_le_twice x 1 Nat.one_pos
  rw [Nat.mul_one] at this
  exact this

theorem rnd1_mono (x y : ℕ) (hy : y < huge) (h : x ≤ y) : rnd1 x ≤ rnd1 y := by
  have hs := huge_le_span
  have h1 := rnd1_le_twice x
  have h2 := rnd1_le_twice y
  unfold rnd1 at *
  exact round_nat_mono x y 1 Nat.one_pos (by rw [Nat.div_one]; omega)
    (by rw [Nat.div_one]; omega) (by omega) (by omega) h

theorem rnd_part_div (i w : ℕ) (hi : i ≤ 32) : i * part * w / scale ≤ w := by
  apply Nat.div_le_of_le_mul
  rw [scale_eq_part]
  have : i * part * w ≤ 32 * part * w :=
    Nat.mul_le_mul_right w (Nat.mul_le_mul_right part hi)
  exact this

theorem rnd_part_representable (i w : ℕ) (hi : i ≤ 32) (h : w < span) :
    representable (rnd_part i w) := by
  unfold rnd_part
  exact round_nat_representable _ _ (lt_of_le_of_lt (rnd_part_div i w hi) h)

/-- The rounded `(i/32) * w` is at most `(i/16) * w`. -/
theorem rnd_part_le_twice (i w : ℕ) : 16 * rnd_part i w ≤ i * w := by
  have h := round_nat_le_twice (i * part * w) scale scale_pos
  unfold rnd_part
  rw [scale_eq_part] at h
  have h2 : part * (32 * round_nat (i * part * w) (32 * part)) ≤ part * (2 * (i * w)) := by
    have e1 : part * (32 * round_nat (i * part * w) (32 * part))
        = round_nat (i * part * w) (32 * part) * (32 * part) := by ring
    have e2 : part * (2 * (i * w)) = 2 * (i * part * w) := by ring
    rw [e1, e2]
    exact h
  rw [scale_eq_part]
  have := Nat.le_of_mul_le_mul_left h2 part_pos
  omega

/-- The rounded `(i/32) * w` is at most a representable `r` with `i * w <= 32 * r`. -/
theorem rnd_part_le (i w r : ℕ) (hr : representable r) (hs : r < span) (h : i * w ≤ 32 * r) :
    rnd_part i w ≤ r := by
  unfold rnd_part
  apply round_nat_le_of_le _ _ r scale_pos hr hs
  rw [scale_eq_part]
  have : i * part * w = part * (i * w) := by ring
  rw [this]
  have : r * (32 * part) = part * (32 * r) := by ring
  rw [this]
  exact Nat.mul_le_mul_left part h

theorem rnd_part_mono (i j w x : ℕ) (hj : j ≤ 32) (hx : x < huge) (h : i * w ≤ j * x) :
    rnd_part i w ≤ rnd_part j x := by
  have hs := huge_le_span
  have h1 := rnd_part_le_twice i w
  have h2 := rnd_part_le_twice j x
  have h3 : j * x ≤ 32 * x := Nat.mul_le_mul_right x hj
  have h4 : i * part * w ≤ j * part * x := by
    have e1 : i * part * w = part * (i * w) := by ring
    have e2 : j * part * x = part * (j * x) := by ring
    rw [e1, e2]
    exact Nat.mul_le_mul_left part h
  have h5 : j * part * x / scale ≤ x := rnd_part_div j x hj
  have h6 : i * part * w / scale ≤ j * part * x / scale := Nat.div_le_div_right h4
  unfold rnd_part at *
  exact round_nat_mono _ _ scale scale_pos (by omega) (by omega) (by omega) (by omega) h4

/-- Below every number there is a representable one within `1/32` of it. -/
theorem representable_below (v : ℕ) (hv : v < span) :
    ∃ r, representable r ∧ r ≤ v ∧ 31 * v ≤ 32 * r := by
  rcases Nat.lt_or_ge v (2 ^ 53) with h | h
  · refine ⟨v, ?_, le_refl _, by omega⟩
    have := representable_of_bits v 0 h
    rw [pow_zero, Nat.mul_one] at this
    exact this
  · have h1 : 1 ≤ v := le_trans Nat.one_le_two_pow h
    have hl := log2_nat_le v h1
    have hlt := log2_nat_lt v hv
    generalize log2_nat v = l at hl hlt
    have h2 : 2 ^ 53 < 2 ^ (l + 1) := lt_of_le_of_lt h hlt
    have h3 : 53 < l + 1 := (Nat.pow_lt_pow_iff_right (by norm_num)).mp h2
    obtain ⟨g, hg⟩ : ∃ g, l = g + 52 := ⟨l - 52, by omega⟩
    have h4 : v / 2 ^ g < 2 ^ 53 := by
      apply Nat.div_lt_of_lt_mul
      rw [← pow_add]
      have : g + 53 = l + 1 := by omega
      rw [this]
      exact hlt
    refine ⟨v / 2 ^ g * 2 ^ g, representable_of_bits _ g h4, Nat.div_mul_le_self v _, ?_⟩
    have h5 : v / 2 ^ g * 2 ^ g + v % 2 ^ g = v := by
      rw [Nat.mul_comm]
      exact Nat.div_add_mod v _
    have h6 : v % 2 ^ g < 2 ^ g := Nat.mod_lt v (Nat.two_pow_pos g)
    have h7 : 32 * 2 ^ g ≤ 2 ^ l := by
      rw [hg, show (32 : ℕ) = 2 ^ 5 from rfl, ← pow_add]
      exact Nat.pow_le_pow_right (by norm_num) (by omega)
    omega


/-- What a round does to the interval `[a, b]` when it ends on `best = c` with
`a <= c <= b` and `c` at least one step: the new interval `[a2, b2]` has `a2 <= c <= b2`,
its width is at most `9/16` of the old one, `7 * b + 5 * (b - a)` does not grow, and `c`
is at least one step of the new interval. -/
theorem round_core (a b c : ℕ) (hb : representable b)
    (hc : representable c) (hpot : 7 * b + 5 * (b - a) < 7 * huge) (hab : a ≤ b)
    (hac : a ≤ c) (hcb : c ≤ b) (hst : step_of a b ≤ c) :
    rnd1 (b - a) < huge ∧ step_of a b < huge ∧ lower_of a b c < huge
      ∧ rnd1 (b - lower_of a b c) < huge
      ∧ rnd_part 1 (rnd1 (b - lower_of a b c)) < huge
      ∧ upper_of a b c < huge
      ∧ representable (lower_of a b c) ∧ representable (upper_of a b c)
      ∧ lower_of a b c ≤ c ∧ c ≤ upper_of a b c ∧ lower_of a b c ≤ b
      ∧ 16 * (upper_of a b c - lower_of a b c) ≤ 9 * (b - a)
      ∧ 7 * upper_of a b c + 5 * (upper_of a b c - lower_of a b c) ≤ 7 * b + 5 * (b - a)
      ∧ step_of (lower_of a b c) (upper_of a b c) ≤ c := by
  have hs := huge_le_span
  have hbh : b < huge := by omega
  -- the width and the step
  have w1 : rnd1 (b - a) ≤ 2 * (b - a) := rnd1_le_twice _
  have w2 : rnd1 (b - a) ≤ b := rnd1_le _ b hb (by omega) (Nat.sub_le _ _)
  have s1 : 16 * step_of a b ≤ 1 * rnd1 (b - a) := rnd_part_le_twice 1 _
  -- the new lower bound
  have l1 : lower_of a b c ≤ c := rnd1_le _ c hc (by omega) (Nat.sub_le _ _)
  have l2 : 2 * (c - step_of a b) ≤ lower_of a b c + c :=
    rnd1_near_down _ c hc (by omega) (Nat.sub_le _ _)
  have l3 : representable (lower_of a b c) := rnd1_representable _ (by omega)
  -- the new upper bound
  have u1 : rnd1 (b - lower_of a b c) ≤ 2 * (b - lower_of a b c) := rnd1_le_twice _
  have u2 : rnd1 (b - lower_of a b c) ≤ b := rnd1_le _ b hb (by omega) (Nat.sub_le _ _)
  have u3 : 16 * rnd_part 1 (rnd1 (b - lower_of a b c)) ≤ 1 * rnd1 (b - lower_of a b c) :=
    rnd_part_le_twice 1 _
  have u4 : c ≤ upper_of a b c := rnd1_ge _ c hc (by omega) (Nat.le_add_right _ _)
  have u5 : upper_of a b c + c ≤ 2 * (c + rnd_part 1 (rnd1 (b - lower_of a b c))) :=
    rnd1_near_up _ c hc (by omega) (Nat.le_add_right _ _)
  have u6 : representable (upper_of a b c) := rnd1_representable _ (by omega)
  have k1 : 16 * (upper_of a b c - lower_of a b c) ≤ 9 * (b - a) := by omega
  have k2 : 7 * upper_of a b c + 5 * (upper_of a b c - lower_of a b c)
      ≤ 7 * b + 5 * (b - a) := by omega
  -- the step of the new interval
  have n1 : rnd1 (upper_of a b c - lower_of a b c) ≤ rnd1 (b - a) :=
    rnd1_mono _ _ (by omega) (by omega)
  have n2 : step_of (lower_of a b c) (upper_of a b c) ≤ step_of a b :=
    rnd_part_mono 1 1 _ _ (by norm_num) (by omega) (by omega)
  exact ⟨by omega, by omega, by omega, by omega, by omega, by omega, l3, u6, l1, u4,
    by omega, k1, k2, by omega⟩

/-- The grid points of a round on `[a, b]` lie in `[a, b]` and are at least one step. -/
theorem point_core (a b i : ℕ) (ha : representable a) (hb : representable b)
    (hbh : b < huge) (hab : a ≤ b) (hi1 : 1 ≤ i) (hi : i ≤ 30) :
    rnd1 (b - a) < huge ∧ rnd_part i (rnd1 (b - a)) < huge ∧ point_of a b i < huge
      ∧ representable (point_of a b i) ∧ a ≤ point_of a b i ∧ point_of a b i ≤ b
      ∧ step_of a b ≤ point_of a b i := by
  have hs := huge_le_span
  have w2 : rnd1 (b - a) ≤ b := rnd1_le _ b hb (by omega) (Nat.sub_le _ _)
  obtain ⟨r, hr, hrv, hr32⟩ := representable_below (b - a) (by omega)
  have w3 : rnd1 (b - a) + r ≤ 2 * (b - a) := rnd1_near_up _ r hr (by omega) hrv
  have e1 : rnd_part i (rnd1 (b - a)) ≤ r := by
    apply rnd_part_le _ _ r hr (by omega)
    have : i * rnd1 (b - a) ≤ 30 * rnd1 (b - a) := Nat.mul_le_mul_right _ hi
    omega
  have e2 : step_of a b ≤ rnd_part i (rnd1 (b - a)) := by
    apply rnd_part_mono 1 i _ _ (by omega) (by omega)
    exact Nat.mul_le_mul_right _ hi1
  have e3 : representable (step_of a b) := rnd_part_representable 1 _ (by norm_num) (by omega)
  have p1 : point_of a b i ≤ b := rnd1_le _ b hb (by omega) (by omega)
  have p2 : a ≤ point_of a b i := rnd1_ge _ a ha (by omega) (Nat.le_add_right _ _)
  have p3 : step_of a b ≤ point_of a b i := rnd1_ge _ _ e3 (by omega) (by omega)
  have p4 : representable (point_of a b i) := rnd1_representable _ (by omega)
  exact ⟨by omega, by omega, by omega, p4, p2, p1, p3⟩


/-! ### The search interval in IEEE arithmetic -/

theorem rnd_z_cast (n b : ℕ) (h : round_nat n b < huge) :
    rnd_z (n : ℤ) b = Dbl.fin ((round_nat n b : ℕ) : ℤ) := by
  unfold rnd_z
  rw [is_neg_cast, Int.natAbs_ofNat, rnd_of_lt false n b h]
  rfl

theorem dadd_fin (x y : ℕ) (h : rnd1 (x + y) < huge) :
    dadd (Dbl.fin (x : ℤ)) (Dbl.fin (y : ℤ)) = Dbl.fin ((rnd1 (x + y) : ℕ) : ℤ) := by
  show rnd_z ((x : ℤ) + (y : ℤ)) 1 = _
  rw [← Nat.cast_add]
  exact rnd_z_cast (x + y) 1 h

theorem dsub_fin (x y : ℕ) (hle : y ≤ x) (h : rnd1 (x - y) < huge) :
    dsub (Dbl.fin (x : ℤ)) (Dbl.fin (y : ℤ)) = Dbl.fin ((rnd1 (x - y) : ℕ) : ℤ) := by
  show rnd_z ((x : ℤ) + -(y : ℤ)) 1 = _
  have e : (x : ℤ) + -(y : ℤ) = ((x - y : ℕ) : ℤ) := by
    rw [Nat.cast_sub hle]
    ring
  rw [e]
  exact rnd_z_cast (x - y) 1 h

theorem dmul_fin (x y : ℕ) (h : round_nat (x * y) scale < huge) :
    dmul (Dbl.fin (x : ℤ)) (Dbl.fin (y : ℤ))
      = Dbl.fin ((round_nat (x * y) scale : ℕ) : ℤ) := by
  show rnd_z ((x : ℤ) * (y : ℤ)) scale = _
  rw [← Nat.cast_mul]
  exact rnd_z_cast (x * y) scale h

set_option maxRecDepth 100000 in
theorem ddiv_one : ddiv (of_int 1) p = Dbl.fin ((1 * part : ℕ) : ℤ) := by decide!

set_option maxRecDepth 100000 in
theorem ddiv_grid : ∀ i ∈ grid_indices,
    ddiv (of_int ((i : ℕ) : ℤ)) p = Dbl.fin ((i * part : ℕ) : ℤ) := by
  decide!

/-- The step `(1/p)*(upperC-lowerC)` of a round on the interval `[a, b]`. -/
theorem step_fin (a b : ℕ) (hab : a ≤ b) (h1 : rnd1 (b - a) < huge) (h2 : step_of a b < huge) :
    dmul (ddiv (of_int 1) p) (dsub (Dbl.fin (b : ℤ)) (Dbl.fin (a : ℤ)))
      = Dbl.fin ((step_of a b : ℕ) : ℤ) := by
  rw [dsub_fin b a hab h1, ddiv_one]
  exact dmul_fin _ _ h2

/-- The grid point `i` of a round on the interval `[a, b]`. -/
theorem grid_point_fin (a b i : ℕ) (hi : i ∈ grid_indices) (hab : a ≤ b)
    (h1 : rnd1 (b - a) < huge) (h2 : rnd_part i (rnd1 (b - a)) < huge)
    (h3 : point_of a b i < huge) :
    grid_point (Dbl.fin (a : ℤ)) (Dbl.fin (b : ℤ)) i = Dbl.fin ((point_of a b i : ℕ) : ℤ) := by
  unfold grid_point
  rw [dsub_fin b a hab h1, ddiv_grid i hi, dmul_fin _ _ h2]
  exact dadd_fin _ _ h3


theorem round_lowerC (E : Dbl → Dbl) (s : Vars) :
    (round E s).lowerC = new_lower s (round E s).best := rfl

theorem round_upperC (E : Dbl → Dbl) (s : Vars) :
    (round E s).upperC
      = dadd (round E s).best
          (dmul (ddiv (of_int 1) p) (dsub s.upperC (round E s).lowerC)) := rfl

/-- At the end of a round, `best` is the old `best`, unless `besterr` was the sentinel, or
one of the 30 grid points. -/
theorem round_best_cases (E : Dbl → Dbl) (s : Vars) :
    ((round E s).best = s.best ∧ s.besterr ≠ of_int (-1))
      ∨ ∃ i ∈ grid_indices, (round E s).best = grid_point s.lowerC s.upperC i := by
  rw [ieee_round_best]
  by_cases hs : s.besterr = of_int (-1)
  · right
    rw [grid_indices_cons, grid_loop_sentinel E _ _ 1 _ (s.best, s.besterr) hs]
    rcases ieee_grid_loop_cases E s.lowerC s.upperC (List.range 31).tail.tail
        (grid_point s.lowerC s.upperC 1, E (grid_point s.lowerC s.upperC 1)) with h | ⟨i, hi, h⟩
    · exact ⟨1, List.mem_cons_self _ _, by rw [h]⟩
    · exact ⟨i, List.mem_cons_of_mem _ hi, by rw [h]⟩
  · rcases ieee_grid_loop_cases E s.lowerC s.upperC grid_indices (s.best, s.besterr) with
      h | ⟨i, hi, h⟩
    · left
      exact ⟨by rw [h], hs⟩
    · right
      exact ⟨i, hi, by rw [h]⟩

/-- A round from a state of the search, on the numbers of units: the new bounds and `best`
are finite doubles `a2 <= c <= b2`, the new width is at most `9/16` of the old one, and the
new state is again a state of the search. -/
theorem round_interval_inv (E : Dbl → Dbl) (B : ℕ) (hB : B < 7 * huge) (s : Vars)
    (h : interval_inv B s) :
    ∃ a b a2 c b2 : ℕ, s.lowerC = Dbl.fin (a : ℤ) ∧ s.upperC = Dbl.fin (b : ℤ) ∧ a ≤ b
      ∧ (round E s).lowerC = Dbl.fin (a2 : ℤ) ∧ (round E s).best = Dbl.fin (c : ℤ)
      ∧ (round E s).upperC = Dbl.fin (b2 : ℤ)
      ∧ a2 ≤ c ∧ c ≤ b2 ∧ 16 * (b2 - a2) ≤ 9 * (b - a)
      ∧ interval_inv B (round E s) := by
  obtain ⟨a, b, hlo, hup, ha, hb, hab, hpot, hbest⟩ := h
  have hbh : b < huge := by omega
  -- the value of `best` at the end of the round
  have hgood : ∃ c : ℕ, (round E s).best = Dbl.fin (c : ℤ) ∧ representable c ∧ a ≤ c ∧ c ≤ b
      ∧ step_of a b ≤ c := by
    rcases round_best_cases E s with ⟨h1, h2⟩ | ⟨i, hi, h1⟩
    · rcases hbest with h3 | ⟨c, h3, h4⟩
      · exact absurd h3 h2
      · exact ⟨c, by rw [h1, h3], h4⟩
    · have hi2 := (mem_grid_indices i).mp hi
      obtain ⟨p1, p2, p3, p4, p5, p6, p7⟩ := point_core a b i ha hb hbh hab hi2.1 hi2.2
      refine ⟨point_of a b i, ?_, p4, p5, p6, p7⟩
      rw [h1, hlo, hup]
      exact grid_point_fin a b i hi hab p1 p2 p3
  obtain ⟨c, hc, hcr, hac, hcb, hst⟩ := hgood
  obtain ⟨q1, q2, q3, q4, q5, q6, q7, q8, q9, q10, q11, q12, q13, q14⟩ :=
    round_core a b c hb hcr (by omega) hab hac hcb hst
  have hl : (round E s).lowerC = Dbl.fin ((lower_of a b c : ℕ) : ℤ) := by
    rw [round_lowerC, hc]
    unfold new_lower
    rw [hlo, hup, step_fin a b hab q1 q2]
    exact dsub_fin c (step_of a b) hst q3
  have hu : (round E s).upperC = Dbl.fin ((upper_of a b c : ℕ) : ℤ) := by
    rw [round_upperC, hc, hl, hup, dsub_fin b (lower_of a b c) q11 q4, ddiv_one,
      dmul_fin _ _ q5]
    exact dadd_fin _ _ q6
  refine ⟨a, b, lower_of a b c, c, upper_of a b c, hlo, hup, hab, hl, hc, hu, q9, q10, q12,
    ?_⟩
  exact ⟨lower_of a b c, upper_of a b c, hl, hu, q7, q8, le_trans q9 q10, by omega,
    Or.inr ⟨c, hc, hcr, q9, q10, q14⟩⟩

/-- Every state that the loop goes through from a state of the search is one. -/
theorem vars_after_interval_inv (E : Dbl → Dbl) (B : ℕ) (hB : B < 7 * huge) (k : ℕ)
    (s0 s : Vars) (h0 : interval_inv B s0) (h : vars_after E k s0 = some s) :
    interval_inv B s := by
  induction k generalizing s0 with
  | zero =>
    simp only [vars_after, Option.some.injEq] at h
    rw [← h]
    exact h0
  | succ k ih =>
    cases ht : dlt threshold s0.deltaerror with
    | false =>
      rw [vars_after_none E k s0 ht] at h
      cases h
    | true =>
      rw [vars_after_succ E k s0 ht] at h
      obtain ⟨_, _, _, _, _, _, _, _, _, _, _, _, _, _, h1⟩ := round_interval_inv E B hB s0 h0
      exact ih _ h1 h


set_option exponentiation.threshold 10000 in
theorem scale_le_huge : 64 * scale ≤ huge := by
  unfold scale huge
  rw [show (64 : ℕ) = 2 ^ 6 from rfl, ← pow_add]
  exact Nat.pow_le_pow_right (by norm_num) (by norm_num)

/-- The ceiling of a finite double that is not negative: a number of units between `t` and
`t + 1`. -/
theorem dceil_fin (t : ℕ) : ∃ T : ℕ, dceil (Dbl.fin (t : ℤ)) = Dbl.fin (T : ℤ) ∧ T ≤ t + scale := by
  have hs : (0 : ℤ) < (scale : ℤ) := by exact_mod_cast scale_pos
  have h1 : -(t : ℤ) / (scale : ℤ) * (scale : ℤ) ≤ -(t : ℤ) := Int.ediv_mul_le _ (ne_of_gt hs)
  have h2 : -(t : ℤ) < (-(t : ℤ) / (scale : ℤ) + 1) * (scale : ℤ) :=
    Int.lt_ediv_add_one_mul_self _ hs
  have h3 : (-(t : ℤ) / (scale : ℤ) + 1) * (scale : ℤ)
      = -(t : ℤ) / (scale : ℤ) * (scale : ℤ) + (scale : ℤ) := by ring
  have h4 : (0 : ℤ) ≤ (t : ℤ) := Int.ofNat_nonneg t
  refine ⟨(-(-(t : ℤ) / (scale : ℤ)) * (scale : ℤ)).toNat, ?_, ?_⟩
  · have h5 : (0 : ℤ) ≤ -(-(t : ℤ) / (scale : ℤ)) * (scale : ℤ) := by
      rw [neg_mul]
      omega
    show Dbl.fin (-(-(t : ℤ) / (scale : ℤ)) * (scale : ℤ)) = _
    rw [Int.toNat_of_nonneg h5]
  · have h5 : -(-(t : ℤ) / (scale : ℤ)) * (scale : ℤ) ≤ (t : ℤ) + (scale : ℤ) := by
      rw [neg_mul]
      omega
    have h6 : ((-(-(t : ℤ) / (scale : ℤ)) * (scale : ℤ)).toNat : ℤ) ≤ ((t + scale : ℕ) : ℤ) := by
      rw [Int.toNat_of_nonneg (by rw [neg_mul]; omega), Nat.cast_add]
      exact h5
    exact_mod_cast h6

/-- The state on entry to the loop of `get_const` is a state of the search, when the last
runtime is a finite double `t` with `0 <= t <= 2^1018`. -/
theorem init_interval_inv (env : Env) (data : Dataset) (t : ℕ)
    (ht : last_runtime env data = Dbl.fin (t : ℤ)) (hbig : 64 * t ≤ huge) :
    ∃ B, B < 7 * huge ∧ interval_inv B (init_vars env data) := by
  have hs := huge_le_span
  have hsc := scale_le_huge
  have hp := huge_pos
  obtain ⟨T, hT, hTle⟩ := dceil_fin t
  have h2 : of_int 2 = Dbl.fin (((2 * scale : ℕ)) : ℤ) := by
    unfold of_int
    rw [Nat.cast_mul]
    rfl
  have h3 : round_nat (2 * scale * T) scale * scale ≤ 2 * (2 * scale * T) :=
    round_nat_le_twice _ _ scale_pos
  have h4 : round_nat (2 * scale * T) scale ≤ 4 * T := by
    have e : 2 * (2 * scale * T) = 4 * T * scale := by ring
    rw [e] at h3
    exact Nat.le_of_mul_le_mul_right h3 scale_pos
  have h5 : 2 * scale * T / scale ≤ 2 * T := by
    apply Nat.div_le_of_le_mul
    have e : scale * (2 * T) = 2 * scale * T := by ring
    rw [e]
  have h6 : representable (round_nat (2 * scale * T) scale) :=
    round_nat_representable _ _ (by omega)
  have hup : (init_vars env data).upperC
      = Dbl.fin ((round_nat (2 * scale * T) scale : ℕ) : ℤ) := by
    show dmul (of_int 2) (dceil (last_runtime env data)) = _
    rw [ht, hT, h2]
    exact dmul_fin _ _ (by omega)
  have hlo : (init_vars env data).lowerC = Dbl.fin ((0 : ℕ) : ℤ) := by
    show of_int 0 = _
    rw [of_int_zero]
    rfl
  exact ⟨12 * round_nat (2 * scale * T) scale, by omega,
    0, round_nat (2 * scale * T) scale, hlo, hup, representable_zero, h6, Nat.zero_le _,
    by omega, Or.inl rfl⟩


/-- C19 (as amended).  In a call of `get_const` on a dataset whose last runtime is a finite
double `t` with `0 <= t <= 2^1018` (64 `t` units at most `2^2098`), in IEEE double
arithmetic, the round that starts from the state `s` reached after `k` rounds takes an
interval `[a, b]` of finite doubles to an interval `[a2, b2]` of finite doubles with
`0 <= a2 <= best <= b2`, and the new width is at most `9/16` of the old one (widths as
exact numbers). -/
theorem round_keeps_order_and_narrows (env : Env) (data : Dataset) (comp : complexity)
    (t : ℕ) (ht : last_runtime env data = Dbl.fin (t : ℤ)) (hbig : 64 * t ≤ huge) (k : ℕ)
    (s : Vars)
    (h : vars_after (fun C => get_error env data C comp) k (init_vars env data) = some s) :
    (∃ a b a2 c b2 : ℕ, s.lowerC = Dbl.fin (a : ℤ) ∧ s.upperC = Dbl.fin (b : ℤ) ∧ a ≤ b
        ∧ (round (fun C => get_error env data C comp) s).lowerC = Dbl.fin (a2 : ℤ)
        ∧ (round (fun C => get_error env data C comp) s).best = Dbl.fin (c : ℤ)
        ∧ (round (fun C => get_error env data C comp) s).upperC = Dbl.fin (b2 : ℤ)
        ∧ a2 ≤ c ∧ c ≤ b2 ∧ 16 * (b2 - a2) ≤ 9 * (b - a))
      ∧ dle (of_int 0) (round (fun C => get_error env data C comp) s).lowerC = true
      ∧ dle (round (fun C => get_error env data C comp) s).lowerC
          (round (fun C => get_error env data C comp) s).best = true
      ∧ dle (round (fun C => get_error env data C comp) s).best
          (round (fun C => get_error env data C comp) s).upperC = true := by
  obtain ⟨B, hB, h0⟩ := init_interval_inv env data t ht hbig
  have hs := vars_after_interval_inv _ B hB k _ s h0 h
  obtain ⟨a, b, a2, c, b2, h1, h2, h3, h4, h5, h6, h7, h8, h9, _⟩ :=
    round_interval_inv (fun C => get_error env data C comp) B hB s hs
  refine ⟨⟨a, b, a2, c, b2, h1, h2, h3, h4, h5, h6, h7, h8, h9⟩, ?_, ?_, ?_⟩
  · rw [h4, of_int_zero]
    exact (dle_fin _ _).mpr (Int.ofNat_nonneg a2)
  · rw [h4, h5]
    exact (dle_fin _ _).mpr (by exact_mod_cast h7)
  · rw [h5, h6]
    exact (dle_fin _ _).mpr (by exact_mod_cast h8)

set_option maxRecDepth 100000 in
theorem eval_5_50_last :
    last_runtime env_nan (read_data [(5, 50)]) = Dbl.fin ((50 * scale : ℕ) : ℤ)
      ∧ 64 * (50 * scale) ≤ huge := by
  decide!

/-- Witness of `round_keeps_order_and_narrows`: the first round on the dataset `{(5,50)}`
with the constant candidate. -/
theorem round_keeps_order_and_narrows_witness :
    (∃ a b a2 c b2 : ℕ, (init_vars env_nan (read_data [(5, 50)])).lowerC = Dbl.fin (a : ℤ)
        ∧ (init_vars env_nan (read_data [(5, 50)])).upperC = Dbl.fin (b : ℤ) ∧ a ≤ b
        ∧ (round (fun C => get_error env_nan (read_data [(5, 50)]) C complexity.c)
            (init_vars env_nan (read_data [(5, 50)]))).lowerC = Dbl.fin (a2 : ℤ)
        ∧ (round (fun C => get_error env_nan (read_data [(5, 50)]) C complexity.c)
            (init_vars env_nan (read_data [(5, 50)]))).best = Dbl.fin (c : ℤ)
        ∧ (round (fun C => get_error env_nan (read_data [(5, 50)]) C complexity.c)
            (init_vars env_nan (read_data [(5, 50)]))).upperC = Dbl.fin (b2 : ℤ)
        ∧ a2 ≤ c ∧ c ≤ b2 ∧ 16 * (b2 - a2) ≤ 9 * (b - a))
      ∧ dle (of_int 0)
          (round (fun C => get_error env_nan (read_data [(5, 50)]) C complexity.c)
            (init_vars env_nan (read_data [(5, 50)]))).lowerC = true
      ∧ dle (round (fun C => get_error env_nan (read_data [(5, 50)]) C complexity.c)
            (init_vars env_nan (read_data [(5, 50)]))).lowerC
          (round (fun C => get_error env_nan (read_data [(5, 50)]) C complexity.c)
            (init_vars env_nan (read_data [(5, 50)]))).best = true
      ∧ dle (round (fun C => get_error env_nan (read_data [(5, 50)]) C complexity.c)
            (init_vars env_nan (read_data [(5, 50)]))).best
          (round (fun C => get_error env_nan (read_data [(5, 50)]) C complexity.c)
            (init_vars env_nan (read_data [(5, 50)]))).upperC = true :=
  round_keeps_order_and_narrows env_nan (read_data [(5, 50)]) complexity.c (50 * scale)
    eval_5_50_last.1 eval_5_50_last.2 0 (init_vars env_nan (read_data [(5, 50)])) rfl

end Ieee

/-- C16 (as amended).  In exact real arithmetic, for every dataset of at most 46340 rows
whose sizes are positive where the candidate takes a logarithm, `get_error` returns a real
number at every constant and is unimodal as a function of the constant: there is a constant
`Cs` such that it is non-increasing up to `Cs` and non-decreasing from `Cs` on. -/
theorem get_error_unimodal_exact (data : Dataset) (comp : complexity)
    (hd : in_domain data comp) (hn : data.length ≤ 46340) :
    ∃ Cs : ℝ, ∀ C1 C2 : ℝ, C1 ≤ C2 →
      ∃ e1 e2 : ℝ, get_error data C1 comp = some e1 ∧ get_error data C2 comp = some e2
        ∧ (C2 ≤ Cs → e2 ≤ e1) ∧ (Cs ≤ C1 → e1 ≤ e2) := by
  obtain ⟨Cs, h1, h2, h3⟩ := get_error_unimodal data comp
  refine ⟨Cs, fun C1 C2 h12 => ?_⟩
  obtain ⟨e1, he1⟩ := h3 hd hn C1
  obtain ⟨e2, he2⟩ := h3 hd hn C2
  exact ⟨e1, e2, he1, he2, fun h => h1 C1 C2 e1 e2 h12 h he1 he2,
    fun h => h2 C1 C2 e1 e2 h h12 he1 he2⟩

/-- Witness of `get_error_unimodal_exact` on the dataset `{(1,0),(1,2)}` with the constant
candidate. -/
theorem get_error_unimodal_exact_witness :
    ∃ Cs : ℝ, ∀ C1 C2 : ℝ, C1 ≤ C2 →
      ∃ e1 e2 : ℝ, get_error rows_1_0_1_2 C1 complexity.c = some e1
        ∧ get_error rows_1_0_1_2 C2 complexity.c = some e2
        ∧ (C2 ≤ Cs → e2 ≤ e1) ∧ (Cs ≤ C1 → e1 ≤ e2) :=
  get_error_unimodal_exact rows_1_0_1_2 complexity.c
    ⟨by decide, fun h => by rcases h with h | h | h <;> cases h⟩
    (by simp [rows_1_0_1_2])

end Blunder

end
